import Mathlib

/-!
# Verification of the `atmst` Merkle Search Tree engine

This file gives a shallow embedding, in Lean 4, of the core algorithms of the
`atmst` repository (content-addressed Merkle Search Tree engine), and settles a
list of claims about them.

Modelling conventions, used throughout:

* Python `bytes` and `str` values are modelled as `List Nat` (byte / code point
  sequences).  Python string comparison (code-point lexicographic) and bytes
  comparison agree with lexicographic order on these lists.
* The engine is content-addressed: a node's CID is the sha-256 hash of its
  canonical serialisation, and the serialisation is injective on well-formed
  nodes.  Collisions of sha-256 are outside the model (as in the spec), so a
  CID is identified with the node it names: the type `CID` of the source is
  modelled as `MSTNode` itself, `NodeStore.get_node` becomes the identity on
  `some`-CIDs (returning the canonical empty node on `none`), and
  `NodeStore.stored_node` becomes the identity.  CID equality is then node
  equality, exactly as in the content-addressed system.
* Record-value CIDs are opaque byte strings: `Val := List Nat`.
* Python exceptions are modelled with `Option`/`Except`: `none`/`.error`
  means the corresponding call raises.
* `MSTNode.key_height` consults sha-256 of the key.  The tree algorithms are
  developed over an arbitrary height assignment `H : Key → Nat` (a section
  variable); sha-256 is implemented below and the claims are stated at the
  sha-256 instance `keyHeight`, so every theorem about the generic development
  specialises to the source's height function.
-/

/-- Keys (Python `str` / `bytes`): sequences of code points / bytes. -/
abbrev Key := List Nat

/-- Record-value CIDs, opaque byte strings. -/
abbrev Val := List Nat

/-- Strict lexicographic order on keys: Python `<` on `str`/`bytes`. -/
def keyLt : Key → Key → Bool
  | [], [] => false
  | [], _ :: _ => true
  | _ :: _, [] => false
  | a :: as, b :: bs => if a < b then true else if a > b then false else keyLt as bs

/-- Python `<=` on strings: `a <= b ↔ ¬ b < a` for a total order. -/
def keyLe (a b : Key) : Bool := !(keyLt b a)

theorem keyLt_irrefl (a : Key) : keyLt a a = false := by
  induction a with
  | nil => rfl
  | cons x xs ih => simp [keyLt, ih]

theorem keyLt_trans : ∀ {a b c : Key}, keyLt a b → keyLt b c → keyLt a c
  | [], [], _, h, _ => by simp [keyLt] at h
  | [], _ :: _, [], _, h => by simp [keyLt] at h
  | [], _ :: _, _ :: _, _, _ => by simp [keyLt]
  | _ :: _, [], _, h, _ => by simp [keyLt] at h
  | _ :: _, _ :: _, [], _, h => by simp [keyLt] at h
  | a :: as, b :: bs, c :: cs, h₁, h₂ => by
    simp only [keyLt] at h₁ h₂ ⊢
    rcases Nat.lt_trichotomy a b with hab | hab | hab <;>
      rcases Nat.lt_trichotomy b c with hbc | hbc | hbc <;>
      simp_all [Nat.lt_irrefl] <;>
      first
        | (exact absurd rfl (by omega))
        | (simp [show a < c by omega])
        | (exact keyLt_trans h₁ h₂)

theorem keyLt_asymm {a b : Key} (h : keyLt a b) : keyLt b a = false := by
  by_contra hc
  have := keyLt_trans h (by simpa using Bool.of_not_eq_false hc)
  simp [keyLt_irrefl] at this

theorem keyLt_total : ∀ (a b : Key), keyLt a b ∨ keyLt b a ∨ a = b
  | [], [] => by simp
  | [], _ :: _ => by simp [keyLt]
  | _ :: _, [] => by simp [keyLt]
  | a :: as, b :: bs => by
    rcases Nat.lt_trichotomy a b with h | h | h
    · exact Or.inl (by simp [keyLt, h])
    · subst h
      rcases keyLt_total as bs with h' | h' | h'
      · exact Or.inl (by simp [keyLt, h'])
      · exact Or.inr (Or.inl (by simp [keyLt, h']))
      · exact Or.inr (Or.inr (by simp [h']))
    · exact Or.inr (Or.inl (by simp [keyLt, h]))

theorem keyLt_of_ne_of_not_lt {a b : Key} (hne : a ≠ b) (h : keyLt a b = false) :
    keyLt b a := by
  rcases keyLt_total a b with h' | h' | h' <;> simp_all

/-! ## Varint codec (`src/atmst/blockstore/car_file.py`)

`decode_varint` reads from a byte stream; we model the stream as the list of
bytes not yet consumed, and a successful decode returns the value together
with the rest of the stream.  A raised `ValueError` is `none`.

The source iterates `for shift in range(0, 63, 7)`, i.e. over the nine shifts
0, 7, …, 56; we model the iteration by recursion on the number of remaining
iterations, keeping `shift` explicit. -/

/-- One loop of `decode_varint`: `iters` counts the remaining iterations of
`range(0, 63, 7)` (initially 9), `shift` is the current shift, `n` the
accumulator.  Returns `none` where the source raises `ValueError`
("unexpected end of varint input", "varint not minimally encoded",
"varint too long"). -/
def decodeVarintLoop : Nat → Nat → Nat → List Nat → Option (Nat × List Nat)
  | 0, _, _, _ => none  -- loop exhausted: "varint too long"
  | _ + 1, _, _, [] => none  -- "unexpected end of varint input"
  | iters + 1, shift, n, val :: rest =>
    let n := n ||| ((val % 128) <<< shift)
    if val < 128 then
      if shift ≠ 0 ∧ val = 0 then none  -- "varint not minimally encoded"
      else some (n, rest)
    else
      decodeVarintLoop iters (shift + 7) n rest

/-- `decode_varint` from `car_file.py`. -/
def decode_varint (stream : List Nat) : Option (Nat × List Nat) :=
  decodeVarintLoop 9 0 0 stream

/-- The `while n > 0x7f` loop of `encode_varint`, emitting low 7-bit groups.
For `0 ≤ n < 2^63` the loop runs at most nine times, so we index the
recursion by a fuel of 9 (the `0` case is unreachable for such inputs). -/
def encodeVarintLoop : Nat → Nat → List Nat
  | 0, _ => []
  | fuel + 1, n =>
    if n > 0x7f then (0x80 ||| (n % 0x80)) :: encodeVarintLoop fuel (n >>> 7)
    else [n]

/-- `encode_varint` from `car_file.py`; the input is an integer, and `none`
models the `ValueError` raised outside `0 ≤ n < 2^63`. -/
def encode_varint (n : Int) : Option (List Nat) :=
  if 0 ≤ n ∧ n < 2 ^ 63 then some (encodeVarintLoop 9 n.toNat) else none

theorem lor_shiftLeft_eq_add {a s : Nat} (b : Nat) (h : a < 2 ^ s) :
    a ||| (b <<< s) = b <<< s + a := by
  have hrw : b <<< s + a = 2 ^ s * b + a := by
    rw [Nat.shiftLeft_eq]; ring
  rw [hrw]
  apply Nat.eq_of_testBit_eq
  intro k
  rw [Nat.testBit_mul_pow_two_add _ h]
  rcases Nat.lt_or_ge k s with hk | hk
  · simp [Nat.testBit_lor, Nat.testBit_shiftLeft, hk, Nat.not_le_of_lt hk]
  · simp [Nat.testBit_lor, Nat.testBit_shiftLeft, hk, Nat.not_lt_of_le hk,
      Nat.testBit_lt_two_pow (Nat.lt_of_lt_of_le h (Nat.pow_le_pow_right (by norm_num) hk))]

theorem byte_lor_128 {val : Nat} (h₁ : 128 ≤ val) (h₂ : val < 256) :
    128 ||| val % 128 = val := by
  have : val % 128 ||| 1 <<< 7 = 1 <<< 7 + val % 128 :=
    lor_shiftLeft_eq_add 1 (Nat.mod_lt _ (by norm_num))
  rw [Nat.lor_comm]
  simp only [show (1 : Nat) <<< 7 = 128 from rfl] at this
  rw [this]
  omega

theorem decodeVarintLoop_encode :
    ∀ (iters n shift acc : Nat) (rest : List Nat),
      n < 2 ^ (7 * iters) → 1 ≤ iters → (shift ≠ 0 → 0 < n) → acc < 2 ^ shift →
      decodeVarintLoop iters shift acc (encodeVarintLoop iters n ++ rest) =
        some (n <<< shift + acc, rest) := by
  intro iters
  induction iters with
  | zero => omega
  | succ it ih =>
    intro n shift acc rest hn _ hpos hacc
    rw [encodeVarintLoop]
    by_cases h : n > 0x7f
    · simp only [h, if_pos, List.cons_append]
      have hbyte : 0x80 ||| n % 0x80 = 128 + n % 128 := by
        have : n % 128 ||| 1 <<< 7 = 1 <<< 7 + n % 128 :=
          lor_shiftLeft_eq_add 1 (Nat.mod_lt _ (by norm_num))
        rw [Nat.lor_comm]
        simpa using this
      rw [decodeVarintLoop, hbyte]
      have hb : ¬ (128 + n % 128 < 128) := by omega
      simp only [hb, if_neg, reduceIte]
      have hmod : (128 + n % 128) % 128 = n % 128 := by omega
      rw [hmod]
      have hacc' : acc ||| ((n % 128) <<< shift) = (n % 128) <<< shift + acc :=
        lor_shiftLeft_eq_add _ hacc
      rw [hacc']
      have hn' : n >>> 7 < 2 ^ (7 * it) := by
        rw [Nat.shiftRight_eq_div_pow]
        have : 2 ^ (7 * (it + 1)) = 2 ^ (7 * it) * 2 ^ 7 := by
          rw [← pow_add]; ring_nf
        rw [this] at hn
        exact Nat.div_lt_of_lt_mul (by omega)
      have hit : 1 ≤ it := by
        by_contra hc
        have : it = 0 := by omega
        subst this
        simp at hn
        omega
      have := ih (n >>> 7) (shift + 7) ((n % 128) <<< shift + acc) rest hn' hit
        (fun _ => by
          rw [Nat.shiftRight_eq_div_pow]
          exact Nat.div_pos (by omega) (by norm_num))
        (by
          have h1 : n % 128 < 128 := Nat.mod_lt _ (by norm_num)
          have h2 : (n % 128) <<< shift = n % 128 * 2 ^ shift := Nat.shiftLeft_eq _ _
          have h3 : (2 : Nat) ^ (shift + 7) = 2 ^ shift * 128 := by
            rw [pow_add]; norm_num
          have h4 : n % 128 * 2 ^ shift ≤ 127 * 2 ^ shift :=
            Nat.mul_le_mul_right _ (by omega)
          omega)
      rw [this]
      congr 2
      have e1 : n >>> 7 <<< (shift + 7) = n / 128 * (2 ^ shift * 128) := by
        rw [Nat.shiftRight_eq_div_pow, Nat.shiftLeft_eq, pow_add]
        norm_num
      have e2 : (n % 128) <<< shift = n % 128 * 2 ^ shift := Nat.shiftLeft_eq _ _
      have e3 : n <<< shift = n * 2 ^ shift := Nat.shiftLeft_eq _ _
      have e4 : 128 * (n / 128) + n % 128 = n := Nat.div_add_mod n 128
      rw [e1, e2, e3]
      nlinarith [e4]
    · simp only [h, if_neg, reduceIte, List.cons_append]
      rw [decodeVarintLoop]
      have hb : n < 128 := by omega
      simp only [hb, if_pos, reduceIte]
      have hguard : ¬ (shift ≠ 0 ∧ n = 0) := by
        rintro ⟨hs, hn0⟩
        exact absurd (hpos hs) (by omega)
      simp only [hguard, if_neg, reduceIte]
      have : acc ||| ((n % 128) <<< shift) = (n % 128) <<< shift + acc :=
        lor_shiftLeft_eq_add _ hacc
      rw [this, Nat.mod_eq_of_lt hb]
      simp

theorem decodeVarintLoop_inv :
    ∀ (iters : Nat) (b : List Nat) (shift acc n' : Nat) (rest : List Nat),
      decodeVarintLoop iters shift acc b = some (n', rest) →
      (∀ x ∈ b, x < 256) → acc < 2 ^ shift →
      ∃ v, b = encodeVarintLoop iters v ++ rest ∧ n' = v <<< shift + acc ∧
        v < 2 ^ (7 * iters) ∧ (shift ≠ 0 → 0 < v) := by
  intro iters
  induction iters with
  | zero => intro b shift acc n' rest h; simp [decodeVarintLoop] at h
  | succ it ih =>
    intro b shift acc n' rest h hbytes hacc
    match b with
    | [] => simp [decodeVarintLoop] at h
    | val :: b' =>
      rw [decodeVarintLoop] at h
      by_cases hv : val < 128
      · simp only [hv, if_pos, reduceIte] at h
        split at h
        · exact absurd h (by simp)
        · rename_i hguard
          injection h with h
          injection h with h1 h2
          refine ⟨val, ?_, ?_, ?_, ?_⟩
          · rw [encodeVarintLoop]
            simp only [show ¬ (val > 0x7f) by omega, if_neg, reduceIte]
            simpa using h2
          · rw [← h1, lor_shiftLeft_eq_add _ hacc, Nat.mod_eq_of_lt hv]
          · calc val < 128 := hv
              _ ≤ 2 ^ (7 * (it + 1)) := by
                have : (128 : Nat) = 2 ^ 7 := by norm_num
                rw [this]
                exact Nat.pow_le_pow_right (by norm_num) (by omega)
          · intro hs
            by_contra hc
            exact hguard ⟨hs, by omega⟩
      · simp only [hv, if_neg, reduceIte] at h
        have hval256 : val < 256 := hbytes val (by simp)
        have hacc' : acc ||| ((val % 128) <<< shift) = (val % 128) <<< shift + acc :=
          lor_shiftLeft_eq_add _ hacc
        rw [hacc'] at h
        obtain ⟨v', hb', hn', hvlt, hvpos⟩ := ih b' (shift + 7)
          ((val % 128) <<< shift + acc) n' rest h
          (fun x hx => hbytes x (by simp [hx]))
          (by
            have h1 : val % 128 < 128 := Nat.mod_lt _ (by norm_num)
            have h2 : (val % 128) <<< shift = val % 128 * 2 ^ shift := Nat.shiftLeft_eq _ _
            have h3 : (2 : Nat) ^ (shift + 7) = 2 ^ shift * 128 := by
              rw [pow_add]; norm_num
            have h4 : val % 128 * 2 ^ shift ≤ 127 * 2 ^ shift :=
              Nat.mul_le_mul_right _ (by omega)
            omega)
        have hv'pos : 0 < v' := hvpos (by omega)
        refine ⟨v' * 128 + val % 128, ?_, ?_, ?_, fun _ => by positivity⟩
        · rw [encodeVarintLoop]
          have hgt : v' * 128 + val % 128 > 0x7f := by omega
          simp only [hgt, if_pos, reduceIte]
          have hmod : (v' * 128 + val % 128) % 128 = val % 128 := by
            omega
          have hdiv : (v' * 128 + val % 128) >>> 7 = v' := by
            rw [Nat.shiftRight_eq_div_pow]
            norm_num
            omega
          rw [hmod, hdiv, byte_lor_128 (by omega) hval256, hb']
          simp
        · rw [hn']
          have e1 : v' <<< (shift + 7) = v' * (2 ^ shift * 128) := by
            rw [Nat.shiftLeft_eq, pow_add]; norm_num
          have e2 : (val % 128) <<< shift = val % 128 * 2 ^ shift := Nat.shiftLeft_eq _ _
          have e3 : (v' * 128 + val % 128) <<< shift = (v' * 128 + val % 128) * 2 ^ shift :=
            Nat.shiftLeft_eq _ _
          rw [e1, e2, e3]
          ring_nf
        · have : (2 : Nat) ^ (7 * (it + 1)) = 2 ^ (7 * it) * 128 := by
            rw [show 7 * (it + 1) = 7 * it + 7 by ring, pow_add]
            norm_num
          have := Nat.mod_lt val (show 0 < 128 by norm_num)
          nlinarith

/-- **C9**: varint boundary behaviour.  `encode_varint` maps 0, 127, 128 and
`2^63 − 1` to their expected encodings, errors (`none`) on `2^63` and on `−1`;
`decode_varint` errors on the non-minimal encoding `0x80 0x00`, on empty
input, and on a truncated varint (`0xff` alone). -/
theorem claim_C9_varint_boundaries :
    encode_varint 0 = some [0x00] ∧
    encode_varint 127 = some [0x7f] ∧
    encode_varint 128 = some [0x80, 0x01] ∧
    encode_varint (2 ^ 63 - 1) =
      some [0xff, 0xff, 0xff, 0xff, 0xff, 0xff, 0xff, 0xff, 0x7f] ∧
    encode_varint (2 ^ 63) = none ∧
    encode_varint (-1) = none ∧
    decode_varint [0x80, 0x00] = none ∧
    decode_varint [] = none ∧
    decode_varint [0xff] = none := by
  refine ⟨?_, ?_, ?_, ?_, ?_, ?_, ?_, ?_, ?_⟩ <;> decide

/-- **C10**: varint round-trip.  For every `n < 2^63`, decoding the stream
holding exactly `encode_varint n` returns `n` and consumes the whole
encoding; conversely every stream accepted by `decode_varint` starts with the
(minimal) `encode_varint` image of the decoded value, so encode-after-decode
reproduces the consumed bytes.  (Streams consist of bytes, i.e. values
below 256.) -/
theorem claim_C10_varint_roundtrip :
    (∀ n : Nat, n < 2 ^ 63 →
      ∃ e, encode_varint (n : Int) = some e ∧ decode_varint e = some (n, [])) ∧
    (∀ (b : List Nat) (n : Nat) (rest : List Nat),
      decode_varint b = some (n, rest) → (∀ x ∈ b, x < 256) →
      ∃ e, encode_varint (n : Int) = some e ∧ b = e ++ rest) := by
  constructor
  · intro n hn
    refine ⟨encodeVarintLoop 9 n, ?_, ?_⟩
    · rw [encode_varint, if_pos]
      · simp
      · constructor
        · positivity
        · exact_mod_cast hn
    · have := decodeVarintLoop_encode 9 n 0 0 [] (by norm_num; omega) (by norm_num)
        (by simp) (by norm_num)
      simpa [decode_varint] using this
  · intro b n rest hdec hbytes
    obtain ⟨v, hb, hn, hvlt, _⟩ :=
      decodeVarintLoop_inv 9 b 0 0 n rest hdec hbytes (by norm_num)
    have hv : n = v := by
      simpa using hn
    subst hv
    refine ⟨encodeVarintLoop 9 n, ?_, by simpa using hb⟩
    rw [encode_varint, if_pos]
    · simp
    · refine ⟨by positivity, ?_⟩
      exact_mod_cast (by norm_num at hvlt ⊢; omega : n < 2 ^ 63)

/-- Witness for C10 at a concrete input: `n = 300` encodes to `0xac 0x02`,
which decodes back, and conversely. -/
theorem claim_C10_varint_roundtrip_witness :
    (∃ e, encode_varint (300 : Int) = some e ∧ decode_varint e = some (300, [])) ∧
    (∃ e, encode_varint ((300 : Nat) : Int) = some e ∧
      [0xac, 0x02, 0x07] = e ++ [0x07]) := by
  constructor
  · exact claim_C10_varint_roundtrip.1 300 (by norm_num)
  · exact claim_C10_varint_roundtrip.2 [0xac, 0x02, 0x07] 300 [0x07]
      (by decide) (by decide)

/-! ## MemoryBlockStore (`src/atmst/blockstore/__init__.py`)

The store's `_state` dict is modelled as an association list with unique
keys (updates replace in place).  `put_block` returns the new state, or
`none` for a raised `ValueError`.  Note the source guards the conflict check
with Python truthiness (`if existing_value:`), which is `False` both when the
key is absent and when the stored value is the *empty* byte string. -/

/-- `self._state.get(key)`. -/
def dictGet (d : List (List Nat × List Nat)) (k : List Nat) : Option (List Nat) :=
  match d with
  | [] => none
  | (k', v) :: rest => if k' = k then some v else dictGet rest k

/-- `self._state[key] = value` (replace in place, else append). -/
def dictSet (d : List (List Nat × List Nat)) (k v : List Nat) :
    List (List Nat × List Nat) :=
  match d with
  | [] => [(k, v)]
  | (k', v') :: rest => if k' = k then (k', v) :: rest else (k', v') :: dictSet rest k v

/-- `MemoryBlockStore.put_block`: `none` models the raised `ValueError`
("block values are immutable"); otherwise the updated state is returned. -/
def put_block (d : List (List Nat × List Nat)) (key value : List Nat) :
    Option (List (List Nat × List Nat)) :=
  match dictGet d key with
  | some existing =>
    if existing ≠ [] then  -- `if existing_value:` (truthy ⇔ non-empty bytes)
      if existing = value then some d  -- "the value matches, there's nothing to do"
      else none  -- raise ValueError("block values are immutable")
    else some (dictSet d key value)
  | none => some (dictSet d key value)

/-- `MemoryBlockStore.get_block`: `none` models the raised `KeyError`. -/
def get_block (d : List (List Nat × List Nat)) (key : List Nat) : Option (List Nat) :=
  dictGet d key

/-- **C5** (code bug): the claim asserts that after a successful
`put_block(k, v1)`, a later `put_block(k, v2)` with `v2 ≠ v1` raises and
leaves `v1` stored.  The code contradicts its own docstring ("if you call
put() twice with the same key but different value, you get a ValueError")
when `v1` is the empty byte string: `if existing_value:` is falsy for `b""`,
so the second put silently *overwrites*.  Concretely: starting from the empty
store, `put_block([1], [])` succeeds, and then `put_block([1], [5])` with
`[5] ≠ []` also succeeds and replaces the stored value. -/
theorem claim_C5_put_block_empty_value_overwrite :
    put_block [] [1] [] = some [([1], [])] ∧
    ([5] : List Nat) ≠ [] ∧
    put_block [([1], [])] [1] [5] = some [([1], [5])] ∧
    get_block [([1], [5])] [1] = some [5] := by
  refine ⟨?_, ?_, ?_, ?_⟩ <;> decide

/-- The half of C5 that does hold: when the stored value `v1` is non-empty,
a conflicting `put_block` raises (`none`), and repeating the identical put is
a no-op. -/
theorem claim_C5_put_block_conflict_nonempty (d : List (List Nat × List Nat))
    (k v1 v2 : List Nat) (h1 : dictGet d k = some v1) (hne : v1 ≠ [])
    (hconflict : v1 ≠ v2) :
    put_block d k v2 = none ∧ put_block d k v1 = some d := by
  rw [put_block, h1, put_block, h1]
  simp [hne, hconflict]

/-- Witness for the non-empty-value conflict theorem at a concrete store. -/
theorem claim_C5_put_block_conflict_nonempty_witness :
    put_block [([1], [7])] [1] [5] = none ∧
    put_block [([1], [7])] [1] [7] = some [([1], [7])] :=
  claim_C5_put_block_conflict_nonempty [([1], [7])] [1] [7] [5]
    (by decide) (by decide) (by decide)

/-! ## MSTNode (`src/mst.py`, `class MSTNode`; the package module
`src/atmst/mst/node.py` is referenced by the `atmst.mst` modules but absent
from `src/`, so where behaviour is decided by it we model from the spec and
from the `src/mst.py` copy of the class)

A node holds three parallel immutable sequences.  CIDs are identified with
the nodes they name (see the header), so `subtrees` stores `Option MSTNode`
and `node.cid` is `node` itself. -/

inductive MSTNode where
  | mk (keys : List Key) (vals : List Val) (subtrees : List (Option MSTNode))

def MSTNode.keys : MSTNode → List Key
  | .mk k _ _ => k

def MSTNode.vals : MSTNode → List Val
  | .mk _ v _ => v

def MSTNode.subtrees : MSTNode → List (Option MSTNode)
  | .mk _ _ s => s

@[simp] theorem MSTNode.keys_mk (k v s) : (MSTNode.mk k v s).keys = k := rfl
@[simp] theorem MSTNode.vals_mk (k v s) : (MSTNode.mk k v s).vals = v := rfl
@[simp] theorem MSTNode.subtrees_mk (k v s) : (MSTNode.mk k v s).subtrees = s := rfl

/-- `MSTNode.empty_root()`. -/
def MSTNode.empty_root : MSTNode := .mk [] [] [none]

/-- `MSTNode.is_empty`: `self.subtrees == (None,)`. -/
def MSTNode.is_empty (n : MSTNode) : Bool :=
  match n.subtrees with
  | [none] => true
  | _ => false

/-- `MSTNode._to_optional`: `None` if the node is empty, else its CID
(= the node itself in this model). -/
def MSTNode._to_optional (n : MSTNode) : Option MSTNode :=
  if n.is_empty then none else some n

/-- `MSTNode.gte_index`: index of the first key `≥ key` (the source's linear
scan `while i < len(keys) and key > keys[i]: i += 1`). -/
def gteIndexAux (keys : List Key) (key : Key) : Nat :=
  match keys with
  | [] => 0
  | k :: rest => if keyLt k key then gteIndexAux rest key + 1 else 0

def MSTNode.gte_index (n : MSTNode) (key : Key) : Nat :=
  gteIndexAux n.keys key

/-- tuple helpers from `node_wrangler.py` (`original[:i] + (value,) +
original[i+1:]` and friends), translated literally. -/
def tuple_replace_at {α : Type} (original : List α) (i : Nat) (value : α) : List α :=
  original.take i ++ [value] ++ original.drop (i + 1)

def tuple_insert_at {α : Type} (original : List α) (i : Nat) (value : α) : List α :=
  original.take i ++ [value] ++ original.drop i

def tuple_remove_at {α : Type} (original : List α) (i : Nat) : List α :=
  original.take i ++ original.drop (i + 1)

/-- `NodeStore.get_node`: on a `None` CID return the canonical empty node;
otherwise the node the CID names (the node itself here).  The LRU cache and
the backing BlockStore are pure performance artefacts (spec §4.2: "absence
never changes semantics") and do not appear in the model; `stored_node`
is the identity. -/
def get_node (c : Option MSTNode) : MSTNode :=
  match c with
  | none => MSTNode.empty_root
  | some n => n

section TreeOps

-- The height assignment for keys.  `MSTNode.key_height` computes
-- `(256 − bitlength(sha256(key))) // 2`; the whole development is generic in
-- `H`, and the claims are stated at the sha-256 instance `keyHeight` defined
-- below.
variable (H : Key → Nat)

/-- `MSTNode.height` (`src/mst.py` lines 140-151): the height of the first
key; 0 for the canonical empty node.  For a keyless node with a non-null
`subtrees[0]` the `src/mst.py` copy raises.  Modelled from the spec: such
placeholder nodes sit one level above their sole subtree (spec §3
invariants 3-4: every key under `subtrees[i]` is strictly lower than the
node's level), so their height is the subtree's height plus one.  All uses
of `height` on the put/delete spine only ever see keyed nodes or the empty
root, where the model and the source agree definitionally. -/
def MSTNode.height : MSTNode → Nat
  | .mk (k :: _) _ _ => H k
  | .mk [] _ [] => 0
  | .mk [] _ (none :: _) => 0
  | .mk [] _ (some t :: _) => t.height + 1

end TreeOps

theorem getD_eq_default_or_mem {α : Type} (l : List α) (i : Nat) (d : α) :
    l.getD i d = d ∨ l.getD i d ∈ l := by
  induction l generalizing i with
  | nil => simp
  | cons x xs ih =>
    cases i with
    | zero => simp
    | succ j =>
      rcases ih j with h | h
      · left; simpa using h
      · right; simp [List.getD_cons_succ]; right; simpa using h

theorem sizeOf_list_pos {α : Type} [SizeOf α] (l : List α) : 1 ≤ sizeOf l := by
  cases l with
  | nil => simp
  | cons x xs => simp; omega

theorem sizeOf_getD_le (l : List (Option MSTNode)) (i : Nat) :
    sizeOf (l.getD i none) ≤ sizeOf l := by
  rcases getD_eq_default_or_mem l i none with h | h
  · rw [h]
    simpa using sizeOf_list_pos l
  · exact Nat.le_of_lt (List.sizeOf_lt_sizeOf_of_mem h)

theorem sizeOf_subtrees_lt (k : List Key) (v : List Val) (s : List (Option MSTNode)) :
    sizeOf s < sizeOf (MSTNode.mk k v s) := by
  simp [MSTNode.mk.sizeOf_spec]

theorem sizeOf_node_subtrees_lt (n : MSTNode) : sizeOf n.subtrees < sizeOf n := by
  cases n with
  | mk k v s => exact sizeOf_subtrees_lt k v s

theorem sizeOf_getD_subtree_lt (n : MSTNode) (i : Nat) :
    sizeOf (n.subtrees.getD i none) < sizeOf (some n) := by
  calc sizeOf (n.subtrees.getD i none) ≤ sizeOf n.subtrees := sizeOf_getD_le _ _
    _ < sizeOf n := sizeOf_node_subtrees_lt n
    _ < sizeOf (some n) := by simp

def _split_on_key (node_cid : Option MSTNode) (key : Key) :
    Option MSTNode × Option MSTNode :=
  match node_cid with
  | none => (none, none)
  | some node =>
    let i := node.gte_index key
    let lr := _split_on_key (node.subtrees.getD i none) key
    ((MSTNode.mk (node.keys.take i) (node.vals.take i)
        (node.subtrees.take i ++ [lr.1]))._to_optional,
     (MSTNode.mk (node.keys.drop i) (node.vals.drop i)
        (lr.2 :: node.subtrees.drop (i + 1)))._to_optional)
termination_by sizeOf node_cid
decreasing_by
  exact sizeOf_getD_subtree_lt _ _

section TreeOps

variable (H : Key → Nat)

/-- `NodeWrangler._put_here`. -/
def _put_here (node : MSTNode) (key : Key) (val : Val) : MSTNode :=
  let i := node.gte_index key
  if i < node.keys.length ∧ node.keys.getD i [] = key then
    if node.vals.getD i [] = val then node
    else MSTNode.mk node.keys (tuple_replace_at node.vals i val) node.subtrees
  else
    MSTNode.mk (tuple_insert_at node.keys i key) (tuple_insert_at node.vals i val)
      (node.subtrees.take i ++
        [(_split_on_key (node.subtrees.getD i none) key).1,
         (_split_on_key (node.subtrees.getD i none) key).2] ++
        node.subtrees.drop (i + 1))

/-- `NodeWrangler._put_recursive` (from `node_wrangler.py`; the grow case
wraps the current root as the sole subtree of a fresh keyless node). -/
def _put_recursive (node : MSTNode) (key : Key) (val : Val)
    (key_height tree_height : Nat) : MSTNode :=
  if key_height > tree_height then
    _put_recursive (MSTNode.mk [] [] [some node]) key val key_height (tree_height + 1)
  else if key_height < tree_height then
    let i := node.gte_index key
    MSTNode.mk node.keys node.vals
      (tuple_replace_at node.subtrees i
        (some (_put_recursive (get_node (node.subtrees.getD i none)) key val
          key_height (tree_height - 1))))
  else
    _put_here node key val
termination_by (key_height - tree_height, tree_height)
decreasing_by
  · apply Prod.Lex.left
    omega
  · have : key_height - (tree_height - 1) = key_height - tree_height := by omega
    rw [this]
    apply Prod.Lex.right
    omega

/-- `NodeWrangler.put_record`. -/
def put_record (root_cid : MSTNode) (key : Key) (val : Val) : MSTNode :=
  if root_cid.is_empty then _put_here root_cid key val
  else _put_recursive root_cid key val (H key) (root_cid.height H)

end TreeOps

/-- `NodeWrangler._squash_top`: strip keyless nodes with a non-null sole
subtree from the top of the tree.  (`get_node none` is the canonical empty
node, which has no keys and a null `subtrees[0]`, so the `none` case
returns its argument unchanged, exactly as the source does.) -/
def _squash_top (node_cid : Option MSTNode) : Option MSTNode :=
  match node_cid with
  | none => none
  | some node =>
    if node.keys ≠ [] then node_cid
    else match h : node.subtrees.getD 0 none with
      | none => node_cid
      | some t => _squash_top (some t)
termination_by sizeOf node_cid
decreasing_by
  rw [← h]
  exact sizeOf_getD_subtree_lt _ _

/-- `NodeWrangler._merge`. -/
def _merge (left_cid right_cid : Option MSTNode) : Option MSTNode :=
  match left_cid, right_cid with
  | none, r => r
  | some l, none => some l
  | some left, some right =>
    (MSTNode.mk (left.keys ++ right.keys) (left.vals ++ right.vals)
      (left.subtrees.dropLast ++
        [_merge (left.subtrees.getD (left.subtrees.length - 1) none)
          (right.subtrees.getD 0 none)] ++
        right.subtrees.drop 1))._to_optional
termination_by sizeOf left_cid + sizeOf right_cid
decreasing_by
  have h1 := sizeOf_getD_subtree_lt left (left.subtrees.length - 1)
  have h2 := sizeOf_getD_subtree_lt right 0
  omega

/-- `NodeWrangler._delete_recursive`. -/
def _delete_recursive (node : MSTNode) (key : Key) (key_height tree_height : Nat) :
    Option MSTNode :=
  if key_height > tree_height then node._to_optional
  else
    let i := node.gte_index key
    if key_height < tree_height then
      if (node.subtrees.getD i none).isNone then node._to_optional
      else
        (MSTNode.mk node.keys node.vals
          (tuple_replace_at node.subtrees i
            (_delete_recursive (get_node (node.subtrees.getD i none)) key
              key_height (tree_height - 1))))._to_optional
    else
      if i = node.keys.length ∨ node.keys.getD i [] ≠ key then node._to_optional
      else
        (MSTNode.mk (tuple_remove_at node.keys i) (tuple_remove_at node.vals i)
          (node.subtrees.take i ++
            [_merge (node.subtrees.getD i none) (node.subtrees.getD (i + 1) none)] ++
            node.subtrees.drop (i + 2)))._to_optional
termination_by tree_height
decreasing_by omega

/-- `NodeWrangler.del_record`. -/
def del_record (H : Key → Nat) (root_cid : MSTNode) (key : Key) : MSTNode :=
  get_node (_squash_top (_delete_recursive root_cid key (H key) (root_cid.height H)))

/-! ## Logical contents of a tree

`nodeContents n` is the ordered list of (key, value) pairs stored anywhere
in `n`: the in-order interleaving of subtree contents and the node's own
entries.  This is the "logical contents" of spec §8.5. -/

abbrev KVList := List (Key × Val)

mutual

def nodeContents : MSTNode → KVList
  | .mk keys vals subs => interleaveC subs (keys.zip vals)
termination_by n => sizeOf n
decreasing_by exact sizeOf_node_subtrees_lt (.mk _ _ _)

def interleaveC : List (Option MSTNode) → KVList → KVList
  | [], _ => []
  | c :: rest, kvs =>
    optContents c ++
      (match kvs with
       | [] => []
       | kv :: kvtl => kv :: interleaveC rest kvtl)
termination_by subs _ => sizeOf subs
decreasing_by
  all_goals simp
  all_goals omega

def optContents : Option MSTNode → KVList
  | none => []
  | some t => nodeContents t
termination_by c => sizeOf c
decreasing_by simp

end

@[simp] theorem nodeContents_mk (keys vals subs) :
    nodeContents (.mk keys vals subs) = interleaveC subs (keys.zip vals) := by
  rw [nodeContents]

@[simp] theorem optContents_none : optContents none = [] := by rw [optContents]

@[simp] theorem optContents_some (t : MSTNode) :
    optContents (some t) = nodeContents t := by rw [optContents]

@[simp] theorem interleaveC_nil (kvs : KVList) : interleaveC [] kvs = [] := by
  rw [interleaveC]

@[simp] theorem interleaveC_cons_nil (c : Option MSTNode) (rest : List (Option MSTNode)) :
    interleaveC (c :: rest) [] = optContents c := by
  rw [interleaveC]; simp

@[simp] theorem interleaveC_cons_cons (c : Option MSTNode) (rest : List (Option MSTNode))
    (kv : Key × Val) (kvtl : KVList) :
    interleaveC (c :: rest) (kv :: kvtl) = optContents c ++ kv :: interleaveC rest kvtl := by
  rw [interleaveC]

/-! ## The canonical-shape invariant (spec §3)

`Canon t lo hi n` states that `n` is a canonical MST node at level `t` whose
contents lie strictly between the bounds `lo` and `hi` (`none` = ∓∞):

* parallel lengths agree;
* every key of the node has height exactly `t`;
* slot `i` holds the keys strictly between the neighbouring node keys;
* a subtree pointer is `none` exactly when that span is empty, and a non-null
  child is canonical one level down and non-empty (so no degenerate chains);
* every key sits strictly inside `(lo, hi)`.

The root of a canonical tree additionally has keys of maximal height, or is
the canonical empty node (`rootCanon` below, spec §4.3 squash-top). -/

def OptLt (lo hi : Option Key) : Prop :=
  match lo, hi with
  | some a, some b => keyLt a b
  | _, _ => True

section InvDef

variable (H : Key → Nat)

mutual

inductive Canon : Nat → Option Key → Option Key → MSTNode → Prop where
  | mk : ∀ (t : Nat) (lo hi : Option Key) (keys : List Key) (vals : List Val)
      (subs : List (Option MSTNode)),
      vals.length = keys.length →
      (∀ k ∈ keys, H k = t) →
      SubsCanon t lo hi keys subs →
      Canon t lo hi (.mk keys vals subs)

inductive SubsCanon : Nat → Option Key → Option Key → List Key → List (Option MSTNode) → Prop where
  | last : ∀ (t : Nat) (lo hi : Option Key) (c : Option MSTNode),
      OptLt lo hi → ChildCanon t lo hi c → SubsCanon t lo hi [] [c]
  | cons : ∀ (t : Nat) (lo hi : Option Key) (k : Key) (keys : List Key)
      (c : Option MSTNode) (rest : List (Option MSTNode)),
      OptLt lo (some k) → ChildCanon t lo (some k) c →
      SubsCanon t (some k) hi keys rest →
      SubsCanon t lo hi (k :: keys) (c :: rest)

inductive ChildCanon : Nat → Option Key → Option Key → Option MSTNode → Prop where
  | none : ∀ (t : Nat) (lo hi : Option Key), ChildCanon t lo hi none
  | some : ∀ (t : Nat) (lo hi : Option Key) (m : MSTNode),
      0 < t → Canon (t - 1) lo hi m → nodeContents m ≠ [] →
      ChildCanon t lo hi (some m)

end

/-- A canonical root: the canonical empty node, or a node all of whose keys
have the tree's maximal height (no keyless top chain: spec §4.3 squash-top). -/
def rootCanon (n : MSTNode) : Prop :=
  n = MSTNode.empty_root ∨ (∃ t, Canon H t none none n ∧ n.keys ≠ [])

end InvDef

/-- Strong induction on the size of a node (used to recurse through the
nested `List (Option MSTNode)` structure). -/
theorem MSTNode.strongInd (P : MSTNode → Prop)
    (step : ∀ n, (∀ m : MSTNode, sizeOf m < sizeOf n → P m) → P n) : ∀ n, P n := by
  intro n
  have : ∀ (s : Nat) (m : MSTNode), sizeOf m ≤ s → P m := by
    intro s
    induction s with
    | zero =>
      intro m hm
      exact step m (fun m' hm' => absurd (Nat.lt_of_lt_of_le hm' hm) (by omega))
    | succ s ih =>
      intro m hm
      exact step m (fun m' hm' => ih m' (by omega))
  exact this (sizeOf n) n (Nat.le_refl _)

theorem sizeOf_some_mem_subs {m : MSTNode} {subs : List (Option MSTNode)}
    (h : some m ∈ subs) (keys : List Key) (vals : List Val) :
    sizeOf m < sizeOf (MSTNode.mk keys vals subs) := by
  have h1 : sizeOf (some m) < sizeOf subs := List.sizeOf_lt_sizeOf_of_mem h
  have h2 := sizeOf_subtrees_lt keys vals subs
  simp at h1
  omega

@[simp] theorem OptLt_none_l (hi : Option Key) : OptLt none hi := by
  cases hi <;> simp [OptLt]

@[simp] theorem OptLt_none_r (lo : Option Key) : OptLt lo none := by
  cases lo <;> simp [OptLt]

@[simp] theorem OptLt_some_some (a b : Key) : OptLt (some a) (some b) ↔ keyLt a b := by
  simp [OptLt]

theorem OptLt_trans_key {lo : Option Key} {k k' : Key}
    (h1 : OptLt lo (some k)) (h2 : keyLt k k') : OptLt lo (some k') := by
  cases lo with
  | none => simp
  | some a => simp at h1 ⊢; exact keyLt_trans h1 h2

theorem OptLt_key_trans {hi : Option Key} {k k' : Key}
    (h1 : keyLt k' k) (h2 : OptLt (some k) hi) : OptLt (some k') hi := by
  cases hi with
  | none => simp
  | some b => simp at h2 ⊢; exact keyLt_trans h1 h2

/-- Key-sortedness of a kv list (strictly ascending keys). -/
def KVSorted (l : KVList) : Prop := l.Pairwise (fun a b => keyLt a.1 b.1)

theorem OptLt_trans_mid {lo hi : Option Key} {k : Key}
    (h1 : OptLt lo (some k)) (h2 : OptLt (some k) hi) : OptLt lo hi := by
  cases lo with
  | none => simp
  | some a =>
    cases hi with
    | none => simp
    | some b =>
      simp at h1 h2 ⊢
      exact keyLt_trans h1 h2

section CanonFacts

variable {H : Key → Nat}

/-- Facts about the contents of a canonical node: sorted, inside the bounds,
heights at most the level. -/
def CFacts (H : Key → Nat) (t : Nat) (lo hi : Option Key) (L : KVList) : Prop :=
  KVSorted L ∧
  (∀ p ∈ L, OptLt lo (some p.1) ∧ OptLt (some p.1) hi) ∧
  (∀ p ∈ L, H p.1 ≤ t)

theorem subsCanon_lo_lt_hi :
    ∀ {t : Nat} {lo hi : Option Key} {keys : List Key} {subs : List (Option MSTNode)},
      SubsCanon H t lo hi keys subs → OptLt lo hi := by
  intro t lo hi keys
  induction keys generalizing lo with
  | nil =>
    intro subs h
    cases h
    assumption
  | cons k ktl ih =>
    intro subs h
    cases h with
    | cons _ _ _ _ _ _ _ hlo hc hrest =>
      exact OptLt_trans_mid hlo (ih hrest)

theorem subsCanon_contents_facts :
    ∀ (keys : List Key) (t : Nat) (lo hi : Option Key) (subs : List (Option MSTNode))
      (vals : List Val),
      SubsCanon H t lo hi keys subs →
      vals.length = keys.length →
      (∀ k ∈ keys, H k = t) →
      (∀ m lo' hi', some m ∈ subs → Canon H (t - 1) lo' hi' m →
        CFacts H (t - 1) lo' hi' (nodeContents m)) →
      CFacts H t lo hi (interleaveC subs (keys.zip vals)) ∧
      (interleaveC subs (keys.zip vals)).filter (fun p => H p.1 == t) = keys.zip vals := by
  intro keys
  induction keys with
  | nil =>
    intro t lo hi subs vals hsub hlen hk hchild
    cases hsub with
    | last _ _ _ c hlohi hc =>
      cases hc with
      | none => exact ⟨⟨by simp [KVSorted], by simp, by simp⟩, by simp⟩
      | some _ _ _ m ht hm hne =>
        have hf := hchild m lo hi (by simp) hm
        obtain ⟨hs, hb, hh⟩ := hf
        refine ⟨⟨?_, ?_, ?_⟩, ?_⟩
        · simpa [KVSorted] using hs
        · simpa using hb
        · intro p hp
          have := hh p (by simpa using hp)
          omega
        · simp only [List.zip_nil_left]
          rw [List.filter_eq_nil_iff.mpr]
          intro p hp
          have := hh p (by simpa using hp)
          simp
          omega
  | cons k ktl ih =>
    intro t lo hi subs vals hsub hlen hk hchild
    cases hsub with
    | cons _ _ _ _ _ c rest hlo hc hrest =>
      match vals with
      | [] => simp at hlen
      | v :: vtl =>
        have hlen' : vtl.length = ktl.length := by simpa using hlen
        have hkt : ∀ k' ∈ ktl, H k' = t := fun k' h' => hk k' (by simp [h'])
        have hkk : H k = t := hk k (by simp)
        have hchild' : ∀ m lo' hi', some m ∈ rest → Canon H (t - 1) lo' hi' m →
            CFacts H (t - 1) lo' hi' (nodeContents m) :=
          fun m lo' hi' hmem => hchild m lo' hi' (by simp [hmem])
        obtain ⟨⟨hsB, hbB, hhB⟩, hfB⟩ := ih t (some k) hi rest vtl hrest hlen' hkt hchild'
        have hkhi : OptLt (some k) hi := subsCanon_lo_lt_hi hrest
        -- facts about the head subtree's contents
        have hA : CFacts H t lo (some k) (optContents c) ∧
            (∀ p ∈ optContents c, H p.1 ≤ t - 1 ∧ 0 < t) := by
          cases hc with
          | none => exact ⟨⟨by simp [KVSorted], by simp, by simp⟩, by simp⟩
          | some _ _ _ m ht hm hne =>
            obtain ⟨hs, hb, hh⟩ := hchild m lo (some k) (by simp) hm
            refine ⟨⟨by simpa [KVSorted] using hs, by simpa using hb, ?_⟩, ?_⟩
            · intro p hp
              have := hh p (by simpa using hp)
              omega
            · intro p hp
              exact ⟨hh p (by simpa using hp), ht⟩
        obtain ⟨⟨hsA, hbA, hhA⟩, hstrictA⟩ := hA
        simp only [List.zip_cons_cons, interleaveC_cons_cons]
        constructor
        · refine ⟨?_, ?_, ?_⟩
          · -- sortedness of the whole interleaving
            rw [KVSorted, List.pairwise_append]
            refine ⟨hsA, ?_, ?_⟩
            · rw [List.pairwise_cons]
              constructor
              · intro p hp
                have := (hbB p hp).1
                simpa using this
              · exact hsB
            · intro a ha b hb
              have halt : keyLt a.1 k := by simpa using (hbA a ha).2
              rcases List.mem_cons.mp hb with rfl | hb'
              · exact halt
              · have : keyLt k b.1 := by simpa using (hbB b hb').1
                exact keyLt_trans halt this
          · intro p hp
            rcases List.mem_append.mp hp with hp' | hp'
            · refine ⟨(hbA p hp').1, ?_⟩
              have := (hbA p hp').2
              exact OptLt_key_trans (by simpa using this) hkhi
            · rcases List.mem_cons.mp hp' with rfl | hp''
              · exact ⟨hlo, hkhi⟩
              · refine ⟨?_, (hbB p hp'').2⟩
                have := (hbB p hp'').1
                exact OptLt_trans_key hlo (by simpa using this)
          · intro p hp
            rcases List.mem_append.mp hp with hp' | hp'
            · exact hhA p hp'
            · rcases List.mem_cons.mp hp' with rfl | hp''
              · exact Nat.le_of_eq hkk
              · exact hhB p hp''
        · -- the filter keeps exactly the node's own entries
          rw [List.filter_append]
          have h1 : (optContents c).filter (fun p => H p.1 == t) = [] := by
            rw [List.filter_eq_nil_iff]
            intro p hp
            have := hstrictA p hp
            simp
            omega
          rw [h1]
          simp only [List.nil_append, List.filter_cons]
          have : (H k == t) = true := by simpa using hkk
          rw [if_pos (by simpa using this)]
          rw [hfB]

theorem canon_contents_facts :
    ∀ (n : MSTNode) (t : Nat) (lo hi : Option Key), Canon H t lo hi n →
      CFacts H t lo hi (nodeContents n) := by
  intro n
  induction n using MSTNode.strongInd with
  | step n ihn =>
    intro t lo hi hc
    cases hc with
    | mk _ _ _ keys vals subs hlen hk hsub =>
      rw [nodeContents_mk]
      refine (subsCanon_contents_facts keys t lo hi subs vals hsub hlen hk ?_).1
      intro m lo' hi' hmem hcm
      exact ihn m (sizeOf_some_mem_subs hmem keys vals) (t - 1) lo' hi' hcm

theorem canon_contents_filter :
    ∀ (keys : List Key) (vals : List Val) (subs : List (Option MSTNode)) (t : Nat)
      (lo hi : Option Key), Canon H t lo hi (.mk keys vals subs) →
      (nodeContents (.mk keys vals subs)).filter (fun p => H p.1 == t) = keys.zip vals := by
  intro keys vals subs t lo hi hc
  cases hc with
  | mk _ _ _ _ _ _ hlen hk hsub =>
    rw [nodeContents_mk]
    refine (subsCanon_contents_facts keys t lo hi subs vals hsub hlen hk ?_).2
    intro m lo' hi' hmem hcm
    exact canon_contents_facts m (t - 1) lo' hi' hcm

end CanonFacts

theorem append_pivot_unique {α : Type} (P : α → Prop) :
    ∀ (A A' : List α) (x : α) (B B' : List α),
      (∀ a ∈ A, ¬ P a) → (∀ a ∈ A', ¬ P a) → P x →
      A ++ x :: B = A' ++ x :: B' → A = A' ∧ B = B' := by
  intro A
  induction A with
  | nil =>
    intro A' x B B' _ hA' hx heq
    cases A' with
    | nil => simpa using heq
    | cons y A'' =>
      simp at heq
      obtain ⟨rfl, -⟩ := heq
      exact absurd hx (hA' _ (by simp))
  | cons a A₀ ih =>
    intro A' x B B' hA hA' hx heq
    cases A' with
    | nil =>
      simp at heq
      obtain ⟨rfl, -⟩ := heq
      exact absurd hx (hA _ (by simp))
    | cons y A'' =>
      simp at heq
      obtain ⟨rfl, heq'⟩ := heq
      have := ih A'' x B B' (fun a ha => hA a (by simp [ha]))
        (fun a ha => hA' a (by simp [ha])) hx heq'
      exact ⟨by simp [this.1], this.2⟩

section CanonUnique

variable {H : Key → Nat}

theorem subsCanon_unique :
    ∀ (keys : List Key) (t : Nat) (lo hi lo' hi' : Option Key)
      (sa sb : List (Option MSTNode)) (vals : List Val),
      SubsCanon H t lo hi keys sa → SubsCanon H t lo' hi' keys sb →
      vals.length = keys.length →
      (∀ k ∈ keys, H k = t) →
      (∀ m, some m ∈ sa → ∀ t₀ l₀ h₀ l₁ h₁ (b : MSTNode), Canon H t₀ l₀ h₀ m →
        Canon H t₀ l₁ h₁ b → nodeContents m = nodeContents b → m = b) →
      interleaveC sa (keys.zip vals) = interleaveC sb (keys.zip vals) →
      sa = sb := by
  intro keys
  induction keys with
  | nil =>
    intro t lo hi lo' hi' sa sb vals hsa hsb hlen hk hchild heq
    cases hsa with
    | last _ _ _ c hlohi hc =>
      cases hsb with
      | last _ _ _ c' hlohi' hc' =>
        simp at heq
        cases hc with
        | none =>
          cases hc' with
          | none => rfl
          | some _ _ _ m' ht' hm' hne' =>
            simp at heq
            exact absurd heq.symm (by simpa using hne')
        | some _ _ _ m ht hm hne =>
          cases hc' with
          | none =>
            simp at heq
            exact absurd heq hne
          | some _ _ _ m' ht' hm' hne' =>
            simp at heq
            have := hchild m (by simp) (t - 1) lo hi lo' hi' m' hm hm' heq
            simp [this]
  | cons k ktl ih =>
    intro t lo hi lo' hi' sa sb vals hsa hsb hlen hk hchild heq
    cases hsa with
    | cons _ _ _ _ _ c ra hlo hc hra =>
      cases hsb with
      | cons _ _ _ _ _ c' rb hlo' hc' hrb =>
        match vals with
        | [] => simp at hlen
        | v :: vtl =>
          simp only [List.zip_cons_cons, interleaveC_cons_cons] at heq
          -- the pivot (k, v) has height t, the flanking contents height < t
          have hno : ∀ (c₀ : Option MSTNode) (lo₀ hi₀ : Option Key),
              ChildCanon H t lo₀ hi₀ c₀ →
              ∀ p ∈ optContents c₀, ¬ H p.1 = t := by
            intro c₀ lo₀ hi₀ hc₀ p hp
            cases hc₀ with
            | none => simp at hp
            | some _ _ _ m ht hm hne =>
              have := (canon_contents_facts m (t - 1) _ _ hm).2.2 p (by simpa using hp)
              omega
          have hpiv := append_pivot_unique (fun p => H p.1 = t) (optContents c)
            (optContents c') (k, v) _ _ (hno c lo (some k) hc) (hno c' lo' (some k) hc')
            (hk k (by simp)) heq
          have hcc : c = c' := by
            cases hc with
            | none =>
              cases hc' with
              | none => rfl
              | some _ _ _ m' ht' hm' hne' =>
                have := hpiv.1
                simp at this
                exact absurd this.symm (by simpa using hne')
            | some _ _ _ m ht hm hne =>
              cases hc' with
              | none =>
                have := hpiv.1
                simp at this
                exact absurd this hne
              | some _ _ _ m' ht' hm' hne' =>
                have h1 := hpiv.1
                simp at h1
                have := hchild m (by simp) (t - 1) lo (some k) lo' (some k) m' hm hm' h1
                simp [this]
          subst hcc
          have := ih t (some k) hi (some k) hi' ra rb vtl hra hrb (by simpa using hlen)
            (fun k' h' => hk k' (by simp [h']))
            (fun m hm => hchild m (by simp [hm])) hpiv.2
          simp [this]

theorem canon_unique :
    ∀ (a : MSTNode) (t : Nat) (lo hi lo' hi' : Option Key) (b : MSTNode),
      Canon H t lo hi a → Canon H t lo' hi' b →
      nodeContents a = nodeContents b → a = b := by
  intro a
  induction a using MSTNode.strongInd with
  | step a iha =>
    intro t lo hi lo' hi' b hca hcb heq
    cases hca with
    | mk _ _ _ ka va sa hlena hka hsa =>
      cases hcb with
      | mk _ _ _ kb vb sb hlenb hkb hsb =>
        have hfa := canon_contents_filter ka va sa t lo hi (Canon.mk _ _ _ _ _ _ hlena hka hsa)
        have hfb := canon_contents_filter kb vb sb t lo' hi' (Canon.mk _ _ _ _ _ _ hlenb hkb hsb)
        have hzip : ka.zip va = kb.zip vb := by
          rw [← hfa, ← hfb, heq]
        have hkeys : ka = kb := by
          have h1 : (ka.zip va).map Prod.fst = ka :=
            List.map_fst_zip ka va (by omega)
          have h2 : (kb.zip vb).map Prod.fst = kb :=
            List.map_fst_zip kb vb (by omega)
          rw [← h1, ← h2, hzip]
        have hvals : va = vb := by
          have h1 : (ka.zip va).map Prod.snd = va :=
            List.map_snd_zip ka va (by omega)
          have h2 : (kb.zip vb).map Prod.snd = vb :=
            List.map_snd_zip kb vb (by omega)
          rw [← h1, ← h2, hzip]
        subst hkeys
        subst hvals
        have hsubs : sa = sb := by
          refine subsCanon_unique ka t lo hi lo' hi' sa sb va hsa hsb (by omega) hka ?_ ?_
          · intro m hm t₀ l₀ h₀ l₁ h₁ b' hcm hcb' heqm
            exact iha m (sizeOf_some_mem_subs hm ka va) t₀ l₀ h₀ l₁ h₁ b' hcm hcb' heqm
          · simpa [nodeContents_mk] using heq
        rw [hsubs]

/-- Two canonical roots with the same contents are the same node: the
canonical-shape property of spec §3 invariant 5. -/
theorem rootCanon_unique {a b : MSTNode}
    (ha : rootCanon H a) (hb : rootCanon H b)
    (heq : nodeContents a = nodeContents b) : a = b := by
  have hkeysContents : ∀ (n : MSTNode) (t : Nat) (lo hi : Option Key),
      Canon H t lo hi n → n.keys ≠ [] → nodeContents n ≠ [] := by
    intro n t lo hi hc hk
    cases hc with
    | mk _ _ _ keys vals subs hlen hks hsub =>
      have hf := canon_contents_filter keys vals subs t lo hi
        (Canon.mk _ _ _ _ _ _ hlen hks hsub)
      intro hnil
      rw [hnil] at hf
      simp at hf
      cases keys with
      | nil => simp at hk
      | cons k ktl =>
        cases vals with
        | nil => simp at hlen
        | cons v vtl => simp at hf
  -- the level of a nonempty canonical root is the maximal height in it
  have hlevel : ∀ (n : MSTNode) (t : Nat), Canon H t none none n → n.keys ≠ [] →
      (∀ p ∈ nodeContents n, H p.1 ≤ t) ∧ (∃ p ∈ nodeContents n, H p.1 = t) := by
    intro n t hc hk
    refine ⟨(canon_contents_facts n t none none hc).2.2, ?_⟩
    cases hc with
    | mk _ _ _ keys vals subs hlen hks hsub =>
      have hf := canon_contents_filter keys vals subs t none none
        (Canon.mk _ _ _ _ _ _ hlen hks hsub)
      cases keys with
      | nil => simp at hk
      | cons k ktl =>
        cases vals with
        | nil => simp at hlen
        | cons v vtl =>
          have hmemf : (k, v) ∈ (nodeContents (.mk (k :: ktl) (v :: vtl) subs)).filter
              (fun p => H p.1 == t) := by
            rw [hf]
            simp
          have hmem := List.mem_of_mem_filter hmemf
          have hht : H k = t := hks k (by simp)
          exact ⟨(k, v), by simpa using hmem, hht⟩
  rcases ha with rfl | ⟨ta, hca, hka⟩
  · rcases hb with rfl | ⟨tb, hcb, hkb⟩
    · rfl
    · exact absurd heq.symm (by
        have := hkeysContents b tb none none hcb hkb
        simpa [MSTNode.empty_root] using this)
  · rcases hb with rfl | ⟨tb, hcb, hkb⟩
    · exact absurd heq (by
        have := hkeysContents a ta none none hca hka
        simpa [MSTNode.empty_root] using this)
    · have hta := hlevel a ta hca hka
      have htb := hlevel b tb hcb hkb
      have : ta = tb := by
        obtain ⟨pa, hpa, hha⟩ := hta.2
        obtain ⟨pb, hpb, hhb⟩ := htb.2
        have h1 := htb.1 pa (heq ▸ hpa)
        have h2 := hta.1 pb (heq ▸ hpb)
        omega
      subst this
      exact canon_unique a ta none none none none b hca hcb heq

end CanonUnique

/-! ## Positional toolkit: slicing a node at an index

`preC/postC` are the contents before/after slot `i`; `boundAt/boundAt'` are
the key bounds flanking slot `i`. -/

def preC (subs : List (Option MSTNode)) (kvs : KVList) (i : Nat) : KVList :=
  interleaveC (subs.take i ++ [none]) (kvs.take i)

def postC (subs : List (Option MSTNode)) (kvs : KVList) (i : Nat) : KVList :=
  match kvs.drop i with
  | [] => []
  | kv :: tl => kv :: interleaveC (subs.drop (i + 1)) tl

def boundAt (lo : Option Key) (keys : List Key) (i : Nat) : Option Key :=
  if i = 0 then lo else some (keys.getD (i - 1) [])

def boundAt' (keys : List Key) (hi : Option Key) (i : Nat) : Option Key :=
  if i < keys.length then some (keys.getD i []) else hi

@[simp] theorem preC_zero (subs kvs) : preC subs kvs 0 = [] := by
  simp [preC]

theorem preC_succ (c : Option MSTNode) (subs : List (Option MSTNode))
    (kv : Key × Val) (kvs : KVList) (i : Nat) :
    preC (c :: subs) (kv :: kvs) (i + 1) = optContents c ++ kv :: preC subs kvs i := by
  simp [preC, List.take_succ_cons]

theorem interleave_decomp (subs : List (Option MSTNode)) (kvs : KVList) :
    ∀ i, i ≤ kvs.length → subs.length = kvs.length + 1 →
    interleaveC subs kvs =
      preC subs kvs i ++ optContents (subs.getD i none) ++ postC subs kvs i := by
  induction subs generalizing kvs with
  | nil => intro i h1 h2; simp at h2
  | cons c rest ih =>
    intro i h1 h2
    cases i with
    | zero =>
      cases kvs with
      | nil =>
        match rest, h2 with
        | [], _ => simp [postC]
      | cons kv kvtl => simp [postC]
    | succ j =>
      cases kvs with
      | nil => simp at h1
      | cons kv kvtl =>
        have := ih kvtl j (by simpa using h1) (by simpa using h2)
        rw [preC_succ]
        simp only [interleaveC_cons_cons, List.getD_cons_succ]
        rw [this]
        have hpost : postC (c :: rest) (kv :: kvtl) (j + 1) = postC rest kvtl j := by
          simp [postC, List.drop_succ_cons]
        rw [hpost]
        simp

theorem interleave_replace (subs : List (Option MSTNode)) (kvs : KVList) :
    ∀ (i : Nat) (c' : Option MSTNode), i ≤ kvs.length → subs.length = kvs.length + 1 →
    interleaveC (tuple_replace_at subs i c') kvs =
      preC subs kvs i ++ optContents c' ++ postC subs kvs i := by
  induction subs generalizing kvs with
  | nil => intro i c' h1 h2; simp at h2
  | cons c rest ih =>
    intro i c' h1 h2
    cases i with
    | zero =>
      cases kvs with
      | nil =>
        match rest, h2 with
        | [], _ => simp [tuple_replace_at, postC]
      | cons kv kvtl => simp [tuple_replace_at, postC]
    | succ j =>
      cases kvs with
      | nil => simp at h1
      | cons kv kvtl =>
        have := ih kvtl j c' (by simpa using h1) (by simpa using h2)
        rw [preC_succ]
        have hrepl : tuple_replace_at (c :: rest) (j + 1) c' =
            c :: tuple_replace_at rest j c' := by
          simp [tuple_replace_at, List.take_succ_cons, List.drop_succ_cons]
        rw [hrepl]
        simp only [interleaveC_cons_cons]
        rw [this]
        have hpost : postC (c :: rest) (kv :: kvtl) (j + 1) = postC rest kvtl j := by
          simp [postC, List.drop_succ_cons]
        rw [hpost]
        simp

theorem gteIndexAux_le_length (keys : List Key) (k : Key) :
    gteIndexAux keys k ≤ keys.length := by
  induction keys with
  | nil => simp [gteIndexAux]
  | cons k0 rest ih =>
    rw [gteIndexAux]
    split
    · simpa using ih
    · simp

theorem gteIndexAux_lt_before (keys : List Key) (k : Key) :
    ∀ j < gteIndexAux keys k, keyLt (keys.getD j []) k := by
  induction keys with
  | nil => simp [gteIndexAux]
  | cons k0 rest ih =>
    intro j hj
    rw [gteIndexAux] at hj
    split at hj
    · cases j with
      | zero => simpa using ‹keyLt k0 k = true›
      | succ j' =>
        simpa using ih j' (by omega)
    · omega

theorem gteIndexAux_not_lt_at (keys : List Key) (k : Key) :
    gteIndexAux keys k < keys.length →
    keyLt (keys.getD (gteIndexAux keys k) []) k = false := by
  induction keys with
  | nil => intro h; simp [gteIndexAux] at h
  | cons k0 rest ih =>
    intro h
    by_cases hlt : keyLt k0 k
    · have heq : gteIndexAux (k0 :: rest) k = gteIndexAux rest k + 1 := by
        rw [gteIndexAux]; simp [hlt]
      rw [heq] at h ⊢
      simpa using ih (by simpa using h)
    · have heq : gteIndexAux (k0 :: rest) k = 0 := by
        rw [gteIndexAux]; simp [hlt]
      rw [heq]
      simpa using hlt

section SubsCanonToolkit

variable {H : Key → Nat}

theorem subsCanon_length {t : Nat} {lo hi : Option Key} {keys : List Key}
    {subs : List (Option MSTNode)} (h : SubsCanon H t lo hi keys subs) :
    subs.length = keys.length + 1 := by
  induction keys generalizing lo subs with
  | nil => cases h; simp
  | cons k ktl ih =>
    cases h with
    | cons _ _ _ _ _ c rest hlo hc hrest => simpa using ih hrest

theorem subsCanon_keys_facts {t : Nat} {lo hi : Option Key} {keys : List Key}
    {subs : List (Option MSTNode)} (h : SubsCanon H t lo hi keys subs) :
    keys.Pairwise (fun a b => keyLt a b) ∧ ∀ k ∈ keys, OptLt lo (some k) ∧ OptLt (some k) hi := by
  induction keys generalizing lo subs with
  | nil => simp
  | cons k ktl ih =>
    cases h with
    | cons _ _ _ _ _ c rest hlo hc hrest =>
      obtain ⟨hpw, hmem⟩ := ih hrest
      refine ⟨?_, ?_⟩
      · rw [List.pairwise_cons]
        exact ⟨fun k' hk' => by simpa using (hmem k' hk').1, hpw⟩
      · intro k' hk'
        rcases List.mem_cons.mp hk' with rfl | hk''
        · exact ⟨hlo, subsCanon_lo_lt_hi hrest⟩
        · obtain ⟨h1, h2⟩ := hmem k' hk''
          exact ⟨OptLt_trans_mid hlo h1, h2⟩

theorem subsCanon_getD {t : Nat} {lo hi : Option Key} {keys : List Key}
    {subs : List (Option MSTNode)} (h : SubsCanon H t lo hi keys subs) :
    ∀ i ≤ keys.length,
      ChildCanon H t (boundAt lo keys i) (boundAt' keys hi i) (subs.getD i none) := by
  induction keys generalizing lo subs with
  | nil =>
    intro i hi'
    cases h with
    | last _ _ _ c hlohi hc =>
      have : i = 0 := by simpa using hi'
      subst this
      simpa [boundAt, boundAt'] using hc
  | cons k ktl ih =>
    intro i hi'
    cases h with
    | cons _ _ _ _ _ c rest hlo hc hrest =>
      cases i with
      | zero => simpa [boundAt, boundAt'] using hc
      | succ j =>
        have := ih hrest j (by simpa using hi')
        have hb1 : boundAt lo (k :: ktl) (j + 1) = boundAt (some k) ktl j := by
          cases j with
          | zero => simp [boundAt]
          | succ j' => simp [boundAt]
        have hb2 : boundAt' (k :: ktl) hi (j + 1) = boundAt' ktl hi j := by
          simp only [boundAt']
          by_cases hj : j < ktl.length
          · rw [if_pos (by simpa using hj), if_pos hj]
            simp
          · rw [if_neg (by simpa using hj), if_neg hj]
        rw [hb1, hb2]
        simpa using this

end SubsCanonToolkit

@[simp] theorem tuple_replace_at_zero_cons {α : Type} (c : α) (rest : List α) (c' : α) :
    tuple_replace_at (c :: rest) 0 c' = c' :: rest := by
  simp [tuple_replace_at]

@[simp] theorem tuple_replace_at_cons_succ {α : Type} (c : α) (rest : List α) (j : Nat) (c' : α) :
    tuple_replace_at (c :: rest) (j + 1) c' = c :: tuple_replace_at rest j c' := by
  simp [tuple_replace_at]

@[simp] theorem tuple_insert_at_zero {α : Type} (l : List α) (x : α) :
    tuple_insert_at l 0 x = x :: l := by
  simp [tuple_insert_at]

@[simp] theorem tuple_insert_at_cons_succ {α : Type} (c : α) (rest : List α) (j : Nat) (x : α) :
    tuple_insert_at (c :: rest) (j + 1) x = c :: tuple_insert_at rest j x := by
  simp [tuple_insert_at]

@[simp] theorem tuple_remove_at_zero_cons {α : Type} (c : α) (rest : List α) :
    tuple_remove_at (c :: rest) 0 = rest := by
  simp [tuple_remove_at]

@[simp] theorem tuple_remove_at_cons_succ {α : Type} (c : α) (rest : List α) (j : Nat) :
    tuple_remove_at (c :: rest) (j + 1) = c :: tuple_remove_at rest j := by
  simp [tuple_remove_at]

/-- Appending a final child to a sliced subtree list concatenates its
contents at the end. -/
theorem interleave_append_last (S : List (Option MSTNode)) :
    ∀ (K : KVList) (c' : Option MSTNode), S.length = K.length →
    interleaveC (S ++ [c']) K = interleaveC (S ++ [none]) K ++ optContents c' := by
  induction S with
  | nil =>
    intro K c' hlen
    have : K = [] := by simpa using hlen.symm
    subst this
    simp
  | cons c rest ih =>
    intro K c' hlen
    cases K with
    | nil => simp at hlen
    | cons kv ktl =>
      simp only [List.cons_append, interleaveC_cons_cons]
      rw [ih ktl c' (by simpa using hlen)]
      simp

section SubsCanonSurgery

variable {H : Key → Nat}

theorem subsCanon_replace {t : Nat} {lo hi : Option Key} :
    ∀ {keys : List Key} {subs : List (Option MSTNode)},
      SubsCanon H t lo hi keys subs → ∀ i ≤ keys.length, ∀ c',
      ChildCanon H t (boundAt lo keys i) (boundAt' keys hi i) c' →
      SubsCanon H t lo hi keys (tuple_replace_at subs i c') := by
  intro keys
  induction keys generalizing lo with
  | nil =>
    intro subs h i hi' c' hc'
    have : i = 0 := by simpa using hi'
    subst this
    cases h with
    | last _ _ _ c hlohi hc =>
      simp only [tuple_replace_at_zero_cons]
      exact SubsCanon.last _ _ _ _ hlohi (by simpa [boundAt, boundAt'] using hc')
  | cons k ktl ih =>
    intro subs h i hi' c' hc'
    cases h with
    | cons _ _ _ _ _ c rest hlo hc hrest =>
      cases i with
      | zero =>
        simp only [tuple_replace_at_zero_cons]
        exact SubsCanon.cons _ _ _ _ _ _ _ hlo
          (by simpa [boundAt, boundAt'] using hc') hrest
      | succ j =>
        simp only [tuple_replace_at_cons_succ]
        refine SubsCanon.cons _ _ _ _ _ _ _ hlo hc ?_
        refine ih hrest j (by simpa using hi') c' ?_
        have hb1 : boundAt lo (k :: ktl) (j + 1) = boundAt (some k) ktl j := by
          cases j with
          | zero => simp [boundAt]
          | succ j' => simp [boundAt]
        have hb2 : boundAt' (k :: ktl) hi (j + 1) = boundAt' ktl hi j := by
          simp only [boundAt']
          by_cases hj : j < ktl.length
          · rw [if_pos (by simpa using hj), if_pos hj]; simp
          · rw [if_neg (by simpa using hj), if_neg hj]
        rw [hb1, hb2] at hc'
        exact hc'

theorem subsCanon_take {t : Nat} {lo hi : Option Key} {k' : Key} :
    ∀ {keys : List Key} {subs : List (Option MSTNode)},
      SubsCanon H t lo hi keys subs → ∀ i ≤ keys.length, ∀ lsub,
      ChildCanon H t (boundAt lo keys i) (some k') lsub →
      (∀ j < i, keyLt (keys.getD j []) k') →
      OptLt lo (some k') →
      SubsCanon H t lo (some k') (keys.take i) (subs.take i ++ [lsub]) := by
  intro keys
  induction keys generalizing lo with
  | nil =>
    intro subs h i hi' lsub hls hbef hlok
    have : i = 0 := by simpa using hi'
    subst this
    cases h with
    | last _ _ _ c hlohi hc =>
      exact SubsCanon.last _ _ _ _ hlok (by simpa [boundAt] using hls)
  | cons k ktl ih =>
    intro subs h i hi' lsub hls hbef hlok
    cases h with
    | cons _ _ _ _ _ c rest hlo hc hrest =>
      cases i with
      | zero =>
        simp only [List.take_zero, List.nil_append]
        exact SubsCanon.last _ _ _ _ hlok (by simpa [boundAt] using hls)
      | succ j =>
        simp only [List.take_succ_cons, List.cons_append]
        refine SubsCanon.cons _ _ _ _ _ _ _ hlo hc ?_
        refine ih hrest j (by simpa using hi') lsub ?_
          (fun j' hj' => by simpa using hbef (j' + 1) (by omega))
          (by simpa using hbef 0 (by omega))
        have hb1 : boundAt lo (k :: ktl) (j + 1) = boundAt (some k) ktl j := by
          cases j with
          | zero => simp [boundAt]
          | succ j' => simp [boundAt]
        rw [hb1] at hls
        exact hls

theorem subsCanon_drop {t : Nat} {lo hi : Option Key} {k' : Key} :
    ∀ {keys : List Key} {subs : List (Option MSTNode)},
      SubsCanon H t lo hi keys subs → ∀ i ≤ keys.length, ∀ rsub,
      ChildCanon H t (some k') (boundAt' keys hi i) rsub →
      (∀ j, i ≤ j → j < keys.length → keyLt k' (keys.getD j [])) →
      OptLt (some k') hi →
      SubsCanon H t (some k') hi (keys.drop i) (rsub :: subs.drop (i + 1)) := by
  intro keys
  induction keys generalizing lo with
  | nil =>
    intro subs h i hi' rsub hrs haft hk'hi
    have : i = 0 := by simpa using hi'
    subst this
    cases h with
    | last _ _ _ c hlohi hc =>
      exact SubsCanon.last _ _ _ _ hk'hi (by simpa [boundAt'] using hrs)
  | cons k ktl ih =>
    intro subs h i hi' rsub hrs haft hk'hi
    cases h with
    | cons _ _ _ _ _ c rest hlo hc hrest =>
      cases i with
      | zero =>
        simp only [List.drop_zero, List.drop_succ_cons]
        refine SubsCanon.cons _ _ _ _ _ _ _
          (by simpa using haft 0 (by omega) (by simp))
          (by simpa [boundAt'] using hrs) hrest
      | succ j =>
        simp only [List.drop_succ_cons]
        refine ih hrest j (by simpa using hi') rsub ?_
          (fun j' h1 h2 => by simpa using haft (j' + 1) (by omega) (by simpa using h2))
          hk'hi
        have hb2 : boundAt' (k :: ktl) hi (j + 1) = boundAt' ktl hi j := by
          simp only [boundAt']
          by_cases hj : j < ktl.length
          · rw [if_pos (by simpa using hj), if_pos hj]; simp
          · rw [if_neg (by simpa using hj), if_neg hj]
        rw [hb2] at hrs
        exact hrs

end SubsCanonSurgery

section SubsCanonSurgery2

variable {H : Key → Nat}

theorem subsCanon_insert {t : Nat} {k' : Key} :
    ∀ {keys : List Key} {subs : List (Option MSTNode)} {lo hi : Option Key},
      SubsCanon H t lo hi keys subs → ∀ i ≤ keys.length, ∀ lsub rsub,
      ChildCanon H t (boundAt lo keys i) (some k') lsub →
      ChildCanon H t (some k') (boundAt' keys hi i) rsub →
      (∀ j < i, keyLt (keys.getD j []) k') →
      (∀ j, i ≤ j → j < keys.length → keyLt k' (keys.getD j [])) →
      OptLt lo (some k') → OptLt (some k') hi →
      SubsCanon H t lo hi (tuple_insert_at keys i k')
        (subs.take i ++ [lsub, rsub] ++ subs.drop (i + 1)) := by
  intro keys
  induction keys with
  | nil =>
    intro subs lo hi h i hi' lsub rsub hls hrs hbef haft hlok hk'hi
    have : i = 0 := by simpa using hi'
    subst this
    cases h with
    | last _ _ _ c hlohi hc =>
      simp only [List.take_zero, List.nil_append, tuple_insert_at_zero, List.drop_succ_cons,
        List.drop_nil, List.append_nil]
      refine SubsCanon.cons _ _ _ _ _ _ _ hlok (by simpa [boundAt] using hls) ?_
      exact SubsCanon.last _ _ _ _ hk'hi (by simpa [boundAt'] using hrs)
  | cons k ktl ih =>
    intro subs lo hi h i hi' lsub rsub hls hrs hbef haft hlok hk'hi
    cases h with
    | cons _ _ _ _ _ c rest hlo hc hrest =>
      cases i with
      | zero =>
        simp only [List.take_zero, List.nil_append, tuple_insert_at_zero, List.drop_succ_cons,
          List.drop_zero]
        refine SubsCanon.cons _ _ _ _ _ _ _ hlok (by simpa [boundAt] using hls) ?_
        refine SubsCanon.cons _ _ _ _ _ _ _
          (by simpa using haft 0 (by omega) (by simp))
          (by simpa [boundAt'] using hrs) hrest
      | succ j =>
        simp only [List.take_succ_cons, List.cons_append, tuple_insert_at_cons_succ,
          List.drop_succ_cons]
        refine SubsCanon.cons _ _ _ _ _ _ _ hlo hc ?_
        have hb1 : boundAt lo (k :: ktl) (j + 1) = boundAt (some k) ktl j := by
          cases j with
          | zero => simp [boundAt]
          | succ j' => simp [boundAt]
        have hb2 : boundAt' (k :: ktl) hi (j + 1) = boundAt' ktl hi j := by
          simp only [boundAt']
          by_cases hj : j < ktl.length
          · rw [if_pos (by simpa using hj), if_pos hj]; simp
          · rw [if_neg (by simpa using hj), if_neg hj]
        exact ih hrest j (by simpa using hi') lsub rsub (hb1 ▸ hls) (hb2 ▸ hrs)
          (fun j' hj' => by simpa using hbef (j' + 1) (by omega))
          (fun j' h1 h2 => by simpa using haft (j' + 1) (by omega) (by simpa using h2))
          (by simpa using hbef 0 (by omega)) hk'hi

theorem subsCanon_remove {t : Nat} :
    ∀ {keys : List Key} {subs : List (Option MSTNode)} {lo hi : Option Key},
      SubsCanon H t lo hi keys subs → ∀ i < keys.length, ∀ merged,
      ChildCanon H t (boundAt lo keys i) (boundAt' keys hi (i + 1)) merged →
      SubsCanon H t lo hi (tuple_remove_at keys i)
        (subs.take i ++ [merged] ++ subs.drop (i + 2)) := by
  intro keys
  induction keys with
  | nil => intro subs lo hi h i hi'; simp at hi'
  | cons k ktl ih =>
    intro subs lo hi h i hi' merged hm
    cases h with
    | cons _ _ _ _ _ c rest hlo hc hrest =>
      cases i with
      | zero =>
        simp only [List.take_zero, List.nil_append, tuple_remove_at_zero_cons]
        have hsubs : (c :: rest).drop 2 = rest.drop 1 := by simp
        rw [hsubs]
        cases ktl with
        | nil =>
          cases hrest with
          | last _ _ _ c1 hlohi1 hc1 =>
            simp only [List.drop_succ_cons, List.drop_zero]
            exact SubsCanon.last _ _ _ _ (OptLt_trans_mid hlo hlohi1)
              (by simpa [boundAt, boundAt'] using hm)
        | cons k1 ktl1 =>
          cases hrest with
          | cons _ _ _ _ _ c1 rest1 hlo1 hc1 hrest1 =>
            simp only [List.drop_succ_cons, List.drop_zero]
            refine SubsCanon.cons _ _ _ _ _ _ _ (OptLt_trans_mid hlo hlo1)
              (by simpa [boundAt, boundAt'] using hm) hrest1
      | succ j =>
        simp only [List.take_succ_cons, List.cons_append, tuple_remove_at_cons_succ,
          List.drop_succ_cons]
        refine SubsCanon.cons _ _ _ _ _ _ _ hlo hc ?_
        have hb1 : boundAt lo (k :: ktl) (j + 1) = boundAt (some k) ktl j := by
          cases j with
          | zero => simp [boundAt]
          | succ j' => simp [boundAt]
        have hb2 : boundAt' (k :: ktl) hi (j + 2) = boundAt' ktl hi (j + 1) := by
          simp only [boundAt']
          by_cases hj : j + 1 < ktl.length
          · rw [if_pos (by simp; omega), if_pos hj]; simp
          · rw [if_neg (by simp; omega), if_neg hj]
        exact ih hrest j (by simpa using hi') merged (hb1 ▸ hb2 ▸ hm)

end SubsCanonSurgery2

/-- Contents of the node produced by inserting a key at slot `i` with split
children. -/
theorem interleave_insert (subs : List (Option MSTNode)) :
    ∀ (kvs : KVList) (i : Nat) (kv' : Key × Val) (lsub rsub : Option MSTNode),
      i ≤ kvs.length → subs.length = kvs.length + 1 →
      interleaveC (subs.take i ++ [lsub, rsub] ++ subs.drop (i + 1))
          (tuple_insert_at kvs i kv') =
        preC subs kvs i ++ optContents lsub ++ kv' :: optContents rsub ++
          postC subs kvs i := by
  induction subs with
  | nil => intro kvs i kv' lsub rsub h1 h2; simp at h2
  | cons c rest ih =>
    intro kvs i kv' lsub rsub h1 h2
    cases i with
    | zero =>
      simp only [List.take_zero, List.nil_append, tuple_insert_at_zero, List.drop_succ_cons,
        List.drop_zero, preC_zero]
      cases kvs with
      | nil =>
        match rest, h2 with
        | [], _ => simp [postC]
      | cons kv kvtl => simp [postC]
    | succ j =>
      cases kvs with
      | nil => simp at h1
      | cons kv kvtl =>
        simp only [List.take_succ_cons, List.cons_append, tuple_insert_at_cons_succ,
          List.drop_succ_cons, interleaveC_cons_cons]
        rw [ih kvtl j kv' lsub rsub (by simpa using h1) (by simpa using h2)]
        rw [preC_succ]
        have hpost : postC (c :: rest) (kv :: kvtl) (j + 1) = postC rest kvtl j := by
          simp [postC, List.drop_succ_cons]
        rw [hpost]
        simp

/-- Contents of the node produced by removing the key at slot `i` and merging
its flanking subtrees. -/
theorem interleave_remove (subs : List (Option MSTNode)) :
    ∀ (kvs : KVList) (i : Nat) (merged : Option MSTNode),
      i < kvs.length → subs.length = kvs.length + 1 →
      interleaveC (subs.take i ++ [merged] ++ subs.drop (i + 2))
          (tuple_remove_at kvs i) =
        preC subs kvs i ++ optContents merged ++ postC subs kvs (i + 1) := by
  induction subs with
  | nil => intro kvs i merged h1 h2; simp at h2
  | cons c rest ih =>
    intro kvs i merged h1 h2
    cases i with
    | zero =>
      cases kvs with
      | nil => simp at h1
      | cons kv kvtl =>
        simp only [List.take_zero, List.nil_append, tuple_remove_at_zero_cons, preC_zero]
        have hd : (c :: rest).drop 2 = rest.drop 1 := by simp
        rw [hd]
        have hpost : postC (c :: rest) (kv :: kvtl) 1 = postC rest kvtl 0 := by
          simp [postC]
        rw [hpost]
        simp [postC]
        cases kvtl with
        | nil =>
          match rest, h2 with
          | [c1], _ => simp [postC]
        | cons kv1 kvtl1 =>
          match rest, h2 with
          | c1 :: rest1, _ => simp [postC]
    | succ j =>
      cases kvs with
      | nil => simp at h1
      | cons kv kvtl =>
        simp only [List.take_succ_cons, List.cons_append, tuple_remove_at_cons_succ,
          List.drop_succ_cons, interleaveC_cons_cons]
        rw [ih kvtl j merged (by simpa using h1) (by simpa using h2)]
        rw [preC_succ]
        have hpost : postC (c :: rest) (kv :: kvtl) (j + 2) = postC rest kvtl (j + 1) := by
          simp [postC, List.drop_succ_cons]
        rw [hpost]
        simp

section ReprLemmas

variable {H : Key → Nat}

/-- `c` is the canonical optional subtree representing the kv list `L` at
level `t`, within bounds `(lo, hi)`: `none` represents the empty list, and a
node represents its non-empty contents. -/
def ReprOpt (H : Key → Nat) (t : Nat) (lo hi : Option Key) (c : Option MSTNode)
    (L : KVList) : Prop :=
  optContents c = L ∧
  (c = none → L = []) ∧
  (∀ m, c = some m → Canon H t lo hi m ∧ L ≠ [])

theorem reprOpt_none (t : Nat) (lo hi : Option Key) :
    ReprOpt H t lo hi none [] := by
  refine ⟨by simp, fun _ => rfl, fun m hm => by cases hm⟩

theorem childCanon_to_repr {t : Nat} {lo hi : Option Key} {c : Option MSTNode}
    (h : ChildCanon H t lo hi c) : ReprOpt H (t - 1) lo hi c (optContents c) := by
  cases h with
  | none => simpa using (reprOpt_none (H := H) (t - 1) lo hi)
  | some _ _ _ m ht hm hne =>
    exact ⟨rfl, by simp, fun m' hm' => by
      injection hm' with hh
      subst hh
      exact ⟨hm, by simpa using hne⟩⟩

theorem repr_to_childCanon {t : Nat} {lo hi : Option Key} {c : Option MSTNode}
    {L : KVList} (h : ReprOpt H t lo hi c L) (ht : c ≠ none → 0 < t + 1) :
    ChildCanon H (t + 1) lo hi c := by
  obtain ⟨hco, hnone, hsome⟩ := h
  cases c with
  | none => exact ChildCanon.none _ _ _
  | some m =>
    obtain ⟨hcm, hne⟩ := hsome m rfl
    refine ChildCanon.some _ _ _ _ (by omega) (by simpa using hcm) ?_
    have : nodeContents m = L := by simpa using hco
    rw [this]
    exact hne

theorem canon_empty_iff {t : Nat} {lo hi : Option Key} {m : MSTNode}
    (h : Canon H t lo hi m) : (m.is_empty = true ↔ nodeContents m = []) := by
  cases h with
  | mk _ _ _ keys vals subs hlen hk hsub =>
    constructor
    · intro he
      rw [MSTNode.is_empty] at he
      simp only [MSTNode.subtrees_mk] at he
      match subs, he with
      | [none], _ =>
        have hl := subsCanon_length hsub
        simp at hl
        match keys, hl with
        | [], _ => simp
    · intro hc
      rw [MSTNode.is_empty]
      simp only [MSTNode.subtrees_mk]
      have hzip := canon_contents_filter keys vals subs t lo hi
        (Canon.mk _ _ _ _ _ _ hlen hk hsub)
      rw [hc] at hzip
      simp at hzip
      have hkeys : keys = [] := by
        cases keys with
        | nil => rfl
        | cons k ktl =>
          cases vals with
          | nil => simp at hlen
          | cons v vtl => simp at hzip
      subst hkeys
      have hl := subsCanon_length hsub
      match subs, hl with
      | [c], _ =>
        cases hsub with
        | last _ _ _ _ hlohi hc' =>
          cases hc' with
          | none => simp
          | some _ _ _ m' ht' hm' hne' =>
            rw [nodeContents_mk] at hc
            simp at hc
            exact absurd hc hne'

theorem canon_to_repr {t : Nat} {lo hi : Option Key} {m : MSTNode}
    (h : Canon H t lo hi m) :
    ReprOpt H t lo hi m._to_optional (nodeContents m) := by
  rw [MSTNode._to_optional]
  by_cases he : m.is_empty
  · rw [if_pos he]
    have := (canon_empty_iff h).mp (by simpa using he)
    rw [this]
    exact reprOpt_none _ _ _
  · rw [if_neg he]
    refine ⟨by simp, by simp, fun m' hm' => ?_⟩
    injection hm' with hh
    subst hh
    refine ⟨h, ?_⟩
    intro hc
    exact he (by simpa using (canon_empty_iff h).mpr hc)

end ReprLemmas

theorem getD_mem_of_lt {α : Type} (l : List α) (i : Nat) (d : α) (h : i < l.length) :
    l.getD i d ∈ l := by
  rw [List.getD_eq_getElem?_getD, List.getElem?_eq_getElem h]
  simp

theorem zip_getD_mem :
    ∀ (keys : List Key) (vals : List Val), vals.length = keys.length →
      ∀ i < keys.length, (keys.getD i [], vals.getD i []) ∈ keys.zip vals := by
  intro keys
  induction keys with
  | nil => intro vals _ i hi; simp at hi
  | cons k ktl ih =>
    intro vals hlen i hi
    cases vals with
    | nil => simp at hlen
    | cons v vtl =>
      cases i with
      | zero => simp
      | succ j =>
        have := ih vtl (by simpa using hlen) j (by simpa using hi)
        simp only [List.getD_cons_succ, List.zip_cons_cons]
        exact List.mem_cons_of_mem _ this

theorem pairwise_getD_lt :
    ∀ (keys : List Key), keys.Pairwise (fun a b => keyLt a b) →
      ∀ i j, i < j → j < keys.length → keyLt (keys.getD i []) (keys.getD j []) := by
  intro keys
  induction keys with
  | nil => intro _ i j _ hj; simp at hj
  | cons k ktl ih =>
    intro hpw i j hij hj
    rw [List.pairwise_cons] at hpw
    cases i with
    | zero =>
      cases j with
      | zero => omega
      | succ j' =>
        simp only [List.getD_cons_zero, List.getD_cons_succ]
        exact hpw.1 _ (getD_mem_of_lt _ _ _ (by simpa using hj))
    | succ i' =>
      cases j with
      | zero => omega
      | succ j' =>
        simp only [List.getD_cons_succ]
        exact ih hpw.2 i' j' (by omega) (by simpa using hj)

theorem postC_eq_interleave (subs : List (Option MSTNode)) (kvs : KVList) (i : Nat) :
    postC subs kvs i = interleaveC (none :: subs.drop (i + 1)) (kvs.drop i) := by
  rw [postC]
  cases h : kvs.drop i with
  | nil => simp
  | cons kv tl => simp

@[simp] theorem gte_index_mk (keys vals subs) (k : Key) :
    (MSTNode.mk keys vals subs).gte_index k = gteIndexAux keys k := rfl

theorem zip_take (keys : List Key) :
    ∀ (vals : List Val) (i : Nat),
      (keys.take i).zip (vals.take i) = (keys.zip vals).take i := by
  induction keys with
  | nil => intro vals i; simp
  | cons k ktl ih =>
    intro vals i
    cases vals with
    | nil => simp
    | cons v vtl =>
      cases i with
      | zero => simp
      | succ j => simp [ih vtl j]

theorem zip_drop (keys : List Key) :
    ∀ (vals : List Val) (i : Nat),
      (keys.drop i).zip (vals.drop i) = (keys.zip vals).drop i := by
  induction keys with
  | nil => intro vals i; simp
  | cons k ktl ih =>
    intro vals i
    cases vals with
    | nil => simp
    | cons v vtl =>
      cases i with
      | zero => simp
      | succ j => simp [ih vtl j]

section SplitLemma

variable {H : Key → Nat}

/-- Wrapper: contents facts for a partial node given by a `SubsCanon`. -/
theorem subsCanon_CF {t : Nat} {lo hi : Option Key} {keys : List Key}
    {subs : List (Option MSTNode)} (h : SubsCanon H t lo hi keys subs)
    (vals : List Val) (hlen : vals.length = keys.length)
    (hk : ∀ k' ∈ keys, H k' = t) :
    CFacts H t lo hi (interleaveC subs (keys.zip vals)) :=
  (subsCanon_contents_facts keys t lo hi subs vals h hlen hk
    (fun m lo' hi' _ hcm => canon_contents_facts m _ lo' hi' hcm)).1

theorem split_repr_node :
    ∀ (m : MSTNode) (t : Nat) (lo hi : Option Key) (k : Key),
      Canon H t lo hi m →
      (∀ p ∈ nodeContents m, p.1 ≠ k) →
      OptLt lo (some k) → OptLt (some k) hi →
      ReprOpt H t lo (some k) (_split_on_key (some m) k).1
        ((nodeContents m).filter (fun p => keyLt p.1 k)) ∧
      ReprOpt H t (some k) hi (_split_on_key (some m) k).2
        ((nodeContents m).filter (fun p => keyLt k p.1)) := by
  intro m
  induction m using MSTNode.strongInd with
  | step m ihm =>
    intro t lo hi k hC hneq hlok hkhi
    cases hC with
    | mk _ _ _ keys vals subs hlen hks hsub =>
      have hiLe : gteIndexAux keys k ≤ keys.length := gteIndexAux_le_length keys k
      set i := gteIndexAux keys k with hidef
      have hslen : subs.length = keys.length + 1 := subsCanon_length hsub
      have hkvlen : (keys.zip vals).length = keys.length := by
        rw [List.length_zip]; omega
      have hbef : ∀ j < i, keyLt (keys.getD j []) k :=
        fun j hj => gteIndexAux_lt_before keys k j hj
      have hkeyfacts := subsCanon_keys_facts hsub
      have hkik : i < keys.length → keyLt k (keys.getD i []) := by
        intro hilt
        have hmemzip := zip_getD_mem keys vals hlen i hilt
        have hfil := canon_contents_filter keys vals subs t lo hi
          (Canon.mk _ _ _ _ _ _ hlen hks hsub)
        rw [← hfil] at hmemzip
        have hmemc := List.mem_of_mem_filter hmemzip
        have hne : keys.getD i [] ≠ k := hneq _ hmemc
        exact keyLt_of_ne_of_not_lt hne (gteIndexAux_not_lt_at keys k hilt)
      have haft : ∀ j, i ≤ j → j < keys.length → keyLt k (keys.getD j []) := by
        intro j hij hj
        rcases Nat.eq_or_lt_of_le hij with rfl | hlt
        · exact hkik hj
        · exact keyLt_trans (hkik (by omega))
            (pairwise_getD_lt keys hkeyfacts.1 i j hlt hj)
      have hlo_k : OptLt (boundAt lo keys i) (some k) := by
        rw [boundAt]
        split
        · exact hlok
        · simpa using hbef (i - 1) (by omega)
      have hk_hi' : OptLt (some k) (boundAt' keys hi i) := by
        rw [boundAt']
        split
        · rename_i hilt
          simpa using hkik hilt
        · exact hkhi
      have hchild : ChildCanon H t (boundAt lo keys i) (boundAt' keys hi i)
          (subs.getD i none) := subsCanon_getD hsub i hiLe
      have hdecomp : interleaveC subs (keys.zip vals) =
          preC subs (keys.zip vals) i ++ optContents (subs.getD i none) ++
            postC subs (keys.zip vals) i :=
        interleave_decomp subs (keys.zip vals) i (by omega) (by omega)
      have hsegne : ∀ p ∈ optContents (subs.getD i none), p.1 ≠ k := by
        intro p hp
        refine hneq p ?_
        rw [nodeContents_mk, hdecomp]
        simp only [List.mem_append]
        exact Or.inl (Or.inr hp)
      -- the recursive split of the slot-i subtree
      have hrec : ReprOpt H (t - 1) (boundAt lo keys i) (some k)
            (_split_on_key (subs.getD i none) k).1
            ((optContents (subs.getD i none)).filter (fun p => keyLt p.1 k)) ∧
          ReprOpt H (t - 1) (some k) (boundAt' keys hi i)
            (_split_on_key (subs.getD i none) k).2
            ((optContents (subs.getD i none)).filter (fun p => keyLt k p.1)) ∧
          ((subs.getD i none) ≠ none → 0 < t) := by
        cases hcase : subs.getD i none with
        | none =>
          rw [_split_on_key]
          simp only [optContents_none, List.filter_nil]
          exact ⟨reprOpt_none _ _ _, reprOpt_none _ _ _, by simp⟩
        | some m' =>
          rw [hcase] at hchild
          cases hchild with
          | some _ _ _ _ ht hm' hne' =>
            have hmem : some m' ∈ subs := by
              rcases getD_eq_default_or_mem subs i none with h' | h'
              · rw [hcase] at h'; cases h'
              · rw [hcase] at h'; exact h'
            have hsegne' : ∀ p ∈ nodeContents m', p.1 ≠ k := by
              intro p hp
              exact hsegne p (by rw [hcase]; simpa using hp)
            have := ihm m' (sizeOf_some_mem_subs hmem keys vals) (t - 1)
              (boundAt lo keys i) (boundAt' keys hi i) k hm' hsegne' hlo_k hk_hi'
            refine ⟨?_, ?_, fun _ => ht⟩
            · simpa using this.1
            · simpa using this.2
      obtain ⟨hLrep, hRrep, h0t⟩ := hrec
      -- children of the result nodes
      have hchildL : ChildCanon H t (boundAt lo keys i) (some k)
          (_split_on_key (subs.getD i none) k).1 := by
        cases hcl : (_split_on_key (subs.getD i none) k).1 with
        | none => exact ChildCanon.none _ _ _
        | some ml =>
          have h0 : 0 < t := by
            apply h0t
            intro hnone
            rw [hnone] at hcl
            rw [_split_on_key] at hcl
            simp at hcl
          have := repr_to_childCanon hLrep (fun _ => by omega)
          rw [Nat.sub_add_cancel (by omega), hcl] at this
          exact this
      have hchildR : ChildCanon H t (some k) (boundAt' keys hi i)
          (_split_on_key (subs.getD i none) k).2 := by
        cases hcr : (_split_on_key (subs.getD i none) k).2 with
        | none => exact ChildCanon.none _ _ _
        | some mr =>
          have h0 : 0 < t := by
            apply h0t
            intro hnone
            rw [hnone] at hcr
            rw [_split_on_key] at hcr
            simp at hcr
          have := repr_to_childCanon hRrep (fun _ => by omega)
          rw [Nat.sub_add_cancel (by omega), hcr] at this
          exact this
      -- canonicity of the two result nodes
      have canL : Canon H t lo (some k)
          (.mk (keys.take i) (vals.take i)
            (subs.take i ++ [(_split_on_key (subs.getD i none) k).1])) := by
        refine Canon.mk _ _ _ _ _ _ ?_ ?_ ?_
        · simp [List.length_take]; omega
        · exact fun k' hk' => hks k' (List.take_subset _ _ hk')
        · exact subsCanon_take hsub i hiLe _ hchildL hbef hlok
      have canR : Canon H t (some k) hi
          (.mk (keys.drop i) (vals.drop i)
            ((_split_on_key (subs.getD i none) k).2 :: subs.drop (i + 1))) := by
        refine Canon.mk _ _ _ _ _ _ ?_ ?_ ?_
        · simp [List.length_drop]; omega
        · exact fun k' hk' => hks k' (List.drop_subset _ _ hk')
        · exact subsCanon_drop hsub i hiLe _ hchildR haft hkhi
      -- contents of the two result nodes
      have contL : nodeContents (.mk (keys.take i) (vals.take i)
            (subs.take i ++ [(_split_on_key (subs.getD i none) k).1])) =
          preC subs (keys.zip vals) i ++
            (optContents (subs.getD i none)).filter (fun p => keyLt p.1 k) := by
        rw [nodeContents_mk, zip_take]
        rw [interleave_append_last _ _ _ (by simp [List.length_take]; omega)]
        rw [hLrep.1]
        rfl
      have contR : nodeContents (.mk (keys.drop i) (vals.drop i)
            ((_split_on_key (subs.getD i none) k).2 :: subs.drop (i + 1))) =
          (optContents (subs.getD i none)).filter (fun p => keyLt k p.1) ++
            postC subs (keys.zip vals) i := by
        rw [nodeContents_mk, zip_drop, postC_eq_interleave]
        cases hd : (keys.zip vals).drop i with
        | nil =>
          rw [interleaveC_cons_nil, interleaveC_cons_nil, hRrep.1]
          simp
        | cons kv tl =>
          simp only [interleaveC_cons_cons, hRrep.1]
          simp
      -- the filtered whole-node contents
      have hpreCF : CFacts H t lo (some k)
          (interleaveC (subs.take i ++ [none]) ((keys.take i).zip (vals.take i))) :=
        subsCanon_CF (subsCanon_take hsub i hiLe none (ChildCanon.none _ _ _) hbef hlok)
          (vals.take i) (by simp [List.length_take]; omega)
          (fun k' hk' => hks k' (List.take_subset _ _ hk'))
      have hpostCF : CFacts H t (some k) hi
          (interleaveC (none :: subs.drop (i + 1)) ((keys.drop i).zip (vals.drop i))) :=
        subsCanon_CF (subsCanon_drop hsub i hiLe none (ChildCanon.none _ _ _) haft hkhi)
          (vals.drop i) (by simp [List.length_drop]; omega)
          (fun k' hk' => hks k' (List.drop_subset _ _ hk'))
      have hpre_all : ∀ p ∈ preC subs (keys.zip vals) i, keyLt p.1 k := by
        intro p hp
        rw [preC] at hp
        have hp' : p ∈ interleaveC (subs.take i ++ [none])
            ((keys.take i).zip (vals.take i)) := by
          rw [zip_take]
          exact hp
        have := hpreCF.2.1 p hp'
        simpa using this.2
      have hpost_all : ∀ p ∈ postC subs (keys.zip vals) i, keyLt k p.1 := by
        intro p hp
        have hp' : p ∈ interleaveC (none :: subs.drop (i + 1))
            ((keys.drop i).zip (vals.drop i)) := by
          rw [zip_drop, ← postC_eq_interleave]
          exact hp
        have := hpostCF.2.1 p hp'
        simpa using this.1
      have hfL1 : (preC subs (keys.zip vals) i).filter (fun p => keyLt p.1 k) =
          preC subs (keys.zip vals) i :=
        List.filter_eq_self.mpr (fun p hp => by simpa using hpre_all p hp)
      have hfL2 : (postC subs (keys.zip vals) i).filter (fun p => keyLt p.1 k) = [] :=
        List.filter_eq_nil_iff.mpr (fun p hp => by
          simp [keyLt_asymm (hpost_all p hp)])
      have hfR1 : (preC subs (keys.zip vals) i).filter (fun p => keyLt k p.1) = [] :=
        List.filter_eq_nil_iff.mpr (fun p hp => by
          simp [keyLt_asymm (hpre_all p hp)])
      have hfR2 : (postC subs (keys.zip vals) i).filter (fun p => keyLt k p.1) =
          postC subs (keys.zip vals) i :=
        List.filter_eq_self.mpr (fun p hp => by simpa using hpost_all p hp)
      have hfiltL : (nodeContents (MSTNode.mk keys vals subs)).filter
            (fun p => keyLt p.1 k) =
          preC subs (keys.zip vals) i ++
            (optContents (subs.getD i none)).filter (fun p => keyLt p.1 k) := by
        rw [nodeContents_mk, hdecomp]
        rw [List.filter_append, List.filter_append, hfL1, hfL2]
        simp
      have hfiltR : (nodeContents (MSTNode.mk keys vals subs)).filter
            (fun p => keyLt k p.1) =
          (optContents (subs.getD i none)).filter (fun p => keyLt k p.1) ++
            postC subs (keys.zip vals) i := by
        rw [nodeContents_mk, hdecomp]
        rw [List.filter_append, List.filter_append, hfR1, hfR2]
        simp
      -- assemble
      have hunfold : _split_on_key (some (MSTNode.mk keys vals subs)) k =
          ((MSTNode.mk (keys.take i) (vals.take i)
            (subs.take i ++ [(_split_on_key (subs.getD i none) k).1]))._to_optional,
           (MSTNode.mk (keys.drop i) (vals.drop i)
            ((_split_on_key (subs.getD i none) k).2 :: subs.drop (i + 1)))._to_optional) := by
        rw [_split_on_key]
        simp only [MSTNode.subtrees_mk, MSTNode.keys_mk, MSTNode.vals_mk, gte_index_mk]
      rw [hunfold]
      constructor
      · have := canon_to_repr canL
        rw [contL] at this
        rw [hfiltL]
        exact this
      · have := canon_to_repr canR
        rw [contR] at this
        rw [hfiltR]
        exact this

theorem split_repr {t : Nat} {lo hi : Option Key} {c : Option MSTNode} {L : KVList}
    {k : Key} (h : ReprOpt H t lo hi c L) (hneq : ∀ p ∈ L, p.1 ≠ k)
    (hlok : OptLt lo (some k)) (hkhi : OptLt (some k) hi) :
    ReprOpt H t lo (some k) (_split_on_key c k).1 (L.filter (fun p => keyLt p.1 k)) ∧
    ReprOpt H t (some k) hi (_split_on_key c k).2 (L.filter (fun p => keyLt k p.1)) := by
  obtain ⟨hco, hnone, hsome⟩ := h
  cases c with
  | none =>
    have : L = [] := hnone rfl
    subst this
    rw [_split_on_key]
    exact ⟨reprOpt_none _ _ _, reprOpt_none _ _ _⟩
  | some m =>
    obtain ⟨hcm, -⟩ := hsome m rfl
    have hL : nodeContents m = L := by simpa using hco
    subst hL
    exact split_repr_node m t lo hi k hcm hneq hlok hkhi

end SplitLemma

/-! ## Sorted-list insertion and removal (the functional model of put/delete) -/

/-- Insert (or replace) a key in a key-sorted kv list. -/
def insertKV : KVList → Key → Val → KVList
  | [], k, v => [(k, v)]
  | (k', v') :: rest, k, v =>
    if keyLt k k' then (k, v) :: (k', v') :: rest
    else if k = k' then (k, v) :: rest
    else (k', v') :: insertKV rest k v

/-- Remove a key from a key-sorted kv list (no-op when absent). -/
def removeKV : KVList → Key → KVList
  | [], _ => []
  | (k', v') :: rest, k => if k = k' then rest else (k', v') :: removeKV rest k

theorem insertKV_position (k : Key) (v : Val) :
    ∀ (A B : KVList), (∀ a ∈ A, keyLt a.1 k) → (∀ b ∈ B, keyLt k b.1) →
      insertKV (A ++ B) k v = A ++ (k, v) :: B := by
  intro A
  induction A with
  | nil =>
    intro B _ hB
    cases B with
    | nil => rfl
    | cons b rest =>
      rw [List.nil_append, insertKV]
      rw [if_pos (by simpa using hB b (by simp))]
      simp
  | cons a A' ih =>
    intro B hA hB
    have hak : keyLt a.1 k := by simpa using hA a (by simp)
    rw [List.cons_append, insertKV]
    rw [if_neg (by simp [keyLt_asymm hak]), if_neg (by
      intro hkk
      rw [hkk] at hak
      simp [keyLt_irrefl] at hak)]
    rw [ih B (fun x hx => hA x (by simp [hx])) hB]
    simp [Prod.mk.eta]

theorem insertKV_replace (k : Key) (v v0 : Val) :
    ∀ (A B : KVList), (∀ a ∈ A, keyLt a.1 k) →
      insertKV (A ++ (k, v0) :: B) k v = A ++ (k, v) :: B := by
  intro A
  induction A with
  | nil =>
    intro B _
    rw [List.nil_append, insertKV]
    rw [if_neg (by simp [keyLt_irrefl]), if_pos rfl]
    simp
  | cons a A' ih =>
    intro B hA
    have hak : keyLt a.1 k := by simpa using hA a (by simp)
    rw [List.cons_append, insertKV]
    rw [if_neg (by simp [keyLt_asymm hak]), if_neg (by
      intro hkk
      rw [hkk] at hak
      simp [keyLt_irrefl] at hak)]
    rw [ih B (fun x hx => hA x (by simp [hx]))]
    simp [Prod.mk.eta]

theorem removeKV_position (k : Key) :
    ∀ (A B : KVList) (v0 : Val), (∀ a ∈ A, keyLt a.1 k) →
      removeKV (A ++ (k, v0) :: B) k = A ++ B := by
  intro A
  induction A with
  | nil =>
    intro B v0 _
    rw [List.nil_append, removeKV]
    simp
  | cons a A' ih =>
    intro B v0 hA
    have hak : keyLt a.1 k := by simpa using hA a (by simp)
    rw [List.cons_append, removeKV]
    rw [if_neg (by
      intro hkk
      rw [hkk] at hak
      simp [keyLt_irrefl] at hak)]
    rw [ih B v0 (fun x hx => hA x (by simp [hx]))]
    simp [Prod.mk.eta]

theorem removeKV_absent (k : Key) :
    ∀ (L : KVList), (∀ p ∈ L, p.1 ≠ k) → removeKV L k = L := by
  intro L
  induction L with
  | nil => intro _; rfl
  | cons p rest ih =>
    intro hL
    rw [removeKV]
    rw [if_neg (fun hkk => hL p (by simp) hkk.symm)]
    rw [ih (fun x hx => hL x (by simp [hx]))]

/-- A sorted list with no key equal to `k` splits as those below then those
above `k`. -/
theorem filter_partition_sorted (k : Key) :
    ∀ (L : KVList), KVSorted L → (∀ p ∈ L, p.1 ≠ k) →
      L = L.filter (fun p => keyLt p.1 k) ++ L.filter (fun p => keyLt k p.1) := by
  intro L
  induction L with
  | nil => simp
  | cons p rest ih =>
    intro hs hne
    rw [KVSorted, List.pairwise_cons] at hs
    have hrec := ih hs.2 (fun x hx => hne x (by simp [hx]))
    by_cases hp : keyLt p.1 k
    · rw [List.filter_cons_of_pos (by simpa using hp)]
      rw [List.filter_cons_of_neg (by simp [keyLt_asymm hp])]
      rw [List.cons_append, ← hrec]
    · have hkp : keyLt k p.1 :=
        keyLt_of_ne_of_not_lt (hne p (by simp)) (by simpa using hp)
      rw [List.filter_cons_of_neg (by simpa using hp)]
      rw [List.filter_cons_of_pos (by simpa using hkp)]
      have h1 : rest.filter (fun p => keyLt p.1 k) = [] := by
        rw [List.filter_eq_nil_iff]
        intro x hx
        have := keyLt_trans hkp (hs.1 x hx)
        simp [keyLt_asymm this]
      have h2 : rest.filter (fun q => keyLt k q.1) = rest := by
        rw [List.filter_eq_self]
        intro x hx
        simpa using keyLt_trans hkp (hs.1 x hx)
      rw [h1] at hrec
      rw [h1, h2]
      simpa using hrec

theorem zip_getD (keys : List Key) :
    ∀ (vals : List Val) (i : Nat) (d : Key × Val), vals.length = keys.length →
      i < keys.length →
      (keys.zip vals).getD i d = (keys.getD i [], vals.getD i []) := by
  induction keys with
  | nil => intro vals i d _ hi; simp at hi
  | cons k ktl ih =>
    intro vals i d hlen hi
    cases vals with
    | nil => simp at hlen
    | cons v vtl =>
      cases i with
      | zero => simp
      | succ j =>
        simp only [List.zip_cons_cons, List.getD_cons_succ]
        exact ih vtl j d (by simpa using hlen) (by simpa using hi)

theorem zip_replace_val (keys : List Key) :
    ∀ (vals : List Val) (i : Nat) (v : Val), vals.length = keys.length →
      i < keys.length →
      keys.zip (tuple_replace_at vals i v) =
        tuple_replace_at (keys.zip vals) i (keys.getD i [], v) := by
  induction keys with
  | nil => intro vals i v _ hi; simp at hi
  | cons k ktl ih =>
    intro vals i v hlen hi
    cases vals with
    | nil => simp at hlen
    | cons v0 vtl =>
      cases i with
      | zero => simp
      | succ j =>
        simp only [tuple_replace_at_cons_succ, List.zip_cons_cons, List.getD_cons_succ]
        rw [ih vtl j v (by simpa using hlen) (by simpa using hi)]

theorem zip_insert (keys : List Key) :
    ∀ (vals : List Val) (i : Nat) (k : Key) (v : Val), vals.length = keys.length →
      i ≤ keys.length →
      (tuple_insert_at keys i k).zip (tuple_insert_at vals i v) =
        tuple_insert_at (keys.zip vals) i (k, v) := by
  induction keys with
  | nil =>
    intro vals i k v hlen hi
    have : i = 0 := by simpa using hi
    subst this
    match vals, hlen with
    | [], _ => simp
  | cons k0 ktl ih =>
    intro vals i k v hlen hi
    cases vals with
    | nil => simp at hlen
    | cons v0 vtl =>
      cases i with
      | zero => simp
      | succ j =>
        simp only [tuple_insert_at_cons_succ, List.zip_cons_cons]
        rw [ih vtl j k v (by simpa using hlen) (by simpa using hi)]

theorem zip_remove (keys : List Key) :
    ∀ (vals : List Val) (i : Nat), vals.length = keys.length →
      (tuple_remove_at keys i).zip (tuple_remove_at vals i) =
        tuple_remove_at (keys.zip vals) i := by
  induction keys with
  | nil =>
    intro vals i hlen
    match vals, hlen with
    | [], _ => simp [tuple_remove_at]
  | cons k0 ktl ih =>
    intro vals i hlen
    cases vals with
    | nil => simp at hlen
    | cons v0 vtl =>
      cases i with
      | zero => simp
      | succ j =>
        simp only [tuple_remove_at_cons_succ, List.zip_cons_cons]
        rw [ih vtl j (by simpa using hlen)]

theorem tuple_insert_at_length {α : Type} (l : List α) (i : Nat) (x : α) (h : i ≤ l.length) :
    (tuple_insert_at l i x).length = l.length + 1 := by
  simp [tuple_insert_at]
  omega

theorem tuple_replace_at_length {α : Type} (l : List α) (i : Nat) (x : α) (h : i < l.length) :
    (tuple_replace_at l i x).length = l.length := by
  simp [tuple_replace_at]
  omega

theorem tuple_remove_at_length {α : Type} (l : List α) (i : Nat) (h : i < l.length) :
    (tuple_remove_at l i).length = l.length - 1 := by
  simp [tuple_remove_at]
  omega

theorem mem_tuple_insert_at {α : Type} (l : List α) (i : Nat) (x y : α)
    (h : y ∈ tuple_insert_at l i x) : y = x ∨ y ∈ l := by
  simp only [tuple_insert_at, List.mem_append] at h
  rcases h with (h | h) | h
  · exact Or.inr (List.take_subset _ _ h)
  · simp at h; exact Or.inl h
  · exact Or.inr (List.drop_subset _ _ h)

theorem mem_tuple_remove_at {α : Type} (l : List α) (i : Nat) (y : α)
    (h : y ∈ tuple_remove_at l i) : y ∈ l := by
  simp only [tuple_remove_at, List.mem_append] at h
  rcases h with h | h
  · exact List.take_subset _ _ h
  · exact List.drop_subset _ _ h

theorem subsCanon_suffix {H : Key → Nat} {t : Nat} :
    ∀ {keys : List Key} {subs : List (Option MSTNode)} {lo hi : Option Key},
      SubsCanon H t lo hi keys subs → ∀ i < keys.length,
      SubsCanon H t (some (keys.getD i [])) hi (keys.drop (i + 1)) (subs.drop (i + 1)) := by
  intro keys
  induction keys with
  | nil => intro subs lo hi h i hi'; simp at hi'
  | cons k ktl ih =>
    intro subs lo hi h i hi'
    cases h with
    | cons _ _ _ _ _ c rest hlo hc hrest =>
      cases i with
      | zero => simpa using hrest
      | succ j =>
        simpa using ih hrest j (by simpa using hi')

theorem drop_eq_getD_cons {α : Type} :
    ∀ (l : List α) (i : Nat) (d : α), i < l.length →
      l.drop i = l.getD i d :: l.drop (i + 1) := by
  intro l
  induction l with
  | nil => intro i d hi; simp at hi
  | cons x xs ih =>
    intro i d hi
    cases i with
    | zero => simp
    | succ j => simpa using ih j d (by simpa using hi)

theorem take_tuple_replace_at {α : Type} (l : List α) (i : Nat) (x : α) (h : i ≤ l.length) :
    (tuple_replace_at l i x).take i = l.take i := by
  rw [tuple_replace_at, List.append_assoc]
  rw [List.take_append_of_le_length (by simp [List.length_take]; omega)]
  simp [List.take_take]

theorem drop_tuple_replace_at {α : Type} :
    ∀ (l : List α) (i : Nat) (x : α), i ≤ l.length →
      (tuple_replace_at l i x).drop i = x :: l.drop (i + 1) := by
  intro l
  induction l with
  | nil =>
    intro i x h
    have : i = 0 := by simpa using h
    subst this
    simp [tuple_replace_at]
  | cons y ys ih =>
    intro i x h
    cases i with
    | zero => simp
    | succ j => simpa using ih j x (by simpa using h)

section PutHere

variable {H : Key → Nat}

theorem put_here_canon {t : Nat} {lo hi : Option Key} {m : MSTNode}
    (hC : Canon H t lo hi m) (k : Key) (v : Val) (hk : H k = t)
    (hlok : OptLt lo (some k)) (hkhi : OptLt (some k) hi) :
    Canon H t lo hi (_put_here m k v) ∧
    nodeContents (_put_here m k v) = insertKV (nodeContents m) k v := by
  cases hC with
  | mk _ _ _ keys vals subs hlen hks hsub =>
    have hiLe : gteIndexAux keys k ≤ keys.length := gteIndexAux_le_length keys k
    set i := gteIndexAux keys k with hidef
    have hslen : subs.length = keys.length + 1 := subsCanon_length hsub
    have hkvlen : (keys.zip vals).length = keys.length := by
      rw [List.length_zip]; omega
    have hbef : ∀ j < i, keyLt (keys.getD j []) k :=
      fun j hj => gteIndexAux_lt_before keys k j hj
    have hkeyfacts := subsCanon_keys_facts hsub
    have hchild : ChildCanon H t (boundAt lo keys i) (boundAt' keys hi i)
        (subs.getD i none) := subsCanon_getD hsub i hiLe
    have hlo_k : OptLt (boundAt lo keys i) (some k) := by
      rw [boundAt]
      split
      · exact hlok
      · simpa using hbef (i - 1) (by omega)
    have hdecomp : interleaveC subs (keys.zip vals) =
        preC subs (keys.zip vals) i ++ optContents (subs.getD i none) ++
          postC subs (keys.zip vals) i :=
      interleave_decomp subs (keys.zip vals) i (by omega) (by omega)
    -- elements before slot i are below k
    have hpre_all : ∀ p ∈ preC subs (keys.zip vals) i, keyLt p.1 k := by
      intro p hp
      rw [preC] at hp
      have hp' : p ∈ interleaveC (subs.take i ++ [none])
          ((keys.take i).zip (vals.take i)) := by
        rw [zip_take]
        exact hp
      have := (subsCanon_CF
        (subsCanon_take hsub i hiLe none (ChildCanon.none _ _ _) hbef hlok)
        (vals.take i) (by simp [List.length_take]; omega)
        (fun k' hk' => hks k' (List.take_subset _ _ hk'))).2.1 p hp'
      simpa using this.2
    by_cases hguard : i < keys.length ∧ keys.getD i [] = k
    · -- the key is already present at slot i
      obtain ⟨hilt, hkeq⟩ := hguard
      -- seg elements are below k (the slot-i child's upper bound is keys[i] = k)
      have hseg_all : ∀ p ∈ optContents (subs.getD i none), keyLt p.1 k := by
        intro p hp
        cases hcase : subs.getD i none with
        | none => rw [hcase] at hp; simp at hp
        | some m' =>
          rw [hcase] at hchild hp
          cases hchild with
          | some _ _ _ _ ht hm' hne' =>
            have := (canon_contents_facts m' (t - 1) _ _ hm').2.1 p (by simpa using hp)
            have h2 := this.2
            rw [boundAt'] at h2
            rw [if_pos hilt] at h2
            rw [hkeq] at h2
            simpa using h2
      -- postC starts with the (k, old value) entry
      have hdropkv : (keys.zip vals).drop i =
          (k, vals.getD i []) :: (keys.zip vals).drop (i + 1) := by
        rw [drop_eq_getD_cons (keys.zip vals) i ([], []) (by omega)]
        rw [zip_getD keys vals i ([], []) hlen hilt, hkeq]
      have hpostC : postC subs (keys.zip vals) i =
          (k, vals.getD i []) :: interleaveC (subs.drop (i + 1))
            ((keys.zip vals).drop (i + 1)) := by
        rw [postC, hdropkv]
      have hins : insertKV (nodeContents (MSTNode.mk keys vals subs)) k v =
          (preC subs (keys.zip vals) i ++ optContents (subs.getD i none)) ++
            (k, v) :: interleaveC (subs.drop (i + 1)) ((keys.zip vals).drop (i + 1)) := by
        rw [nodeContents_mk, hdecomp, hpostC]
        rw [List.append_assoc]
        rw [show optContents (subs.getD i none) ++
            ((k, vals.getD i []) :: interleaveC (subs.drop (i + 1))
              ((keys.zip vals).drop (i + 1))) =
          (optContents (subs.getD i none) ++ [(k, vals.getD i [])]) ++
            interleaveC (subs.drop (i + 1)) ((keys.zip vals).drop (i + 1)) by simp]
        rw [← List.append_assoc]
        rw [show preC subs (keys.zip vals) i ++
            (optContents (subs.getD i none) ++ [(k, vals.getD i [])]) =
          (preC subs (keys.zip vals) i ++ optContents (subs.getD i none)) ++
            [(k, vals.getD i [])] by simp]
        rw [List.append_assoc, List.singleton_append]
        rw [insertKV_replace k v (vals.getD i []) _ _ (by
          intro a ha
          rcases List.mem_append.mp ha with h' | h'
          · exact hpre_all a h'
          · exact hseg_all a h')]
      rw [_put_here]
      simp only [MSTNode.keys_mk, MSTNode.vals_mk, MSTNode.subtrees_mk, gte_index_mk]
      rw [if_pos (by exact ⟨hilt, hkeq⟩)]
      by_cases hveq : vals.getD i [] = v
      · rw [if_pos hveq]
        refine ⟨Canon.mk _ _ _ _ _ _ hlen hks hsub, ?_⟩
        rw [hins, nodeContents_mk, hdecomp, hpostC, ← hveq]
        try simp
      · rw [if_neg hveq]
        refine ⟨Canon.mk _ _ _ _ _ _ (by rw [tuple_replace_at_length _ _ _ (by omega)]; omega)
          hks hsub, ?_⟩
        rw [hins, nodeContents_mk]
        rw [zip_replace_val keys vals i v hlen hilt, hkeq]
        rw [interleave_decomp subs (tuple_replace_at (keys.zip vals) i (k, v)) i
          (by rw [tuple_replace_at_length _ _ _ (by omega)]; omega)
          (by rw [tuple_replace_at_length _ _ _ (by omega)]; omega)]
        have hpre' : preC subs (tuple_replace_at (keys.zip vals) i (k, v)) i =
            preC subs (keys.zip vals) i := by
          rw [preC, preC, take_tuple_replace_at _ _ _ (by omega)]
        have hpost' : postC subs (tuple_replace_at (keys.zip vals) i (k, v)) i =
            (k, v) :: interleaveC (subs.drop (i + 1)) ((keys.zip vals).drop (i + 1)) := by
          rw [postC]
          have : (tuple_replace_at (keys.zip vals) i (k, v)).drop i =
              (k, v) :: (keys.zip vals).drop (i + 1) :=
            drop_tuple_replace_at _ _ _ (by omega)
          rw [this]
        rw [hpre', hpost']
        try simp
    · -- the key is absent: insert it here, splitting the slot-i subtree
      have hkik : i < keys.length → keyLt k (keys.getD i []) := by
        intro hilt
        have hne : keys.getD i [] ≠ k := fun he => hguard ⟨hilt, he⟩
        exact keyLt_of_ne_of_not_lt hne (gteIndexAux_not_lt_at keys k hilt)
      have haft : ∀ j, i ≤ j → j < keys.length → keyLt k (keys.getD j []) := by
        intro j hij hj
        rcases Nat.eq_or_lt_of_le hij with rfl | hlt
        · exact hkik hj
        · exact keyLt_trans (hkik (by omega))
            (pairwise_getD_lt keys hkeyfacts.1 i j hlt hj)
      have hk_hi' : OptLt (some k) (boundAt' keys hi i) := by
        rw [boundAt']
        split
        · rename_i hilt
          simpa using hkik hilt
        · exact hkhi
      -- seg keys differ from k because their heights are below t = H k
      have hsegne : ∀ p ∈ optContents (subs.getD i none), p.1 ≠ k := by
        intro p hp
        cases hcase : subs.getD i none with
        | none => rw [hcase] at hp; simp at hp
        | some m' =>
          rw [hcase] at hchild hp
          cases hchild with
          | some _ _ _ _ ht hm' hne' =>
            have := (canon_contents_facts m' (t - 1) _ _ hm').2.2 p (by simpa using hp)
            intro he
            rw [he, hk] at this
            omega
      have hsegSorted : KVSorted (optContents (subs.getD i none)) := by
        cases hcase : subs.getD i none with
        | none => simp [KVSorted]
        | some m' =>
          rw [hcase] at hchild
          cases hchild with
          | some _ _ _ _ ht hm' hne' =>
            simpa using (canon_contents_facts m' (t - 1) _ _ hm').1
      have hsplit := split_repr (childCanon_to_repr hchild) hsegne hlo_k hk_hi'
      obtain ⟨hLrep, hRrep⟩ := hsplit
      have h0t : subs.getD i none ≠ none → 0 < t := by
        intro hne
        cases hcase : subs.getD i none with
        | none => exact absurd hcase hne
        | some m' =>
          rw [hcase] at hchild
          cases hchild with
          | some _ _ _ _ ht _ _ => exact ht
      have hchildL : ChildCanon H t (boundAt lo keys i) (some k)
          (_split_on_key (subs.getD i none) k).1 := by
        cases hcl : (_split_on_key (subs.getD i none) k).1 with
        | none => exact ChildCanon.none _ _ _
        | some ml =>
          have h0 : 0 < t := by
            apply h0t
            intro hnone
            rw [hnone] at hcl
            rw [_split_on_key] at hcl
            simp at hcl
          have := repr_to_childCanon hLrep (fun _ => by omega)
          rw [Nat.sub_add_cancel (by omega), hcl] at this
          exact this
      have hchildR : ChildCanon H t (some k) (boundAt' keys hi i)
          (_split_on_key (subs.getD i none) k).2 := by
        cases hcr : (_split_on_key (subs.getD i none) k).2 with
        | none => exact ChildCanon.none _ _ _
        | some mr =>
          have h0 : 0 < t := by
            apply h0t
            intro hnone
            rw [hnone] at hcr
            rw [_split_on_key] at hcr
            simp at hcr
          have := repr_to_childCanon hRrep (fun _ => by omega)
          rw [Nat.sub_add_cancel (by omega), hcr] at this
          exact this
      have hpost_all : ∀ p ∈ postC subs (keys.zip vals) i, keyLt k p.1 := by
        intro p hp
        have hp' : p ∈ interleaveC (none :: subs.drop (i + 1))
            ((keys.drop i).zip (vals.drop i)) := by
          rw [zip_drop, ← postC_eq_interleave]
          exact hp
        have := (subsCanon_CF
          (subsCanon_drop hsub i hiLe none (ChildCanon.none _ _ _) haft hkhi)
          (vals.drop i) (by simp [List.length_drop]; omega)
          (fun k' hk' => hks k' (List.drop_subset _ _ hk'))).2.1 p hp'
        simpa using this.1
      rw [_put_here]
      simp only [MSTNode.keys_mk, MSTNode.vals_mk, MSTNode.subtrees_mk, gte_index_mk]
      rw [if_neg hguard]
      constructor
      · refine Canon.mk _ _ _ _ _ _ ?_ ?_ ?_
        · rw [tuple_insert_at_length _ _ _ (by omega),
            tuple_insert_at_length _ _ _ (by omega)]
          omega
        · intro k' hk'
          rcases mem_tuple_insert_at _ _ _ _ hk' with rfl | h'
          · exact hk
          · exact hks k' h'
        · exact subsCanon_insert hsub i hiLe _ _ hchildL hchildR hbef haft hlok hkhi
      · have hinsTarget : insertKV (nodeContents (MSTNode.mk keys vals subs)) k v =
            (preC subs (keys.zip vals) i ++
              (optContents (subs.getD i none)).filter (fun p => keyLt p.1 k)) ++
            (k, v) :: ((optContents (subs.getD i none)).filter (fun p => keyLt k p.1) ++
              postC subs (keys.zip vals) i) := by
          conv_lhs =>
            rw [nodeContents_mk, hdecomp,
              filter_partition_sorted k (optContents (subs.getD i none)) hsegSorted hsegne]
          rw [show preC subs (keys.zip vals) i ++
              ((optContents (subs.getD i none)).filter (fun p => keyLt p.1 k) ++
               (optContents (subs.getD i none)).filter (fun p => keyLt k p.1)) ++
              postC subs (keys.zip vals) i =
            (preC subs (keys.zip vals) i ++
              (optContents (subs.getD i none)).filter (fun p => keyLt p.1 k)) ++
            ((optContents (subs.getD i none)).filter (fun p => keyLt k p.1) ++
              postC subs (keys.zip vals) i) by simp]
          rw [insertKV_position k v _ _ (by
              intro a ha
              rcases List.mem_append.mp ha with h' | h'
              · exact hpre_all a h'
              · simpa using (List.of_mem_filter h'))
            (by
              intro b hb
              rcases List.mem_append.mp hb with h' | h'
              · simpa using (List.of_mem_filter h')
              · exact hpost_all b h')]
        rw [hinsTarget, nodeContents_mk]
        rw [zip_insert keys vals i k v hlen hiLe]
        rw [interleave_insert subs (keys.zip vals) i (k, v) _ _ (by omega) (by omega)]
        rw [hLrep.1, hRrep.1]
        simp

end PutHere

theorem insertKV_append_right (k : Key) (v : Val) :
    ∀ (M B : KVList), (∀ b ∈ B, keyLt k b.1) →
      insertKV (M ++ B) k v = insertKV M k v ++ B := by
  intro M
  induction M with
  | nil =>
    intro B hB
    cases B with
    | nil => rfl
    | cons b rest =>
      rw [List.nil_append]
      rw [show insertKV ([] : KVList) k v = [(k, v)] from rfl]
      rw [insertKV]
      rw [if_pos (by simpa using hB b (by simp))]
      simp
  | cons m0 M' ih =>
    intro B hB
    rw [List.cons_append, insertKV, insertKV]
    split
    · rfl
    · split
      · rfl
      · rw [ih B hB]
        simp

theorem insertKV_append_left (k : Key) (v : Val) :
    ∀ (A rest : KVList), (∀ a ∈ A, keyLt a.1 k) →
      insertKV (A ++ rest) k v = A ++ insertKV rest k v := by
  intro A
  induction A with
  | nil => intro rest _; simp
  | cons a A' ih =>
    intro rest hA
    have hak : keyLt a.1 k := by simpa using hA a (by simp)
    rw [List.cons_append, insertKV]
    rw [if_neg (by simp [keyLt_asymm hak]), if_neg (by
      intro hkk
      rw [hkk] at hak
      simp [keyLt_irrefl] at hak)]
    rw [ih rest (fun x hx => hA x (by simp [hx]))]
    simp [Prod.mk.eta]

theorem insertKV_ne_nil (L : KVList) (k : Key) (v : Val) : insertKV L k v ≠ [] := by
  cases L with
  | nil => simp [insertKV]
  | cons p rest =>
    rw [insertKV]
    split
    · simp
    · split <;> simp

theorem mem_insertKV_of_ne {L : KVList} {p : Key × Val} (hp : p ∈ L) (k : Key) (v : Val)
    (hne : p.1 ≠ k) : p ∈ insertKV L k v := by
  induction L with
  | nil => simp at hp
  | cons q rest ih =>
    rw [insertKV]
    split
    · simp [hp]
    · split
      · rename_i hkq
        rcases List.mem_cons.mp hp with rfl | hp'
        · exact absurd hkq.symm hne
        · simp [hp']
      · rcases List.mem_cons.mp hp with rfl | hp'
        · simp
        · simp [ih hp']

section PutRec

variable {H : Key → Nat}

theorem canon_empty_root (t : Nat) (lo hi : Option Key) (h : OptLt lo hi) :
    Canon H t lo hi MSTNode.empty_root :=
  Canon.mk _ _ _ _ _ _ (by simp) (by simp)
    (SubsCanon.last _ _ _ _ h (ChildCanon.none _ _ _))

@[simp] theorem nodeContents_empty_root : nodeContents MSTNode.empty_root = [] := by
  rw [MSTNode.empty_root, nodeContents_mk]
  simp

theorem boundAt_lt_boundAt' {t : Nat} {lo hi : Option Key} {keys : List Key}
    {subs : List (Option MSTNode)} (h : SubsCanon H t lo hi keys subs)
    (i : Nat) (hiLe : i ≤ keys.length) :
    OptLt (boundAt lo keys i) (boundAt' keys hi i) := by
  have hf := subsCanon_keys_facts h
  rw [boundAt, boundAt']
  by_cases h0 : i = 0
  · subst h0
    rw [if_pos rfl]
    split
    · rename_i hlt
      exact (hf.2 _ (getD_mem_of_lt _ _ _ hlt)).1
    · exact subsCanon_lo_lt_hi h
  · rw [if_neg h0]
    split
    · rename_i hlt
      simpa using pairwise_getD_lt keys hf.1 (i - 1) i (by omega) hlt
    · exact (hf.2 _ (getD_mem_of_lt _ _ _ (by omega))).2

theorem canon_keys_ne_of_top_mem {t : Nat} {lo hi : Option Key} {n : MSTNode}
    (hc : Canon H t lo hi n) (hmem : ∃ p ∈ nodeContents n, H p.1 = t) :
    n.keys ≠ [] := by
  cases hc with
  | mk _ _ _ keys vals subs hlen hks hsub =>
    obtain ⟨p, hp, hpt⟩ := hmem
    have hf := canon_contents_filter keys vals subs t lo hi
      (Canon.mk _ _ _ _ _ _ hlen hks hsub)
    have hpf : p ∈ (nodeContents (MSTNode.mk keys vals subs)).filter
        (fun q => H q.1 == t) := by
      rw [List.mem_filter]
      exact ⟨hp, by simpa using hpt⟩
    rw [hf] at hpf
    intro hk0
    subst hk0
    simp at hpf

theorem put_recursive_canon :
    ∀ (t : Nat) {lo hi : Option Key} {m : MSTNode}, Canon H t lo hi m →
      ∀ (k : Key) (v : Val), H k ≤ t → OptLt lo (some k) → OptLt (some k) hi →
      Canon H t lo hi (_put_recursive m k v (H k) t) ∧
      nodeContents (_put_recursive m k v (H k) t) = insertKV (nodeContents m) k v := by
  intro t
  induction t with
  | zero =>
    intro lo hi m hC k v hkt hlok hkhi
    rw [_put_recursive]
    rw [if_neg (by omega), if_neg (by omega)]
    exact put_here_canon hC k v (by omega) hlok hkhi
  | succ t' ih =>
    intro lo hi m hC k v hkt hlok hkhi
    rw [_put_recursive]
    rw [if_neg (by omega)]
    by_cases hlt : H k < t' + 1
    · rw [if_pos hlt]
      cases hC with
      | mk _ _ _ keys vals subs hlen hks hsub =>
        simp only [gte_index_mk, MSTNode.keys_mk, MSTNode.vals_mk, MSTNode.subtrees_mk,
          Nat.add_sub_cancel]
        have hiLe : gteIndexAux keys k ≤ keys.length := gteIndexAux_le_length keys k
        set i := gteIndexAux keys k with hidef
        have hslen : subs.length = keys.length + 1 := subsCanon_length hsub
        have hkvlen : (keys.zip vals).length = keys.length := by
          rw [List.length_zip]; omega
        have hbef : ∀ j < i, keyLt (keys.getD j []) k :=
          fun j hj => gteIndexAux_lt_before keys k j hj
        have hkeyfacts := subsCanon_keys_facts hsub
        have hchild : ChildCanon H (t' + 1) (boundAt lo keys i) (boundAt' keys hi i)
            (subs.getD i none) := subsCanon_getD hsub i hiLe
        have hkik : i < keys.length → keyLt k (keys.getD i []) := by
          intro hilt
          have hne : keys.getD i [] ≠ k := by
            intro he
            have := hks _ (getD_mem_of_lt keys i [] hilt)
            rw [he] at this
            omega
          exact keyLt_of_ne_of_not_lt hne (gteIndexAux_not_lt_at keys k hilt)
        have hlo_k : OptLt (boundAt lo keys i) (some k) := by
          rw [boundAt]
          split
          · exact hlok
          · simpa using hbef (i - 1) (by omega)
        have hk_hi' : OptLt (some k) (boundAt' keys hi i) := by
          rw [boundAt']
          split
          · rename_i hilt
            simpa using hkik hilt
          · exact hkhi
        -- the child node that the recursion descends into
        have hchildnode : Canon H t' (boundAt lo keys i) (boundAt' keys hi i)
            (get_node (subs.getD i none)) ∧
            nodeContents (get_node (subs.getD i none)) =
              optContents (subs.getD i none) := by
          cases hcase : subs.getD i none with
          | none =>
            rw [get_node]
            exact ⟨canon_empty_root t' _ _ (boundAt_lt_boundAt' hsub i hiLe), by simp⟩
          | some m' =>
            rw [hcase] at hchild
            cases hchild with
            | some _ _ _ _ ht hm' hne' =>
              rw [get_node]
              exact ⟨by simpa using hm', by simp⟩
        have hrec := ih hchildnode.1 k v (by omega) hlo_k hk_hi'
        rw [hchildnode.2] at hrec
        have hchildnew : ChildCanon H (t' + 1) (boundAt lo keys i) (boundAt' keys hi i)
            (some (_put_recursive (get_node (subs.getD i none)) k v (H k) t')) :=
          ChildCanon.some _ _ _ _ (by omega) (by simpa using hrec.1)
            (by rw [hrec.2]; exact insertKV_ne_nil _ _ _)
        have hdecomp : interleaveC subs (keys.zip vals) =
            preC subs (keys.zip vals) i ++ optContents (subs.getD i none) ++
              postC subs (keys.zip vals) i :=
          interleave_decomp subs (keys.zip vals) i (by omega) (by omega)
        have hpre_all : ∀ p ∈ preC subs (keys.zip vals) i, keyLt p.1 k := by
          intro p hp
          rw [preC] at hp
          have hp' : p ∈ interleaveC (subs.take i ++ [none])
              ((keys.take i).zip (vals.take i)) := by
            rw [zip_take]
            exact hp
          have := (subsCanon_CF
            (subsCanon_take hsub i hiLe none (ChildCanon.none _ _ _) hbef hlok)
            (vals.take i) (by simp [List.length_take]; omega)
            (fun k' hk' => hks k' (List.take_subset _ _ hk'))).2.1 p hp'
          simpa using this.2
        have haft : ∀ j, i ≤ j → j < keys.length → keyLt k (keys.getD j []) := by
          intro j hij hj
          rcases Nat.eq_or_lt_of_le hij with rfl | hlt'
          · exact hkik hj
          · exact keyLt_trans (hkik (by omega))
              (pairwise_getD_lt keys hkeyfacts.1 i j hlt' hj)
        have hpost_all : ∀ p ∈ postC subs (keys.zip vals) i, keyLt k p.1 := by
          intro p hp
          have hp' : p ∈ interleaveC (none :: subs.drop (i + 1))
              ((keys.drop i).zip (vals.drop i)) := by
            rw [zip_drop, ← postC_eq_interleave]
            exact hp
          have := (subsCanon_CF
            (subsCanon_drop hsub i hiLe none (ChildCanon.none _ _ _) haft hkhi)
            (vals.drop i) (by simp [List.length_drop]; omega)
            (fun k' hk' => hks k' (List.drop_subset _ _ hk'))).2.1 p hp'
          simpa using this.1
        constructor
        · exact Canon.mk _ _ _ _ _ _ hlen hks
            (subsCanon_replace hsub i hiLe _ hchildnew)
        · rw [nodeContents_mk]
          rw [interleave_replace subs (keys.zip vals) i _ (by omega) (by omega)]
          rw [nodeContents_mk, hdecomp]
          rw [insertKV_append_right k v _ _ (fun b hb => hpost_all b hb)]
          rw [insertKV_append_left k v _ _ (fun a ha => hpre_all a ha)]
          rw [optContents_some, hrec.2]
          try simp
    · rw [if_neg hlt]
      have hkeq : H k = t' + 1 := by omega
      exact put_here_canon hC k v hkeq hlok hkhi

end PutRec
section PutRecord

variable {H : Key → Nat}

theorem mem_insertKV_self (L : KVList) (k : Key) (v : Val) : (k, v) ∈ insertKV L k v := by
  induction L with
  | nil => simp [insertKV]
  | cons q rest ih =>
    rw [insertKV]
    split
    · simp
    · split
      · simp
      · exact List.mem_cons_of_mem _ ih

theorem canon_height {t : Nat} {lo hi : Option Key} {m : MSTNode}
    (hc : Canon H t lo hi m) (hk : m.keys ≠ []) : m.height H = t := by
  cases hc with
  | mk _ _ _ keys vals subs hlen hks hsub =>
    cases keys with
    | nil => simp at hk
    | cons k0 krest =>
      have : (MSTNode.mk (k0 :: krest) vals subs).height H = H k0 := rfl
      rw [this]
      exact hks k0 (by simp)

theorem canon_top_pair {t : Nat} {lo hi : Option Key} {m : MSTNode}
    (hc : Canon H t lo hi m) (hk : m.keys ≠ []) :
    ∃ p ∈ nodeContents m, H p.1 = t := by
  cases hc with
  | mk _ _ _ keys vals subs hlen hks hsub =>
    have hf := canon_contents_filter keys vals subs t lo hi
      (Canon.mk _ _ _ _ _ _ hlen hks hsub)
    cases keys with
    | nil => simp at hk
    | cons k0 krest =>
      cases vals with
      | nil => simp at hlen
      | cons v0 vrest =>
        have hmem : (k0, v0) ∈ (nodeContents
            (MSTNode.mk (k0 :: krest) (v0 :: vrest) subs)).filter
            (fun p => H p.1 == t) := by
          rw [hf]; simp
        rw [List.mem_filter] at hmem
        exact ⟨(k0, v0), hmem.1, by simpa using hmem.2⟩

theorem canon_contents_ne_nil {t : Nat} {lo hi : Option Key} {m : MSTNode}
    (hc : Canon H t lo hi m) (hk : m.keys ≠ []) : nodeContents m ≠ [] := by
  rcases canon_top_pair hc hk with ⟨p, hpmem, -⟩
  intro hnil
  rw [hnil] at hpmem
  simp at hpmem

theorem canon_is_empty_false {t : Nat} {lo hi : Option Key} {m : MSTNode}
    (hc : Canon H t lo hi m) (hk : m.keys ≠ []) : m.is_empty = false := by
  cases hc with
  | mk _ _ _ keys vals subs hlen hks hsub =>
    have hslen : subs.length = keys.length + 1 := subsCanon_length hsub
    cases keys with
    | nil => simp at hk
    | cons k0 krest =>
      cases subs with
      | nil => simp at hslen
      | cons c rest =>
        cases rest with
        | nil => simp at hslen
        | cons c2 r2 => cases c <;> rfl

theorem canon_grow {t : Nat} {m : MSTNode}
    (hc : Canon H t none none m) (hne : nodeContents m ≠ []) :
    Canon H (t + 1) none none (MSTNode.mk [] [] [some m]) ∧
    nodeContents (MSTNode.mk [] [] [some m]) = nodeContents m := by
  constructor
  · exact Canon.mk _ _ _ _ _ _ (by simp) (by simp)
      (SubsCanon.last _ _ _ _ trivial
        (ChildCanon.some _ _ _ _ (by omega) (by simpa using hc) hne))
  · simp

theorem put_recursive_grow_canon :
    ∀ (d t : Nat) {m : MSTNode}, Canon H t none none m → nodeContents m ≠ [] →
      ∀ (k : Key) (v : Val), H k = t + d →
      Canon H (H k) none none (_put_recursive m k v (H k) t) ∧
      nodeContents (_put_recursive m k v (H k) t) = insertKV (nodeContents m) k v := by
  intro d
  induction d with
  | zero =>
    intro t m hc hne k v hk
    have h := put_recursive_canon t hc k v (by omega) trivial trivial
    rw [hk]
    rwa [hk] at h
  | succ d' ih =>
    intro t m hc hne k v hk
    rw [_put_recursive, if_pos (by omega)]
    obtain ⟨hgc, hgeq⟩ := canon_grow hc hne
    have h := ih (t + 1) hgc (by rw [hgeq]; exact hne) k v (by omega)
    rwa [hgeq] at h

/-- `put_record` on a canonical root yields a canonical root whose logical
contents are the sorted insertion of the new pair. -/
theorem put_record_canon {root : MSTNode} (hr : rootCanon H root) (k : Key) (v : Val) :
    rootCanon H (put_record H root k v) ∧
    nodeContents (put_record H root k v) = insertKV (nodeContents root) k v := by
  rcases hr with rfl | ⟨t, hc, hk⟩
  · rw [put_record, if_pos (show MSTNode.empty_root.is_empty = true from rfl)]
    have h := put_here_canon (canon_empty_root (H k) none none trivial) k v rfl
      trivial trivial
    refine ⟨Or.inr ⟨H k, h.1, ?_⟩, h.2⟩
    exact canon_keys_ne_of_top_mem h.1
      ⟨(k, v), by rw [h.2]; exact mem_insertKV_self _ _ _, rfl⟩
  · have hie : root.is_empty = false := canon_is_empty_false hc hk
    have hne : nodeContents root ≠ [] := canon_contents_ne_nil hc hk
    have hh : root.height H = t := canon_height hc hk
    rw [put_record, if_neg (by simp [hie]), hh]
    by_cases hle : H k ≤ t
    · have h := put_recursive_canon t hc k v hle trivial trivial
      refine ⟨Or.inr ⟨t, h.1, ?_⟩, h.2⟩
      rcases canon_top_pair hc hk with ⟨p, hpmem, hpt⟩
      apply canon_keys_ne_of_top_mem h.1
      by_cases hpk : p.1 = k
      · exact ⟨(k, v), by rw [h.2]; exact mem_insertKV_self _ _ _, hpk ▸ hpt⟩
      · exact ⟨p, by rw [h.2]; exact mem_insertKV_of_ne hpmem k v hpk, hpt⟩
    · have h := put_recursive_grow_canon (H k - t) t hc hne k v (by omega)
      refine ⟨Or.inr ⟨H k, h.1, ?_⟩, h.2⟩
      exact canon_keys_ne_of_top_mem h.1
        ⟨(k, v), by rw [h.2]; exact mem_insertKV_self _ _ _, rfl⟩

end PutRecord
/-! ## Order independence of insertion (spec §8.2, claim C1 machinery) -/

section OrderIndep

variable {H : Key → Nat}

theorem mem_insertKV {L : KVList} {k : Key} {v : Val} {p : Key × Val}
    (hp : p ∈ insertKV L k v) : p = (k, v) ∨ p ∈ L := by
  induction L with
  | nil =>
    rw [insertKV] at hp
    simp at hp
    exact Or.inl hp
  | cons q rest ih =>
    rw [insertKV] at hp
    split at hp
    · rcases List.mem_cons.mp hp with h | h
      · exact Or.inl h
      · exact Or.inr h
    · split at hp
      · rcases List.mem_cons.mp hp with h | h
        · exact Or.inl h
        · exact Or.inr (List.mem_cons_of_mem _ h)
      · rcases List.mem_cons.mp hp with h | h
        · exact Or.inr (by rw [h]; exact List.mem_cons_self _ _)
        · rcases ih h with h' | h'
          · exact Or.inl h'
          · exact Or.inr (List.mem_cons_of_mem _ h')

theorem insertKV_sorted : ∀ {L : KVList}, KVSorted L → ∀ (k : Key) (v : Val),
    KVSorted (insertKV L k v) := by
  intro L
  induction L with
  | nil =>
    intro _ k v
    rw [insertKV, KVSorted]
    exact List.pairwise_singleton _ _
  | cons q rest ih =>
    intro hs k v
    have hs' := hs
    rw [KVSorted, List.pairwise_cons] at hs'
    rw [insertKV]
    split
    · rename_i hlt
      rw [KVSorted, List.pairwise_cons]
      refine ⟨?_, hs⟩
      intro p hp
      rcases List.mem_cons.mp hp with rfl | hp'
      · exact hlt
      · exact keyLt_trans hlt (hs'.1 p hp')
    · split
      · rename_i hne heq
        rw [KVSorted, List.pairwise_cons]
        refine ⟨?_, hs'.2⟩
        intro p hp
        rw [heq]
        exact hs'.1 p hp
      · rename_i hnlt hne
        rw [KVSorted, List.pairwise_cons]
        refine ⟨?_, ih (by rw [KVSorted]; exact hs'.2) k v⟩
        intro p hp
        rcases mem_insertKV hp with rfl | hp'
        · exact keyLt_of_ne_of_not_lt hne (by simpa using hnlt)
        · exact hs'.1 p hp'

theorem mem_insertKV_iff : ∀ {L : KVList}, KVSorted L → ∀ (k : Key) (v : Val)
    (p : Key × Val), p ∈ insertKV L k v ↔ p = (k, v) ∨ (p ∈ L ∧ p.1 ≠ k) := by
  intro L
  induction L with
  | nil =>
    intro _ k v p
    rw [insertKV]
    simp
  | cons q rest ih =>
    intro hs k v p
    have hs' := hs
    rw [KVSorted, List.pairwise_cons] at hs'
    rw [insertKV]
    split
    · rename_i hlt
      constructor
      · intro hp
        rcases List.mem_cons.mp hp with rfl | hp'
        · exact Or.inl rfl
        · refine Or.inr ⟨hp', ?_⟩
          have hkp : keyLt k p.1 := by
            rcases List.mem_cons.mp hp' with rfl | hp''
            · exact hlt
            · exact keyLt_trans hlt (hs'.1 p hp'')
          intro hpk
          rw [hpk] at hkp
          simp [keyLt_irrefl] at hkp
      · intro hp
        rcases hp with rfl | ⟨hp', _⟩
        · exact List.mem_cons_self _ _
        · exact List.mem_cons_of_mem _ hp'
    · split
      · rename_i hnlt heq
        constructor
        · intro hp
          rcases List.mem_cons.mp hp with rfl | hp'
          · exact Or.inl rfl
          · refine Or.inr ⟨List.mem_cons_of_mem _ hp', ?_⟩
            have hkp : keyLt k p.1 := by
              rw [heq]
              exact hs'.1 p hp'
            intro hpk
            rw [hpk] at hkp
            simp [keyLt_irrefl] at hkp
        · rintro (rfl | ⟨hp', hpk⟩)
          · exact List.mem_cons_self _ _
          · rcases List.mem_cons.mp hp' with rfl | hp''
            · exact absurd (heq ▸ rfl) hpk
            · exact List.mem_cons_of_mem _ hp''
      · rename_i hnlt hne
        have hqk : keyLt q.1 k := keyLt_of_ne_of_not_lt hne (by simpa using hnlt)
        have hq1k : q.1 ≠ k := by
          intro h
          rw [h] at hqk
          simp [keyLt_irrefl] at hqk
        rw [List.mem_cons, ih (by rw [KVSorted]; exact hs'.2) k v p]
        constructor
        · rintro (rfl | rfl | ⟨hpr, hpk⟩)
          · exact Or.inr ⟨List.mem_cons_self _ _, hq1k⟩
          · exact Or.inl rfl
          · exact Or.inr ⟨List.mem_cons_of_mem _ hpr, hpk⟩
        · rintro (rfl | ⟨hpq, hpk⟩)
          · exact Or.inr (Or.inl rfl)
          · rcases List.mem_cons.mp hpq with rfl | hpr
            · exact Or.inl rfl
            · exact Or.inr (Or.inr ⟨hpr, hpk⟩)

theorem kvsorted_ext : ∀ (A B : KVList), KVSorted A → KVSorted B →
    (∀ p, p ∈ A ↔ p ∈ B) → A = B := by
  intro A
  induction A with
  | nil =>
    intro B _ _ hmem
    cases B with
    | nil => rfl
    | cons b B' => exact absurd ((hmem b).mpr (List.mem_cons_self _ _)) (by simp)
  | cons a A' ih =>
    intro B hsa hsb hmem
    cases B with
    | nil => exact absurd ((hmem a).mp (List.mem_cons_self _ _)) (by simp)
    | cons b B' =>
      have hsa' := hsa
      rw [KVSorted, List.pairwise_cons] at hsa'
      have hsb' := hsb
      rw [KVSorted, List.pairwise_cons] at hsb'
      have hab : a = b := by
        rcases List.mem_cons.mp ((hmem a).mp (List.mem_cons_self _ _)) with h | h
        · exact h
        · rcases List.mem_cons.mp ((hmem b).mpr (List.mem_cons_self _ _)) with h' | h'
          · exact h'.symm
          · have h1 : keyLt b.1 a.1 := hsb'.1 a h
            have h2 : keyLt a.1 b.1 := hsa'.1 b h'
            have h3 := keyLt_asymm h2
            rw [h1] at h3
            simp at h3
      subst hab
      have htail : ∀ p, p ∈ A' ↔ p ∈ B' := by
        intro p
        constructor
        · intro hp
          rcases List.mem_cons.mp ((hmem p).mp (List.mem_cons_of_mem _ hp)) with rfl | h
          · simpa [keyLt_irrefl] using hsa'.1 _ hp
          · exact h
        · intro hp
          rcases List.mem_cons.mp ((hmem p).mpr (List.mem_cons_of_mem _ hp)) with rfl | h
          · simpa [keyLt_irrefl] using hsb'.1 _ hp
          · exact h
      rw [ih B' (by rw [KVSorted]; exact hsa'.2) (by rw [KVSorted]; exact hsb'.2) htail]

/-- Build an MST by `put_record`-inserting each pair in order, starting from
the canonical empty root (spec §8.2's construction). -/
def buildMST (H : Key → Nat) (l : KVList) : MSTNode :=
  l.foldl (fun n p => put_record H n p.1 p.2) MSTNode.empty_root

/-- The same fold at the level of sorted kv lists. -/
def buildKV (l : KVList) : KVList :=
  l.foldl (fun acc p => insertKV acc p.1 p.2) []

theorem foldl_put_canon : ∀ (l : KVList) (root : MSTNode), rootCanon H root →
    rootCanon H (l.foldl (fun n p => put_record H n p.1 p.2) root) ∧
    nodeContents (l.foldl (fun n p => put_record H n p.1 p.2) root) =
      l.foldl (fun acc p => insertKV acc p.1 p.2) (nodeContents root) := by
  intro l
  induction l with
  | nil =>
    intro root hr
    exact ⟨hr, rfl⟩
  | cons q rest ih =>
    intro root hr
    rw [List.foldl_cons, List.foldl_cons]
    obtain ⟨h1, h2⟩ := put_record_canon hr q.1 q.2
    obtain ⟨h3, h4⟩ := ih (put_record H root q.1 q.2) h1
    exact ⟨h3, by rw [h4, h2]⟩

theorem buildMST_canon (l : KVList) :
    rootCanon H (buildMST H l) ∧ nodeContents (buildMST H l) = buildKV l := by
  have h := foldl_put_canon (H := H) l MSTNode.empty_root (Or.inl rfl)
  rw [buildMST, buildKV]
  exact ⟨h.1, by rw [h.2, nodeContents_empty_root]⟩

theorem foldl_insertKV_sorted : ∀ (l acc : KVList), KVSorted acc →
    KVSorted (l.foldl (fun acc q => insertKV acc q.1 q.2) acc) := by
  intro l
  induction l with
  | nil =>
    intro acc h
    simpa using h
  | cons q rest ih =>
    intro acc h
    rw [List.foldl_cons]
    exact ih _ (insertKV_sorted h q.1 q.2)

theorem mem_foldl_insertKV :
    ∀ (l acc : KVList), KVSorted acc → (l.map Prod.fst).Nodup →
      (∀ q ∈ l, ∀ r ∈ acc, q.1 ≠ r.1) →
      ∀ p, p ∈ l.foldl (fun acc q => insertKV acc q.1 q.2) acc ↔ p ∈ acc ∨ p ∈ l := by
  intro l
  induction l with
  | nil =>
    intro acc _ _ _ p
    simp
  | cons q rest ih =>
    intro acc hs hnd hdisj p
    rw [List.foldl_cons]
    rw [List.map_cons] at hnd
    have hqrest : ∀ q' ∈ rest, q'.1 ≠ q.1 := by
      intro q' hq' h
      exact (List.nodup_cons.mp hnd).1 (h ▸ List.mem_map_of_mem Prod.fst hq')
    have hdisj' : ∀ q' ∈ rest, ∀ r ∈ insertKV acc q.1 q.2, q'.1 ≠ r.1 := by
      intro q' hq' r hr
      rcases mem_insertKV hr with rfl | hr'
      · exact hqrest q' hq'
      · exact hdisj q' (List.mem_cons_of_mem _ hq') r hr'
    rw [ih (insertKV acc q.1 q.2) (insertKV_sorted hs q.1 q.2)
      (List.nodup_cons.mp hnd).2 hdisj' p]
    rw [mem_insertKV_iff hs q.1 q.2 p]
    constructor
    · rintro ((rfl | ⟨hpacc, -⟩) | hprest)
      · exact Or.inr (List.mem_cons.mpr (Or.inl rfl))
      · exact Or.inl hpacc
      · exact Or.inr (List.mem_cons_of_mem _ hprest)
    · rintro (hpacc | hpq)
      · exact Or.inl (Or.inr ⟨hpacc, Ne.symm (hdisj q (List.mem_cons_self _ _) p hpacc)⟩)
      · rcases List.mem_cons.mp hpq with rfl | hprest
        · exact Or.inl (Or.inl rfl)
        · exact Or.inr hprest

/-- Order independence of insertion, generic in the height function: folding
`put_record` over any two permutations of a duplicate-free record set from the
canonical empty root yields the same node (= CID). -/
theorem put_record_order_independent (l₁ l₂ : KVList) (hperm : l₁.Perm l₂)
    (hnd : (l₁.map Prod.fst).Nodup) : buildMST H l₁ = buildMST H l₂ := by
  have hnd₂ : (l₂.map Prod.fst).Nodup := ((hperm.map Prod.fst).nodup_iff).mp hnd
  have hnd₁' : l₁.Nodup := hnd.of_map
  obtain ⟨hc₁, he₁⟩ := buildMST_canon (H := H) l₁
  obtain ⟨hc₂, he₂⟩ := buildMST_canon (H := H) l₂
  apply rootCanon_unique hc₁ hc₂
  rw [he₁, he₂]
  have hnil : KVSorted ([] : KVList) := by
    rw [KVSorted]
    exact List.Pairwise.nil
  apply kvsorted_ext
  · rw [buildKV]
    exact foldl_insertKV_sorted l₁ [] hnil
  · rw [buildKV]
    exact foldl_insertKV_sorted l₂ [] hnil
  · intro p
    rw [buildKV, mem_foldl_insertKV l₁ [] hnil hnd (by simp) p]
    rw [buildKV, mem_foldl_insertKV l₂ [] hnil hnd₂ (by simp) p]
    simp only [List.not_mem_nil, false_or]
    exact hperm.mem_iff

end OrderIndep

/-! ## SHA-256 and the key height (`src/mst.py` lines 63-67)

A direct executable implementation of FIPS 180-4 SHA-256 over byte lists,
used only to instantiate the generic height parameter `H` at the source's
`MSTNode.key_height`. -/

def rotr32 (x n : Nat) : Nat := ((x >>> n) ||| (x <<< (32 - n))) % 2 ^ 32

def sha256_k : List Nat :=
  [1116352408, 1899447441, 3049323471, 3921009573, 961987163, 1508970993,
   2453635748, 2870763221, 3624381080, 310598401, 607225278, 1426881987,
   1925078388, 2162078206, 2614888103, 3248222580, 3835390401, 4022224774,
   264347078, 604807628, 770255983, 1249150122, 1555081692, 1996064986,
   2554220882, 2821834349, 2952996808, 3210313671, 3336571891, 3584528711,
   113926993, 338241895, 666307205, 773529912, 1294757372, 1396182291,
   1695183700, 1986661051, 2177026350, 2456956037, 2730485921, 2820302411,
   3259730800, 3345764771, 3516065817, 3600352804, 4094571909, 275423344,
   430227734, 506948616, 659060556, 883997877, 958139571, 1322822218,
   1537002063, 1747873779, 1955562222, 2024104815, 2227730452, 2361852424,
   2428436474, 2756734187, 3204031479, 3329325298]

def sha256_initState : List Nat :=
  [1779033703, 3144134277, 1013904242, 2773480762,
   1359893119, 2600822924, 528734635, 1541459225]

def bytesToWordsBE : List Nat → List Nat
  | b0 :: b1 :: b2 :: b3 :: rest =>
    (b0 * 2 ^ 24 + b1 * 2 ^ 16 + b2 * 2 ^ 8 + b3) :: bytesToWordsBE rest
  | _ => []

def sha256_pad (msg : List Nat) : List Nat :=
  let bits := msg.length * 8
  let pz := (119 - msg.length % 64) % 64
  msg ++ [0x80] ++ List.replicate pz 0 ++
    [(bits >>> 56) % 256, (bits >>> 48) % 256, (bits >>> 40) % 256,
     (bits >>> 32) % 256, (bits >>> 24) % 256, (bits >>> 16) % 256,
     (bits >>> 8) % 256, bits % 256]

def sha256_s0 (x : Nat) : Nat := rotr32 x 7 ^^^ rotr32 x 18 ^^^ (x >>> 3)

def sha256_s1 (x : Nat) : Nat := rotr32 x 17 ^^^ rotr32 x 19 ^^^ (x >>> 10)

def sha256_S0 (a : Nat) : Nat := rotr32 a 2 ^^^ rotr32 a 13 ^^^ rotr32 a 22

def sha256_S1 (e : Nat) : Nat := rotr32 e 6 ^^^ rotr32 e 11 ^^^ rotr32 e 25

def sha256_ch (e f g : Nat) : Nat := (e &&& f) ^^^ ((e ^^^ 0xffffffff) &&& g)

def sha256_maj (a b c : Nat) : Nat := (a &&& b) ^^^ (a &&& c) ^^^ (b &&& c)

def sha256_extendAux : Nat → List Nat → List Nat
  | 0, w => w
  | n + 1, w =>
    let i := w.length
    sha256_extendAux n (w ++
      [(w.getD (i - 16) 0 + sha256_s0 (w.getD (i - 15) 0) + w.getD (i - 7) 0 +
        sha256_s1 (w.getD (i - 2) 0)) % 2 ^ 32])

def sha256_round (st : List Nat) (kw : Nat) : List Nat :=
  match st with
  | [a, b, c, d, e, f, g, h] =>
    let t1 := (h + sha256_S1 e + sha256_ch e f g + kw) % 2 ^ 32
    let t2 := (sha256_S0 a + sha256_maj a b c) % 2 ^ 32
    [(t1 + t2) % 2 ^ 32, a, b, c, (d + t1) % 2 ^ 32, e, f, g]
  | _ => st

def sha256_compress (h : List Nat) (chunk : List Nat) : List Nat :=
  let w := sha256_extendAux 48 (bytesToWordsBE chunk)
  let kw := (sha256_k.zip w).map (fun p => (p.1 + p.2) % 2 ^ 32)
  let st := kw.foldl sha256_round h
  (h.zip st).map (fun p => (p.1 + p.2) % 2 ^ 32)

def sha256_blocksAux : Nat → List Nat → List Nat → List Nat
  | 0, h, _ => h
  | n + 1, h, msg => sha256_blocksAux n (sha256_compress h (msg.take 64)) (msg.drop 64)

def wordsToBytesBE (ws : List Nat) : List Nat :=
  ws.foldr (fun w acc =>
    (w >>> 24) % 256 :: (w >>> 16) % 256 :: (w >>> 8) % 256 :: w % 256 :: acc) []

def sha256 (msg : List Nat) : List Nat :=
  let padded := sha256_pad msg
  wordsToBytesBE (sha256_blocksAux (padded.length / 64) sha256_initState padded)

def bytesToNatBE (l : List Nat) : Nat := l.foldl (fun acc b => acc * 256 + b) 0

/-- `MSTNode.key_height` (`src/mst.py` lines 63-67): the number of leading
zero bits of `sha256(key)` (= 256 minus the digest's bit length), halved
rounding down. -/
def key_height (key : Key) : Nat :=
  (256 - Nat.size (bytesToNatBE (sha256 key))) / 2


/-- C1: Order independence of insertion (canonical shape): for a record set
with distinct keys, starting from the canonical empty root and applying
`put_record` once per (key, value) pair, any two insertion orders (any two
permutations of the list) yield the same final root node, hence the same
root CID. -/
theorem claim_C1_order_independence (l1 l2 : KVList) (hperm : l1.Perm l2)
    (hnd : (l1.map Prod.fst).Nodup) :
    buildMST key_height l1 = buildMST key_height l2 :=
  put_record_order_independent l1 l2 hperm hnd

theorem claim_C1_order_independence_witness :
    ([([0], [10]), ([1], [11]), ([2], [12])] : KVList).Perm
      [([2], [12]), ([0], [10]), ([1], [11])] ∧
    (([([0], [10]), ([1], [11]), ([2], [12])] : KVList).map Prod.fst).Nodup ∧
    buildMST key_height [([0], [10]), ([1], [11]), ([2], [12])] =
      buildMST key_height [([2], [12]), ([0], [10]), ([1], [11])] :=
  ⟨by decide, by decide,
   claim_C1_order_independence _ _ (by decide) (by decide)⟩
/-! ## Deletion machinery: bound widening and `_merge` (spec §4.3 delete) -/

section MergeCanon

variable {H : Key → Nat}

/-- Canonicity is monotone in the outer bounds: any bounds that admit at
least everything the old bounds admitted work as well. -/
theorem canon_widen : ∀ (m : MSTNode), ∀ {t : Nat} {lo hi lo' hi' : Option Key},
    Canon H t lo hi m →
    (∀ k, OptLt lo (some k) → OptLt lo' (some k)) →
    (∀ k, OptLt (some k) hi → OptLt (some k) hi') →
    OptLt lo' hi' → Canon H t lo' hi' m := by
  intro m
  induction m using MSTNode.strongInd with
  | step m ihm =>
    intro t lo hi lo' hi' hc hw1 hw2 hlh
    cases hc with
    | mk _ _ _ keys vals subs hlen hks hsub =>
      refine Canon.mk _ _ _ _ _ _ hlen hks ?_
      have aux : ∀ (ks : List Key) (ss : List (Option MSTNode))
          (lo hi lo' hi' : Option Key),
          SubsCanon H t lo hi ks ss →
          (∀ n, some n ∈ ss → sizeOf n < sizeOf (MSTNode.mk keys vals subs)) →
          (∀ k, OptLt lo (some k) → OptLt lo' (some k)) →
          (∀ k, OptLt (some k) hi → OptLt (some k) hi') →
          OptLt lo' hi' → SubsCanon H t lo' hi' ks ss := by
        intro ks
        induction ks with
        | nil =>
          intro ss lo hi lo' hi' hs hsz hw1 hw2 hlh
          cases hs with
          | last _ _ _ c hlohi hcc =>
            refine SubsCanon.last _ _ _ _ hlh ?_
            cases hcc with
            | none => exact ChildCanon.none _ _ _
            | some _ _ _ n hpos hcn hne =>
              exact ChildCanon.some _ _ _ _ hpos
                (ihm n (hsz n (by simp)) hcn hw1 hw2 hlh) hne
        | cons k ktl ih =>
          intro ss lo hi lo' hi' hs hsz hw1 hw2 hlh
          cases hs with
          | cons _ _ _ _ _ c rest hlo hcc hrest =>
            have hlo' : OptLt lo' (some k) := hw1 k hlo
            refine SubsCanon.cons _ _ _ _ _ _ _ hlo' ?_
              (ih rest (some k) hi (some k) hi' hrest
                (fun n hn => hsz n (by simp [hn])) (fun _ h => h) hw2
                (hw2 k (subsCanon_lo_lt_hi hrest)))
            cases hcc with
            | none => exact ChildCanon.none _ _ _
            | some _ _ _ n hpos hcn hne =>
              exact ChildCanon.some _ _ _ _ hpos
                (ihm n (hsz n (by simp)) hcn hw1 (fun _ h => h) hlo') hne
      exact aux keys subs lo hi lo' hi' hsub
        (fun n hn => sizeOf_some_mem_subs hn keys vals) hw1 hw2 hlh

theorem boundAt_cons (lo : Option Key) (k : Key) (ktl : List Key) (j : Nat) :
    boundAt lo (k :: ktl) (j + 1) = boundAt (some k) ktl j := by
  cases j with
  | zero => simp [boundAt]
  | succ j' => simp [boundAt]

/-- Gluing the child sequences of two adjacent canonical nodes around a
merged middle child (the shape `_merge` builds). -/
theorem subsCanon_append {t : Nat} {mid : Key} :
    ∀ (lk : List Key) {ls : List (Option MSTNode)} {lo hi : Option Key}
      {rk : List Key} {rs : List (Option MSTNode)} (mc : Option MSTNode),
      SubsCanon H t lo (some mid) lk ls → SubsCanon H t (some mid) hi rk rs →
      ChildCanon H t (boundAt lo lk lk.length) (boundAt' rk hi 0) mc →
      SubsCanon H t lo hi (lk ++ rk) (ls.dropLast ++ [mc] ++ rs.drop 1) := by
  intro lk
  induction lk with
  | nil =>
    intro ls lo hi rk rs mc hsl hsr hmc
    simp only [List.length_nil] at hmc
    cases hsl with
    | last _ _ _ c hlohi hcc =>
      rw [show boundAt lo [] 0 = lo from by simp [boundAt]] at hmc
      simp only [List.dropLast_single, List.nil_append]
      cases hsr with
      | last _ _ _ cr hmidhi hccr =>
        rw [show boundAt' ([] : List Key) hi 0 = hi from by simp [boundAt']] at hmc
        simp only [List.drop_succ_cons, List.drop_zero]
        exact SubsCanon.last _ _ _ _ (OptLt_trans_mid hlohi hmidhi) hmc
      | cons _ _ _ k' rk'' cr rs'' hlo' hccr hrest' =>
        rw [show boundAt' (k' :: rk'') hi 0 = some k' from by simp [boundAt']] at hmc
        simp only [List.drop_succ_cons, List.drop_zero]
        exact SubsCanon.cons _ _ _ _ _ _ _ (OptLt_trans_mid hlohi hlo') hmc hrest'
  | cons k lk' ih =>
    intro ls lo hi rk rs mc hsl hsr hmc
    cases hsl with
    | cons _ _ _ _ _ c ls' hlo hcc hrest =>
      have hlen' : ls'.length = lk'.length + 1 := subsCanon_length hrest
      cases ls' with
      | nil => simp at hlen'
      | cons c2 ls'' =>
        have hdrop : (c :: c2 :: ls'').dropLast = c :: (c2 :: ls'').dropLast := rfl
        rw [hdrop, List.cons_append]
        simp only [List.length_cons] at hmc
        rw [boundAt_cons] at hmc
        exact SubsCanon.cons _ _ _ _ _ _ _ hlo hcc (ih mc hrest hsr hmc)

/-- Contents of the merged child sequence. -/
theorem interleave_merge :
    ∀ (ls : List (Option MSTNode)) (lkv : KVList) (mc : Option MSTNode)
      (rs : List (Option MSTNode)) (rkv : KVList),
      ls.length = lkv.length + 1 → rs.length = rkv.length + 1 →
      optContents mc = optContents (ls.getD (ls.length - 1) none) ++
        optContents (rs.getD 0 none) →
      interleaveC (ls.dropLast ++ [mc] ++ rs.drop 1) (lkv ++ rkv) =
        interleaveC ls lkv ++ interleaveC rs rkv := by
  intro ls
  induction ls with
  | nil =>
    intro lkv mc rs rkv h1 _ _
    simp at h1
  | cons c ls' ih =>
    intro lkv mc rs rkv h1 h2 hmc
    cases ls' with
    | nil =>
      have hlkv : lkv = [] := by
        cases lkv with
        | nil => rfl
        | cons kv tl => simp at h1
      subst hlkv
      simp only [List.dropLast_single, List.nil_append]
      cases rs with
      | nil => simp at h2
      | cons cr rs'' =>
        simp only [List.drop_succ_cons, List.drop_zero]
        cases rkv with
        | nil =>
          have hrs : rs'' = [] := by
            cases rs'' with
            | nil => rfl
            | cons a b => simp at h2
          subst hrs
          simp only [List.append_nil]
          rw [interleaveC_cons_nil, interleaveC_cons_nil, interleaveC_cons_nil]
          simpa using hmc
        | cons kv tl =>
          rw [show ([mc] ++ rs'' : List (Option MSTNode)) = mc :: rs'' from by simp]
          rw [interleaveC_cons_cons, interleaveC_cons_nil, interleaveC_cons_cons]
          rw [show optContents mc = optContents c ++ optContents cr from by simpa using hmc]
          simp
    | cons c2 ls'' =>
      cases lkv with
      | nil => simp at h1
      | cons kv lkv' =>
        have hdrop : (c :: c2 :: ls'').dropLast = c :: (c2 :: ls'').dropLast := rfl
        rw [hdrop, List.cons_append, List.cons_append]
        rw [show (kv :: lkv') ++ rkv = kv :: (lkv' ++ rkv) from rfl]
        rw [interleaveC_cons_cons, interleaveC_cons_cons]
        rw [ih lkv' mc rs rkv (by simpa using h1) h2 ?_]
        · simp
        · have hg : (c :: c2 :: ls'').getD ((c :: c2 :: ls'').length - 1) none =
              (c2 :: ls'').getD ((c2 :: ls'').length - 1) none := by
            simp only [List.length_cons]
            rw [show ls''.length + 1 + 1 - 1 = (ls''.length + 1 - 1) + 1 from by omega]
            rw [List.getD_cons_succ]
          rw [← hg]
          exact hmc

theorem merge_canon_some :
    ∀ (l : MSTNode), ∀ {t : Nat} {lo hi : Option Key} {mid : Key}
      (cr : Option MSTNode),
      ChildCanon H t lo (some mid) (some l) → ChildCanon H t (some mid) hi cr →
      OptLt lo (some mid) → OptLt (some mid) hi →
      ChildCanon H t lo hi (_merge (some l) cr) ∧
      optContents (_merge (some l) cr) = optContents (some l) ++ optContents cr := by
  intro l
  induction l using MSTNode.strongInd with
  | step l ihl =>
    intro t lo hi mid cr hcl hcr hlm hmh
    cases cr with
    | none =>
      rw [show _merge (some l) none = some l from by rw [_merge]]
      cases hcl with
      | some _ _ _ _ hpos hcn hne =>
        refine ⟨ChildCanon.some _ _ _ _ hpos ?_ hne, by simp⟩
        exact canon_widen l hcn (fun _ h => h)
          (fun k hk => OptLt_trans_mid hk hmh) (OptLt_trans_mid hlm hmh)
    | some r =>
      cases hcl with
      | some _ _ _ _ hposL hcnl hnel =>
        cases hcr with
        | some _ _ _ _ hposR hcnr hner =>
          cases hcnl with
          | mk _ _ _ lk lv ls hlenl hksl hsubl =>
            cases hcnr with
            | mk _ _ _ rk rv rs hlenr hksr hsubr =>
              have hslenl : ls.length = lk.length + 1 := subsCanon_length hsubl
              have hslenr : rs.length = rk.length + 1 := subsCanon_length hsubr
              have hidx : ls.length - 1 = lk.length := by omega
              have hbm : OptLt (boundAt lo lk lk.length) (some mid) := by
                have h := boundAt_lt_boundAt' hsubl lk.length (Nat.le_refl _)
                rwa [show boundAt' lk (some mid) lk.length = some mid from
                  by simp [boundAt']] at h
              have hmbR : OptLt (some mid) (boundAt' rk hi 0) := by
                have h := boundAt_lt_boundAt' hsubr 0 (Nat.zero_le _)
                rwa [show boundAt (some mid) rk 0 = some mid from
                  by simp [boundAt]] at h
              have hclast : ChildCanon H (t - 1) (boundAt lo lk lk.length)
                  (some mid) (ls.getD lk.length none) := by
                have h := subsCanon_getD hsubl lk.length (Nat.le_refl _)
                rwa [show boundAt' lk (some mid) lk.length = some mid from
                  by simp [boundAt']] at h
              have hcfirst : ChildCanon H (t - 1) (some mid) (boundAt' rk hi 0)
                  (rs.getD 0 none) := by
                have h := subsCanon_getD hsubr 0 (Nat.zero_le _)
                rwa [show boundAt (some mid) rk 0 = some mid from
                  by simp [boundAt]] at h
              have hmc : ChildCanon H (t - 1) (boundAt lo lk lk.length)
                  (boundAt' rk hi 0) (_merge (ls.getD lk.length none) (rs.getD 0 none)) ∧
                  optContents (_merge (ls.getD lk.length none) (rs.getD 0 none)) =
                    optContents (ls.getD lk.length none) ++
                      optContents (rs.getD 0 none) := by
                cases hcl' : ls.getD lk.length none with
                | none =>
                  rw [show _merge none (rs.getD 0 none) = rs.getD 0 none from
                    by rw [_merge]]
                  refine ⟨?_, by simp⟩
                  cases hrs0 : rs.getD 0 none with
                  | none => exact ChildCanon.none _ _ _
                  | some n =>
                    rw [hrs0] at hcfirst
                    cases hcfirst with
                    | some _ _ _ _ hpos hcn hne =>
                      exact ChildCanon.some _ _ _ _ hpos
                        (canon_widen n hcn (fun k' hk' => OptLt_trans_mid hbm hk')
                          (fun _ h => h) (OptLt_trans_mid hbm hmbR)) hne
                | some n =>
                  rw [hcl'] at hclast
                  exact ihl n
                    (sizeOf_some_mem_subs
                      (hcl' ▸ getD_mem_of_lt ls lk.length none (by omega)) lk lv)
                    (rs.getD 0 none) hclast hcfirst hbm hmbR
              have hmerge_eq : _merge (some (MSTNode.mk lk lv ls))
                  (some (MSTNode.mk rk rv rs)) =
                  (MSTNode.mk (lk ++ rk) (lv ++ rv)
                    (ls.dropLast ++
                      [_merge (ls.getD lk.length none) (rs.getD 0 none)] ++
                      rs.drop 1))._to_optional := by
                rw [_merge]
                simp only [MSTNode.keys_mk, MSTNode.vals_mk, MSTNode.subtrees_mk]
                rw [hidx]
              set mc := _merge (ls.getD lk.length none) (rs.getD 0 none) with hmcdef
              have hsubN : SubsCanon H (t - 1) lo hi (lk ++ rk)
                  (ls.dropLast ++ [mc] ++ rs.drop 1) :=
                subsCanon_append lk mc hsubl hsubr hmc.1
              have hN : Canon H (t - 1) lo hi
                  (MSTNode.mk (lk ++ rk) (lv ++ rv)
                    (ls.dropLast ++ [mc] ++ rs.drop 1)) := by
                refine Canon.mk _ _ _ _ _ _ (by simp [hlenl, hlenr]) ?_ hsubN
                intro k' hk'
                rcases List.mem_append.mp hk' with h | h
                · exact hksl k' h
                · exact hksr k' h
              have hcontN : nodeContents
                  (MSTNode.mk (lk ++ rk) (lv ++ rv)
                    (ls.dropLast ++ [mc] ++ rs.drop 1)) =
                  nodeContents (MSTNode.mk lk lv ls) ++
                    nodeContents (MSTNode.mk rk rv rs) := by
                rw [nodeContents_mk, nodeContents_mk, nodeContents_mk]
                rw [List.zip_append (by omega)]
                refine interleave_merge ls (lk.zip lv) mc rs (rk.zip rv)
                  (by rw [List.length_zip]; omega)
                  (by rw [List.length_zip]; omega) ?_
                rw [hidx]
                exact hmc.2
              have hrepr := canon_to_repr hN
              rw [hmerge_eq]
              constructor
              · have hcc := repr_to_childCanon hrepr (fun _ => by omega)
                rwa [show t - 1 + 1 = t from by omega] at hcc
              · rw [hrepr.1, hcontN]
                simp

theorem merge_canon {t : Nat} {lo hi : Option Key} {mid : Key}
    {cl cr : Option MSTNode}
    (hcl : ChildCanon H t lo (some mid) cl) (hcr : ChildCanon H t (some mid) hi cr)
    (hlm : OptLt lo (some mid)) (hmh : OptLt (some mid) hi) :
    ChildCanon H t lo hi (_merge cl cr) ∧
    optContents (_merge cl cr) = optContents cl ++ optContents cr := by
  cases cl with
  | none =>
    rw [show _merge none cr = cr from by rw [_merge]]
    refine ⟨?_, by simp⟩
    cases hcr with
    | none => exact ChildCanon.none _ _ _
    | some _ _ _ n hpos hcn hne =>
      exact ChildCanon.some _ _ _ _ hpos
        (canon_widen n hcn (fun k' hk' => OptLt_trans_mid hlm hk')
          (fun _ h => h) (OptLt_trans_mid hlm hmh)) hne
  | some l => exact merge_canon_some l cr hcl hcr hlm hmh

end MergeCanon
/-! ## Deletion: `_delete_recursive` preserves canonicity and removes the key -/

theorem removeKV_skip (k : Key) : ∀ (A B : KVList), (∀ a ∈ A, a.1 ≠ k) →
    removeKV (A ++ B) k = A ++ removeKV B k := by
  intro A
  induction A with
  | nil =>
    intro B _
    simp
  | cons a A' ih =>
    intro B hA
    rw [List.cons_append, removeKV, if_neg (fun h => hA a (by simp) h.symm)]
    rw [ih B (fun x hx => hA x (by simp [hx]))]
    simp [Prod.mk.eta]

theorem removeKV_stop (k : Key) : ∀ (A B : KVList), (∀ b ∈ B, b.1 ≠ k) →
    removeKV (A ++ B) k = removeKV A k ++ B := by
  intro A
  induction A with
  | nil =>
    intro B hB
    rw [List.nil_append]
    rw [removeKV_absent k B hB]
    rfl
  | cons a A' ih =>
    intro B hB
    rw [List.cons_append, removeKV, removeKV]
    by_cases hka : k = a.1
    · rw [if_pos hka, if_pos hka]
    · rw [if_neg hka, if_neg hka, ih B hB]
      simp [Prod.mk.eta]

theorem interleave_head_split (S : List (Option MSTNode)) (c : Option MSTNode)
    (kvtl : KVList) :
    interleaveC (c :: S) kvtl = optContents c ++ interleaveC (none :: S) kvtl := by
  cases kvtl with
  | nil => simp
  | cons kv tl => simp

theorem gteIndexAux_mem {keys : List Key}
    (hpw : keys.Pairwise (fun a b => keyLt a b)) {k : Key} (hk : k ∈ keys) :
    gteIndexAux keys k < keys.length ∧ keys.getD (gteIndexAux keys k) [] = k := by
  induction keys with
  | nil => simp at hk
  | cons k0 rest ih =>
    rw [List.pairwise_cons] at hpw
    rcases List.mem_cons.mp hk with rfl | hk'
    · rw [gteIndexAux, if_neg (by simp [keyLt_irrefl])]
      simp
    · have hlt : keyLt k0 k := hpw.1 k hk'
      rw [gteIndexAux, if_pos hlt]
      obtain ⟨h1, h2⟩ := ih hpw.2 hk'
      refine ⟨by simpa using h1, by simpa using h2⟩

section DeleteCanon

variable {H : Key → Nat}

/-- The `key_height == tree_height` arm of `_delete_recursive`. -/
theorem delete_here_repr {t : Nat} {lo hi : Option Key} {m : MSTNode}
    (hC : Canon H t lo hi m) (k : Key) (hgt : ¬ H k > t) (hlt : ¬ H k < t)
    (hlok : OptLt lo (some k)) (hkhi : OptLt (some k) hi) :
    ReprOpt H t lo hi (_delete_recursive m k (H k) t)
      (removeKV (nodeContents m) k) := by
  cases hC with
  | mk _ _ _ keys vals subs hlen hks hsub =>
    have hCC : Canon H t lo hi (.mk keys vals subs) :=
      Canon.mk _ _ _ _ _ _ hlen hks hsub
    rw [_delete_recursive, if_neg hgt]
    simp only [gte_index_mk, MSTNode.keys_mk, MSTNode.vals_mk, MSTNode.subtrees_mk]
    rw [if_neg hlt]
    have hiLe := gteIndexAux_le_length keys k
    set i := gteIndexAux keys k with hidef
    have hslen : subs.length = keys.length + 1 := subsCanon_length hsub
    have hkvlen : (keys.zip vals).length = keys.length := by
      rw [List.length_zip]; omega
    have hkeyfacts := subsCanon_keys_facts hsub
    by_cases hcond : i = keys.length ∨ keys.getD i [] ≠ k
    · rw [if_pos hcond]
      have habs : ∀ p ∈ nodeContents (MSTNode.mk keys vals subs), p.1 ≠ k := by
        intro p hp hpk
        have hpt : H p.1 = t := by
          rw [hpk]
          omega
        have hmemz : p ∈ keys.zip vals := by
          have hfil := canon_contents_filter keys vals subs t lo hi hCC
          have hmf : p ∈ (nodeContents (MSTNode.mk keys vals subs)).filter
              (fun q => H q.1 == t) := List.mem_filter.mpr ⟨hp, by simpa using hpt⟩
          rwa [hfil] at hmf
        have hkeys : k ∈ keys := by
          have hmm := List.mem_map_of_mem Prod.fst hmemz
          rw [List.map_fst_zip keys vals (by omega)] at hmm
          rwa [hpk] at hmm
        obtain ⟨hlt', heq'⟩ := gteIndexAux_mem hkeyfacts.1 hkeys
        rcases hcond with hcond | hcond
        · omega
        · exact hcond heq'
      rw [removeKV_absent k _ habs]
      exact canon_to_repr hCC
    · rw [if_neg hcond]
      push_neg at hcond
      obtain ⟨hine, hieq⟩ := hcond
      have hilt : i < keys.length := by omega
      have hbAi : boundAt' keys hi i = some k := by
        rw [boundAt', if_pos hilt, hieq]
      have hbA1 : boundAt lo keys (i + 1) = some k := by
        rw [boundAt, if_neg (by omega)]
        simp only [Nat.add_sub_cancel]
        rw [hieq]
      have hcl : ChildCanon H t (boundAt lo keys i) (some k) (subs.getD i none) := by
        have h := subsCanon_getD hsub i (by omega)
        rwa [hbAi] at h
      have hcr : ChildCanon H t (some k) (boundAt' keys hi (i + 1))
          (subs.getD (i + 1) none) := by
        have h := subsCanon_getD hsub (i + 1) (by omega)
        rwa [hbA1] at h
      have hlm : OptLt (boundAt lo keys i) (some k) := by
        have h := boundAt_lt_boundAt' hsub i (by omega)
        rwa [hbAi] at h
      have hmh : OptLt (some k) (boundAt' keys hi (i + 1)) := by
        have h := boundAt_lt_boundAt' hsub (i + 1) (by omega)
        rwa [hbA1] at h
      obtain ⟨hmc, hmceq⟩ := merge_canon hcl hcr hlm hmh
      have hsubN := subsCanon_remove hsub i hilt _ hmc
      have hN : Canon H t lo hi (MSTNode.mk (tuple_remove_at keys i)
          (tuple_remove_at vals i)
          (subs.take i ++ [_merge (subs.getD i none) (subs.getD (i + 1) none)] ++
            subs.drop (i + 2))) := by
        refine Canon.mk _ _ _ _ _ _ ?_ ?_ hsubN
        · rw [tuple_remove_at_length vals i (by omega),
            tuple_remove_at_length keys i hilt]
          omega
        · intro k' hk'
          exact hks k' (mem_tuple_remove_at keys i k' hk')
      -- contents of the removal node
      have hcontN : nodeContents (MSTNode.mk (tuple_remove_at keys i)
          (tuple_remove_at vals i)
          (subs.take i ++ [_merge (subs.getD i none) (subs.getD (i + 1) none)] ++
            subs.drop (i + 2))) =
          preC subs (keys.zip vals) i ++
            (optContents (subs.getD i none) ++ optContents (subs.getD (i + 1) none)) ++
            postC subs (keys.zip vals) (i + 1) := by
        rw [nodeContents_mk, zip_remove keys vals i (by omega)]
        rw [interleave_remove subs (keys.zip vals) i _ (by omega) (by omega)]
        rw [hmceq]
      -- removeKV of the original contents
      have hpre_all : ∀ p ∈ preC subs (keys.zip vals) i, keyLt p.1 k := by
        intro p hp
        rw [preC] at hp
        have hp' : p ∈ interleaveC (subs.take i ++ [none])
            ((keys.take i).zip (vals.take i)) := by
          rw [zip_take]
          exact hp
        have hcf := (subsCanon_CF
          (subsCanon_take hsub i (by omega) none (ChildCanon.none _ _ _)
            (fun j hj => gteIndexAux_lt_before keys k j hj) hlok)
          (vals.take i) (by simp [List.length_take]; omega)
          (fun k' hk' => hks k' (List.take_subset _ _ hk'))).2.1 p hp'
        simpa using hcf.2
      have hseg : ∀ p ∈ optContents (subs.getD i none), keyLt p.1 k := by
        intro p hp
        cases hcs : subs.getD i none with
        | none =>
          rw [hcs] at hp
          simp at hp
        | some n =>
          rw [hcs] at hp hcl
          cases hcl with
          | some _ _ _ _ hpos hcn hne =>
            have hcf := (canon_contents_facts n (t - 1) _ _ hcn).2.1 p
              (by simpa using hp)
            simpa using hcf.2
      have hdecomp := interleave_decomp subs (keys.zip vals) i (by omega) (by omega)
      have hpost_split : optContents (subs.getD i none) ++
          postC subs (keys.zip vals) i =
          optContents (subs.getD i none) ++ (k, vals.getD i []) ::
            (optContents (subs.getD (i + 1) none) ++
              postC subs (keys.zip vals) (i + 1)) := by
        rw [postC_eq_interleave]
        rw [drop_eq_getD_cons (keys.zip vals) i ([], []) (by omega)]
        rw [zip_getD keys vals i ([], []) (by omega) (by omega), hieq]
        rw [show interleaveC (none :: subs.drop (i + 1))
            ((k, vals.getD i []) :: (keys.zip vals).drop (i + 1)) =
            optContents (none : Option MSTNode) ++ (k, vals.getD i []) ::
              interleaveC (subs.drop (i + 1)) ((keys.zip vals).drop (i + 1)) from
          interleaveC_cons_cons _ _ _ _]
        rw [optContents_none, List.nil_append]
        rw [drop_eq_getD_cons subs (i + 1) none (by omega)]
        rw [interleave_head_split]
        rw [← postC_eq_interleave]
      have hrem : removeKV (nodeContents (MSTNode.mk keys vals subs)) k =
          preC subs (keys.zip vals) i ++
            (optContents (subs.getD i none) ++ optContents (subs.getD (i + 1) none)) ++
            postC subs (keys.zip vals) (i + 1) := by
        rw [nodeContents_mk, hdecomp, List.append_assoc]
        rw [removeKV_skip k _ _ (fun a ha => by
          have := hpre_all a ha
          intro h
          rw [h] at this
          simp [keyLt_irrefl] at this)]
        rw [hpost_split]
        rw [removeKV_skip k _ _ (fun a ha => by
          have := hseg a ha
          intro h
          rw [h] at this
          simp [keyLt_irrefl] at this)]
        rw [removeKV, if_pos (show k = k from rfl)]
        simp [List.append_assoc]
      have hrepr := canon_to_repr hN
      rw [hcontN] at hrepr
      rw [hrem]
      exact hrepr

end DeleteCanon
section DeleteRec

variable {H : Key → Nat}

theorem delete_recursive_repr :
    ∀ (t : Nat) {lo hi : Option Key} {m : MSTNode}, Canon H t lo hi m →
      ∀ (k : Key), H k ≤ t → OptLt lo (some k) → OptLt (some k) hi →
      ReprOpt H t lo hi (_delete_recursive m k (H k) t)
        (removeKV (nodeContents m) k) := by
  intro t
  induction t with
  | zero =>
    intro lo hi m hC k hkt hlok hkhi
    exact delete_here_repr hC k (by omega) (by omega) hlok hkhi
  | succ t' ih =>
    intro lo hi m hC k hkt hlok hkhi
    by_cases hlt : H k < t' + 1
    · cases hC with
      | mk _ _ _ keys vals subs hlen hks hsub =>
        have hCC : Canon H (t' + 1) lo hi (.mk keys vals subs) :=
          Canon.mk _ _ _ _ _ _ hlen hks hsub
        rw [_delete_recursive, if_neg (by omega)]
        simp only [gte_index_mk, MSTNode.keys_mk, MSTNode.vals_mk, MSTNode.subtrees_mk,
          Nat.add_sub_cancel]
        rw [if_pos hlt]
        have hiLe := gteIndexAux_le_length keys k
        set i := gteIndexAux keys k with hidef
        have hslen : subs.length = keys.length + 1 := subsCanon_length hsub
        have hkvlen : (keys.zip vals).length = keys.length := by
          rw [List.length_zip]; omega
        have hbef : ∀ j < i, keyLt (keys.getD j []) k :=
          fun j hj => gteIndexAux_lt_before keys k j hj
        have hkeyfacts := subsCanon_keys_facts hsub
        have hchild : ChildCanon H (t' + 1) (boundAt lo keys i) (boundAt' keys hi i)
            (subs.getD i none) := subsCanon_getD hsub i hiLe
        have hkik : i < keys.length → keyLt k (keys.getD i []) := by
          intro hilt
          have hne : keys.getD i [] ≠ k := by
            intro he
            have := hks _ (getD_mem_of_lt keys i [] hilt)
            rw [he] at this
            omega
          exact keyLt_of_ne_of_not_lt hne (gteIndexAux_not_lt_at keys k hilt)
        have hlo_k : OptLt (boundAt lo keys i) (some k) := by
          rw [boundAt]
          split
          · exact hlok
          · simpa using hbef (i - 1) (by omega)
        have hk_hi' : OptLt (some k) (boundAt' keys hi i) := by
          rw [boundAt']
          split
          · rename_i hilt
            simpa using hkik hilt
          · exact hkhi
        have hpre_all : ∀ p ∈ preC subs (keys.zip vals) i, keyLt p.1 k := by
          intro p hp
          rw [preC] at hp
          have hp' : p ∈ interleaveC (subs.take i ++ [none])
              ((keys.take i).zip (vals.take i)) := by
            rw [zip_take]
            exact hp
          have hcf := (subsCanon_CF
            (subsCanon_take hsub i hiLe none (ChildCanon.none _ _ _) hbef hlok)
            (vals.take i) (by simp [List.length_take]; omega)
            (fun k' hk' => hks k' (List.take_subset _ _ hk'))).2.1 p hp'
          simpa using hcf.2
        have haft : ∀ j, i ≤ j → j < keys.length → keyLt k (keys.getD j []) := by
          intro j hij hj
          rcases Nat.eq_or_lt_of_le hij with rfl | hlt'
          · exact hkik hj
          · exact keyLt_trans (hkik (by omega))
              (pairwise_getD_lt keys hkeyfacts.1 i j hlt' hj)
        have hpost_all : ∀ p ∈ postC subs (keys.zip vals) i, keyLt k p.1 := by
          intro p hp
          have hp' : p ∈ interleaveC (none :: subs.drop (i + 1))
              ((keys.drop i).zip (vals.drop i)) := by
            rw [zip_drop, ← postC_eq_interleave]
            exact hp
          have hcf := (subsCanon_CF
            (subsCanon_drop hsub i hiLe none (ChildCanon.none _ _ _) haft hkhi)
            (vals.drop i) (by simp [List.length_drop]; omega)
            (fun k' hk' => hks k' (List.drop_subset _ _ hk'))).2.1 p hp'
          simpa using hcf.1
        have hdecomp := interleave_decomp subs (keys.zip vals) i (by omega) (by omega)
        by_cases hnone : (subs.getD i none).isNone
        · rw [if_pos hnone]
          have hsegnil : optContents (subs.getD i none) = [] := by
            cases hcs : subs.getD i none with
            | none => simp
            | some n =>
              rw [hcs] at hnone
              simp at hnone
          have habs : ∀ p ∈ nodeContents (MSTNode.mk keys vals subs), p.1 ≠ k := by
            intro p hp hpk
            rw [nodeContents_mk, hdecomp] at hp
            rcases List.mem_append.mp hp with hp' | hp'
            · rcases List.mem_append.mp hp' with hp'' | hp''
              · have := hpre_all p hp''
                rw [hpk] at this
                exact absurd this (by
                  intro hcontra
                  have h2 := keyLt_irrefl k
                  rw [hcontra] at h2
                  cases h2)
              · rw [hsegnil] at hp''
                simp at hp''
            · have := hpost_all p hp'
              rw [hpk] at this
              exact absurd this (by
                intro hcontra
                have h2 := keyLt_irrefl k
                rw [hcontra] at h2
                cases h2)
          rw [removeKV_absent k _ habs]
          exact canon_to_repr hCC
        · rw [if_neg hnone]
          obtain ⟨n, hcase⟩ : ∃ n, subs.getD i none = some n := by
            cases hcs : subs.getD i none with
            | none =>
              rw [hcs] at hnone
              simp at hnone
            | some n => exact ⟨n, rfl⟩
          have hchildnode : Canon H t' (boundAt lo keys i) (boundAt' keys hi i)
              (get_node (subs.getD i none)) ∧
              nodeContents (get_node (subs.getD i none)) =
                optContents (subs.getD i none) := by
            rw [hcase] at hchild ⊢
            cases hchild with
            | some _ _ _ _ ht hm' hne' =>
              rw [get_node]
              exact ⟨by simpa using hm', by simp⟩
          have hrec := ih hchildnode.1 k (by omega) hlo_k hk_hi'
          rw [hchildnode.2] at hrec
          have hchildnew : ChildCanon H (t' + 1) (boundAt lo keys i) (boundAt' keys hi i)
              (_delete_recursive (get_node (subs.getD i none)) k (H k) t') :=
            repr_to_childCanon hrec (fun _ => by omega)
          have hN : Canon H (t' + 1) lo hi (MSTNode.mk keys vals
              (tuple_replace_at subs i
                (_delete_recursive (get_node (subs.getD i none)) k (H k) t'))) :=
            Canon.mk _ _ _ _ _ _ hlen hks
              (subsCanon_replace hsub i hiLe _ hchildnew)
          have hcontN : nodeContents (MSTNode.mk keys vals
              (tuple_replace_at subs i
                (_delete_recursive (get_node (subs.getD i none)) k (H k) t'))) =
              preC subs (keys.zip vals) i ++
                removeKV (optContents (subs.getD i none)) k ++
                postC subs (keys.zip vals) i := by
            rw [nodeContents_mk]
            rw [interleave_replace subs (keys.zip vals) i _ (by omega) (by omega)]
            rw [hrec.1]
          have hrem : removeKV (nodeContents (MSTNode.mk keys vals subs)) k =
              preC subs (keys.zip vals) i ++
                removeKV (optContents (subs.getD i none)) k ++
                postC subs (keys.zip vals) i := by
            rw [nodeContents_mk, hdecomp, List.append_assoc]
            rw [removeKV_skip k _ _ (fun a ha => by
              have := hpre_all a ha
              intro h
              rw [h] at this
              simp [keyLt_irrefl] at this)]
            rw [removeKV_stop k _ _ (fun b hb => by
              have := hpost_all b hb
              intro h
              rw [h] at this
              simp [keyLt_irrefl] at this)]
            simp [List.append_assoc]
          have hrepr := canon_to_repr hN
          rw [hcontN] at hrepr
          rw [hrem]
          exact hrepr
    · exact delete_here_repr hC k (by omega) (by omega) hlok hkhi

theorem squash_top_none : _squash_top none = none := by
  rw [_squash_top]

theorem squash_top_keys {n : MSTNode} (h : n.keys ≠ []) :
    _squash_top (some n) = some n := by
  rw [_squash_top, if_pos h]

theorem squash_top_chain_none {n : MSTNode} (h : ¬ n.keys ≠ [])
    (hg : n.subtrees.getD 0 none = none) : _squash_top (some n) = some n := by
  rw [_squash_top, if_neg h]
  split
  · rfl
  · rename_i t0 hg'
    rw [hg] at hg'
    cases hg'

theorem squash_top_chain_some (t0 : MSTNode) {n : MSTNode} (h : ¬ n.keys ≠ [])
    (hg : n.subtrees.getD 0 none = some t0) :
    _squash_top (some n) = _squash_top (some t0) := by
  rw [_squash_top, if_neg h]
  split
  · rename_i hg'
    rw [hg] at hg'
    cases hg'
  · rename_i t1 hg'
    rw [hg] at hg'
    injection hg' with h'
    rw [h']

/-- `_squash_top` composed with `get_node` turns a canonical optional tree
into a canonical root with the same contents (spec §4.3 squash-top). -/
theorem squash_top_canon : ∀ (t : Nat) (c : Option MSTNode),
    (∀ n, c = some n → Canon H t none none n) →
    rootCanon H (get_node (_squash_top c)) ∧
    nodeContents (get_node (_squash_top c)) = optContents c := by
  intro t
  induction t with
  | zero =>
    intro c hc
    cases c with
    | none =>
      rw [squash_top_none, get_node]
      exact ⟨Or.inl rfl, by simp⟩
    | some n =>
      have hcn := hc n rfl
      by_cases hkeys : n.keys = []
      · cases hcn with
        | mk _ _ _ keys vals subs hlen hks hsub =>
          simp only [MSTNode.keys_mk] at hkeys
          subst hkeys
          cases hsub with
          | last _ _ _ c0 hlohi hc0 =>
            cases hc0 with
            | none =>
              rw [squash_top_chain_none (by simp) (by simp), get_node]
              have hv : vals = [] := List.length_eq_zero.mp (by simpa using hlen)
              subst hv
              exact ⟨Or.inl rfl, by simp⟩
            | some _ _ _ t0 hpos hct0 hnet0 => omega
      · rw [squash_top_keys hkeys, get_node]
        exact ⟨Or.inr ⟨0, hcn, hkeys⟩, by simp⟩
  | succ t' ih =>
    intro c hc
    cases c with
    | none =>
      rw [squash_top_none, get_node]
      exact ⟨Or.inl rfl, by simp⟩
    | some n =>
      have hcn := hc n rfl
      by_cases hkeys : n.keys = []
      · cases hcn with
        | mk _ _ _ keys vals subs hlen hks hsub =>
          simp only [MSTNode.keys_mk] at hkeys
          subst hkeys
          cases hsub with
          | last _ _ _ c0 hlohi hc0 =>
            cases hc0 with
            | none =>
              rw [squash_top_chain_none (by simp) (by simp), get_node]
              have hv : vals = [] := List.length_eq_zero.mp (by simpa using hlen)
              subst hv
              exact ⟨Or.inl rfl, by simp⟩
            | some _ _ _ t0 hpos hct0 hnet0 =>
              rw [squash_top_chain_some t0 (by simp)
                (show (MSTNode.mk [] vals [some t0]).subtrees.getD 0 none = some t0 from rfl)]
              have hrec := ih (some t0) (fun n' hn' => by
                injection hn' with h'
                rw [← h']
                simpa using hct0)
              refine ⟨hrec.1, ?_⟩
              rw [hrec.2]
              simp
      · rw [squash_top_keys hkeys, get_node]
        exact ⟨Or.inr ⟨t' + 1, hcn, hkeys⟩, by simp⟩

/-- `del_record` on a canonical root yields a canonical root whose logical
contents are the original ones with the key removed. -/
theorem del_record_canon {root : MSTNode} (hr : rootCanon H root) (k : Key) :
    rootCanon H (del_record H root k) ∧
    nodeContents (del_record H root k) = removeKV (nodeContents root) k := by
  rcases hr with rfl | ⟨t, hc, hkne⟩
  · rw [del_record]
    rw [show MSTNode.empty_root.height H = 0 from rfl]
    have hdel : _delete_recursive MSTNode.empty_root k (H k) 0 = none := by
      rw [_delete_recursive]
      by_cases h0 : H k > 0
      · rw [if_pos h0]
        rfl
      · rw [if_neg h0]
        simp only [MSTNode.empty_root, gte_index_mk, MSTNode.keys_mk]
        rw [if_neg (by omega)]
        rw [if_pos (Or.inl (by rw [gteIndexAux]; rfl))]
        rfl
    rw [hdel, squash_top_none, get_node]
    refine ⟨Or.inl rfl, ?_⟩
    rw [nodeContents_empty_root]
    rfl
  · have hh : root.height H = t := canon_height hc hkne
    rw [del_record, hh]
    by_cases hgt : H k > t
    · have hdel : _delete_recursive root k (H k) t = root._to_optional := by
        rw [_delete_recursive, if_pos hgt]
      have hie : root.is_empty = false := canon_is_empty_false hc hkne
      have hto : root._to_optional = some root := by
        rw [MSTNode._to_optional, hie]
        simp
      rw [hdel, hto, squash_top_keys hkne, get_node]
      refine ⟨Or.inr ⟨t, hc, hkne⟩, ?_⟩
      have habs : ∀ p ∈ nodeContents root, p.1 ≠ k := by
        intro p hp hpk
        have := (canon_contents_facts root t none none hc).2.2 p hp
        rw [hpk] at this
        omega
      rw [removeKV_absent k _ habs]
    · have hrec := delete_recursive_repr t hc k (by omega) trivial trivial
      have hsq := squash_top_canon t (_delete_recursive root k (H k) t)
        (fun n hn => ((hrec.2.2) n hn).1)
      refine ⟨hsq.1, ?_⟩
      rw [hsq.2, hrec.1]

end DeleteRec

theorem removeKV_insertKV (k : Key) (v : Val) :
    ∀ (L : KVList), (∀ p ∈ L, p.1 ≠ k) → removeKV (insertKV L k v) k = L := by
  intro L
  induction L with
  | nil =>
    intro _
    rw [insertKV, removeKV, if_pos (show k = k from rfl)]
  | cons q rest ih =>
    intro hL
    rw [insertKV]
    by_cases h1 : keyLt k q.1
    · rw [if_pos h1, removeKV, if_pos (show k = k from rfl)]
    · rw [if_neg h1]
      have hqk : ¬ k = q.1 := fun h => hL q (by simp) h.symm
      rw [if_neg hqk]
      rw [removeKV, if_neg hqk]
      rw [ih (fun x hx => hL x (by simp [hx]))]

/-- C4: Insert/delete inverse: for a canonical root and a key `k` absent from
its contents, `del_record (put_record root k v) k` returns exactly the
original root node (hence the same root CID). -/
theorem claim_C4_insert_delete_inverse {root : MSTNode}
    (hr : rootCanon key_height root) (k : Key) (v : Val)
    (habs : ∀ p ∈ nodeContents root, p.1 ≠ k) :
    del_record key_height (put_record key_height root k v) k = root := by
  obtain ⟨hp1, hp2⟩ := put_record_canon hr k v
  obtain ⟨hd1, hd2⟩ := del_record_canon hp1 k
  apply rootCanon_unique hd1 hr
  rw [hd2, hp2]
  exact removeKV_insertKV k v _ habs

theorem claim_C4_insert_delete_inverse_witness :
    rootCanon key_height MSTNode.empty_root ∧
    (∀ p ∈ nodeContents MSTNode.empty_root, p.1 ≠ ([0] : Key)) ∧
    del_record key_height (put_record key_height MSTNode.empty_root [0] [1]) [0] =
      MSTNode.empty_root :=
  ⟨Or.inl rfl, by simp,
   claim_C4_insert_delete_inverse (Or.inl rfl) [0] [1] (by simp)⟩

/-- C8: Squash-top invariant: every root returned by `put_record` or
`del_record` on a canonical root either has at least one key or is exactly
the canonical empty node (keys=(), subtrees=(None,)); in particular no
returned root is a keyless node with a non-null sole subtree. -/
theorem claim_C8_squash_top_invariant {root : MSTNode}
    (hr : rootCanon key_height root) (k : Key) (v : Val) (k' : Key) :
    (put_record key_height root k v = MSTNode.empty_root ∨
      (put_record key_height root k v).keys ≠ []) ∧
    (del_record key_height root k' = MSTNode.empty_root ∨
      (del_record key_height root k').keys ≠ []) := by
  have h1 := (put_record_canon hr k v).1
  have h2 := (del_record_canon hr k').1
  constructor
  · rcases h1 with h | ⟨t, _, hk⟩
    · exact Or.inl h
    · exact Or.inr hk
  · rcases h2 with h | ⟨t, _, hk⟩
    · exact Or.inl h
    · exact Or.inr hk

theorem claim_C8_squash_top_invariant_witness :
    rootCanon key_height MSTNode.empty_root ∧
    (put_record key_height MSTNode.empty_root [0] [1] = MSTNode.empty_root ∨
      (put_record key_height MSTNode.empty_root [0] [1]).keys ≠ []) ∧
    (del_record key_height MSTNode.empty_root [2] = MSTNode.empty_root ∨
      (del_record key_height MSTNode.empty_root [2]).keys ≠ []) := by
  have h := claim_C8_squash_top_invariant (Or.inl rfl) ([0] : Key) ([1] : Val) ([2] : Key)
  exact ⟨Or.inl rfl, h.1, h.2⟩
/-! ## NodeWalker (`node_walker.py`)

The walker's stack is modelled with the top frame at the HEAD of the list
(python's `stack[-1]` = head, `stack[0]` = last, `pop` = tail).  Python
exceptions (`StopIteration`, recursing on an empty stack, descending into a
`None` subtree) are modelled by `Option`: `none` = the operation raised.
`frame.node.subtrees[idx]` is modelled with `getD` (an `IndexError` is
unreachable: every reachable frame has `idx ≤ len keys < len subtrees`). -/

def PATH_MIN : Key := []

def PATH_MAX : Key := [255]

structure StackFrame where
  node : MSTNode
  lpath : Key
  rpath : Key
  idx : Nat

/-- property `NodeWalker.lpath`. -/
def lpathS (f : StackFrame) : Key :=
  if f.idx = 0 then f.lpath else f.node.keys.getD (f.idx - 1) []

/-- property `NodeWalker.rpath`. -/
def rpathS (f : StackFrame) : Key :=
  if f.idx = f.node.keys.length then f.rpath else f.node.keys.getD f.idx []

/-- property `NodeWalker.lval`. -/
def lvalS (f : StackFrame) : Option Val :=
  if f.idx = 0 then none else some (f.node.vals.getD (f.idx - 1) [])

/-- property `NodeWalker.rval`. -/
def rvalS (f : StackFrame) : Option Val :=
  if f.idx = f.node.vals.length then none else some (f.node.vals.getD f.idx [])

/-- property `NodeWalker.subtree`. -/
def subtreeS (f : StackFrame) : Option MSTNode :=
  f.node.subtrees.getD f.idx none

/-- property `NodeWalker.can_go_right`. -/
def can_go_right (f : StackFrame) : Bool :=
  f.idx + 1 < f.node.subtrees.length

/-- `NodeWalker.__init__`. -/
def walker_init (root_cid : Option MSTNode) (lp rp : Key) : List StackFrame :=
  [StackFrame.mk (get_node root_cid) lp rp 0]

/-- `NodeWalker.right_or_up` (`None` models the `StopIteration`). -/
def right_or_up : List StackFrame → Option (List StackFrame)
  | [] => none
  | f :: rest =>
    if can_go_right f then
      some (StackFrame.mk f.node f.lpath f.rpath (f.idx + 1) :: rest)
    else right_or_up rest

theorem sizeOf_subtreeS_lt {f : StackFrame} {sub : MSTNode}
    (h : subtreeS f = some sub) : sizeOf sub < sizeOf f.node := by
  rcases getD_eq_default_or_mem f.node.subtrees f.idx none with h' | h'
  · rw [subtreeS, h'] at h
    cases h
  · rw [subtreeS] at h
    rw [h] at h'
    cases hn : f.node with
    | mk keys vals subs =>
      rw [hn] at h'
      simp only [MSTNode.subtrees_mk] at h'
      exact sizeOf_some_mem_subs h' keys vals

/-- The `while self.subtree: self.down()` loop at the start of `next_kv`:
descend into the current subtree until there is none. -/
def descend_all (s : List StackFrame) : List StackFrame :=
  match s with
  | [] => []
  | f :: rest =>
    match h : subtreeS f with
    | none => f :: rest
    | some sub => descend_all (StackFrame.mk sub (lpathS f) (rpathS f) 0 :: f :: rest)
termination_by s.head?.elim 0 (fun f => sizeOf f.node)
decreasing_by
  simp only [List.head?_cons, Option.elim_some]
  exact sizeOf_subtreeS_lt h

/-- `NodeWalker.next_kv`. -/
def next_kv (s : List StackFrame) : Option ((Key × Option Val) × List StackFrame) :=
  match right_or_up (descend_all s) with
  | none => none
  | some s' =>
    match s' with
    | [] => none
    | f :: rest => some ((lpathS f, lvalS f), f :: rest)

/-- The stored `rpath` of the bottom frame (`self.stack[0].rpath`). -/
def rootRpathD (s : List StackFrame) : Key :=
  match s.getLast? with
  | none => PATH_MAX
  | some g => g.rpath

/-- property `NodeWalker.is_final`. -/
def is_final (s : List StackFrame) : Bool :=
  match s with
  | [] => true
  | f :: _ => (subtreeS f).isNone && (rpathS f == rootRpathD s)

/-- `NodeWalker.iter_kv`, unrolled with a fuel bound on the number of yielded
pairs (the generator yields `next_kv()` while not `is_final`). -/
def iter_kv : Nat → List StackFrame → Option (List (Key × Option Val))
  | 0, _ => none
  | fuel + 1, s =>
    if is_final s then some []
    else
      match next_kv s with
      | none => none
      | some (kv, s') =>
        match iter_kv fuel s' with
        | none => none
        | some l => some (kv :: l)

/-- The `while self.rpath < rpath: if not can_go_right: return None; right()`
loop of `find_rpath`; `none` is the loop's `return None`. -/
def find_right (f : StackFrame) (k : Key) : Option StackFrame :=
  if keyLt (rpathS f) k then
    if h : f.idx + 1 < f.node.subtrees.length then
      find_right (StackFrame.mk f.node f.lpath f.rpath (f.idx + 1)) k
    else none
  else some f
termination_by f.node.subtrees.length - f.idx
decreasing_by
  show f.node.subtrees.length - (f.idx + 1) < f.node.subtrees.length - f.idx
  omega

/-- `NodeWalker.find_rpath`, with fuel bounding the number of `down()` steps
(the loop descends one level per iteration). -/
def find_rpath (H : Key → Nat) : Nat → List StackFrame → Key → Option (Option Val)
  | 0, _, _ => none
  | fuel + 1, s, key =>
    match s with
    | [] => none
    | f :: rest =>
      if H key > f.node.height H then some none
      else
        match find_right f key with
        | none => some none
        | some f' =>
          if rpathS f' == key then some (rvalS f')
          else
            match subtreeS f' with
            | none => some none
            | some sub =>
              find_rpath H fuel
                (StackFrame.mk sub (lpathS f') (rpathS f') 0 :: f' :: rest) key

/-! ### Walker correctness machinery -/

/-- The kv pairs of the top frame's node from the cursor position rightward. -/
def frameRest (f : StackFrame) : KVList :=
  interleaveC (f.node.subtrees.drop f.idx)
    ((f.node.keys.zip f.node.vals).drop f.idx)

/-- The kv pairs of a frame's node strictly after the current subtree. -/
def frameAfter (f : StackFrame) : KVList :=
  postC f.node.subtrees (f.node.keys.zip f.node.vals) f.idx

def afterAll : List StackFrame → KVList
  | [] => []
  | f :: rest => frameAfter f ++ afterAll rest

/-- All kv pairs the walker has not yet yielded. -/
def remainingKV : List StackFrame → KVList
  | [] => []
  | f :: rest => frameRest f ++ afterAll rest

def headKey (L : KVList) (R : Key) : Key :=
  match L with
  | [] => R
  | p :: _ => p.1

/-- Well-formedness of a walker stack over canonical nodes, relative to the
final sentinel rpath `R` of the bottom frame. -/
def GoodStack (H : Key → Nat) (R : Key) : List StackFrame → Prop
  | [] => True
  | f :: rest =>
    (∃ t lo hi, Canon H t lo hi f.node) ∧
    f.idx ≤ f.node.keys.length ∧
    f.rpath = headKey (afterAll rest) R ∧
    GoodStack H R rest
theorem nodeContents_eq (n : MSTNode) :
    nodeContents n = interleaveC n.subtrees (n.keys.zip n.vals) := by
  cases n with
  | mk k v s =>
    rw [nodeContents_mk]
    rfl

section WalkerLemmas

variable {H : Key → Nat} {R : Key}

theorem canon_lengths {t : Nat} {lo hi : Option Key} {n : MSTNode}
    (hc : Canon H t lo hi n) :
    n.subtrees.length = n.keys.length + 1 ∧ n.vals.length = n.keys.length := by
  cases hc with
  | mk _ _ _ keys vals subs hlen hks hsub =>
    exact ⟨by simpa using subsCanon_length hsub, by simpa using hlen⟩

theorem canon_subtreeS {t : Nat} {lo hi : Option Key} {f : StackFrame}
    (hc : Canon H t lo hi f.node) (hidx : f.idx ≤ f.node.keys.length) :
    ChildCanon H t (boundAt lo f.node.keys f.idx) (boundAt' f.node.keys hi f.idx)
      (subtreeS f) := by
  rcases hnode : f.node with ⟨keys, vals, subs⟩
  rw [hnode] at hc hidx
  simp only [MSTNode.keys_mk] at hidx
  cases hc with
  | mk _ _ _ _ _ _ hlen hks hsub =>
    have h := subsCanon_getD hsub f.idx hidx
    rw [subtreeS, hnode]
    simpa using h

theorem frameRest_split (f : StackFrame)
    (hslen : f.node.subtrees.length = f.node.keys.length + 1)
    (hvlen : f.node.vals.length = f.node.keys.length)
    (hidx : f.idx ≤ f.node.keys.length) :
    frameRest f = optContents (subtreeS f) ++ frameAfter f := by
  rw [frameRest, frameAfter, subtreeS]
  rw [drop_eq_getD_cons f.node.subtrees f.idx none (by omega)]
  rw [interleave_head_split]
  rw [← postC_eq_interleave]

theorem frameAfter_head (f : StackFrame)
    (hvlen : f.node.vals.length = f.node.keys.length)
    (hidx : f.idx < f.node.keys.length) :
    frameAfter f = (f.node.keys.getD f.idx [], f.node.vals.getD f.idx []) ::
      frameRest (StackFrame.mk f.node f.lpath f.rpath (f.idx + 1)) := by
  rw [frameAfter, postC_eq_interleave]
  rw [drop_eq_getD_cons (f.node.keys.zip f.node.vals) f.idx ([], [])
    (by rw [List.length_zip]; omega)]
  rw [interleaveC_cons_cons, optContents_none, List.nil_append]
  rw [zip_getD f.node.keys f.node.vals f.idx ([], []) (by omega) hidx]
  rfl

theorem frameAfter_nil (f : StackFrame)
    (hvlen : f.node.vals.length = f.node.keys.length)
    (hidx : f.idx = f.node.keys.length) :
    frameAfter f = [] := by
  rw [frameAfter, postC]
  rw [show (f.node.keys.zip f.node.vals).drop f.idx = [] from
    List.drop_eq_nil_of_le (by rw [List.length_zip]; omega)]

theorem rpathS_headKey (f : StackFrame) (rest : List StackFrame)
    (hvlen : f.node.vals.length = f.node.keys.length)
    (hidx : f.idx ≤ f.node.keys.length)
    (hrp : f.rpath = headKey (afterAll rest) R) :
    rpathS f = headKey (afterAll (f :: rest)) R := by
  rw [show afterAll (f :: rest) = frameAfter f ++ afterAll rest from rfl]
  by_cases hlen : f.idx = f.node.keys.length
  · rw [frameAfter_nil f hvlen hlen, List.nil_append, rpathS, if_pos hlen]
    exact hrp
  · rw [frameAfter_head f hvlen (by omega), rpathS, if_neg hlen]
    rfl

theorem rootRpathD_eq : ∀ (s : List StackFrame), GoodStack H R s → s ≠ [] →
    rootRpathD s = R := by
  intro s
  induction s with
  | nil =>
    intro _ h
    exact absurd rfl h
  | cons f rest ih =>
    intro hg _
    obtain ⟨hcan, hidx, hrp, hgrest⟩ := hg
    cases rest with
    | nil =>
      rw [rootRpathD]
      simp only [List.getLast?_singleton]
      rw [hrp]
      rfl
    | cons g rest' =>
      have := ih hgrest (by simp)
      rw [rootRpathD] at this ⊢
      rwa [List.getLast?_cons_cons]

theorem right_or_up_spec : ∀ (s : List StackFrame), GoodStack H R s →
    (afterAll s = [] → right_or_up s = none) ∧
    (∀ k v L', afterAll s = (k, v) :: L' →
      ∃ f' rest', right_or_up s = some (f' :: rest') ∧
        GoodStack H R (f' :: rest') ∧
        remainingKV (f' :: rest') = L' ∧
        lpathS f' = k ∧ lvalS f' = some v) := by
  intro s
  induction s with
  | nil =>
    intro _
    refine ⟨fun _ => by rw [right_or_up], fun k v L' h => ?_⟩
    rw [afterAll] at h
    cases h
  | cons f rest ih =>
    intro hg
    obtain ⟨⟨t, lo, hi, hc⟩, hidx, hrp, hgrest⟩ := hg
    obtain ⟨hslen, hvlen⟩ := canon_lengths hc
    by_cases hcgr : f.idx < f.node.keys.length
    · have hcgr' : can_go_right f = true := by
        rw [can_go_right]
        simp only [decide_eq_true_eq]
        omega
      rw [show afterAll (f :: rest) = frameAfter f ++ afterAll rest from rfl]
      rw [frameAfter_head f hvlen hcgr]
      constructor
      · intro h
        cases h
      · intro k v L' h
        rw [List.cons_append] at h
        injection h with h1 h2
        injection h1 with hk hv
        refine ⟨StackFrame.mk f.node f.lpath f.rpath (f.idx + 1), rest, ?_, ?_, ?_, ?_, ?_⟩
        · rw [right_or_up, if_pos hcgr']
        · exact ⟨⟨t, lo, hi, hc⟩, by simp; omega, hrp, hgrest⟩
        · rw [remainingKV, ← h2]
        · rw [lpathS]
          simp only [Nat.add_sub_cancel]
          rw [if_neg (by omega)]
          exact hk
        · rw [lvalS]
          simp only [Nat.add_sub_cancel]
          rw [if_neg (by omega)]
          rw [hv]
    · have hieq : f.idx = f.node.keys.length := by omega
      have hcgr' : can_go_right f = false := by
        rw [can_go_right]
        simp only [decide_eq_false_iff_not]
        omega
      have hafter : afterAll (f :: rest) = afterAll rest := by
        rw [show afterAll (f :: rest) = frameAfter f ++ afterAll rest from rfl]
        rw [frameAfter_nil f hvlen hieq, List.nil_append]
      rw [hafter]
      rw [show right_or_up (f :: rest) = right_or_up rest from by
        rw [right_or_up, if_neg (by rw [hcgr']; simp)]]
      exact ih hgrest

theorem descend_all_none {f : StackFrame} {rest : List StackFrame}
    (h : subtreeS f = none) : descend_all (f :: rest) = f :: rest := by
  rw [descend_all]
  split
  · rfl
  · rename_i sub h'
    rw [h] at h'
    cases h'

theorem descend_all_some {f : StackFrame} {rest : List StackFrame} {sub : MSTNode}
    (h : subtreeS f = some sub) :
    descend_all (f :: rest) =
      descend_all (StackFrame.mk sub (lpathS f) (rpathS f) 0 :: f :: rest) := by
  rw [descend_all]
  split
  · rename_i h'
    rw [h] at h'
    cases h'
  · rename_i sub' h'
    rw [h] at h'
    injection h' with h''
    rw [h'']

theorem descend_all_spec : ∀ (n : MSTNode) (lp rp : Key) (idx : Nat)
    (rest : List StackFrame),
    GoodStack H R (StackFrame.mk n lp rp idx :: rest) →
    ∃ f' rest', descend_all (StackFrame.mk n lp rp idx :: rest) = f' :: rest' ∧
      GoodStack H R (f' :: rest') ∧
      subtreeS f' = none ∧
      remainingKV (f' :: rest') = remainingKV (StackFrame.mk n lp rp idx :: rest) := by
  intro n
  induction n using MSTNode.strongInd with
  | step n ihn =>
    intro lp rp idx rest hg
    obtain ⟨⟨t, lo, hi, hc⟩, hidx, hrp, hgrest⟩ := hg
    cases hsub : subtreeS (StackFrame.mk n lp rp idx) with
    | none =>
      refine ⟨StackFrame.mk n lp rp idx, rest, descend_all_none hsub, ?_, hsub, rfl⟩
      exact ⟨⟨t, lo, hi, hc⟩, hidx, hrp, hgrest⟩
    | some sub =>
      have hcc := canon_subtreeS hc hidx
      rw [hsub] at hcc
      cases hcc with
      | some _ _ _ _ hpos hcsub hnesub =>
        have hsz : sizeOf sub < sizeOf n := sizeOf_subtreeS_lt hsub
        have hgood2 : GoodStack H R (StackFrame.mk sub
            (lpathS (StackFrame.mk n lp rp idx))
            (rpathS (StackFrame.mk n lp rp idx)) 0 :: StackFrame.mk n lp rp idx :: rest) := by
          refine ⟨⟨t - 1, _, _, hcsub⟩, by simp, ?_, ⟨t, lo, hi, hc⟩, hidx, hrp, hgrest⟩
          exact rpathS_headKey _ rest (canon_lengths hc).2 hidx hrp
        obtain ⟨f', rest', heq, hgood', hsub', hrem'⟩ :=
          ihn sub hsz (lpathS (StackFrame.mk n lp rp idx))
            (rpathS (StackFrame.mk n lp rp idx)) 0 (StackFrame.mk n lp rp idx :: rest)
            hgood2
        refine ⟨f', rest', ?_, hgood', hsub', ?_⟩
        · rw [descend_all_some hsub]
          exact heq
        · rw [hrem']
          rw [remainingKV, remainingKV]
          rw [show afterAll (StackFrame.mk n lp rp idx :: rest) =
            frameAfter (StackFrame.mk n lp rp idx) ++ afterAll rest from rfl]
          rw [frameRest_split (StackFrame.mk n lp rp idx) (canon_lengths hc).1
            (canon_lengths hc).2 hidx]
          rw [hsub]
          rw [show frameRest (StackFrame.mk sub (lpathS (StackFrame.mk n lp rp idx))
              (rpathS (StackFrame.mk n lp rp idx)) 0) = nodeContents sub from by
            simp [frameRest, nodeContents_eq]]
          simp

end WalkerLemmas
section WalkerIter

variable {H : Key → Nat} {R : Key}

theorem next_kv_spec (f : StackFrame) (rest : List StackFrame)
    (hg : GoodStack H R (f :: rest)) (k : Key) (v : Val) (L' : KVList)
    (hrem : remainingKV (f :: rest) = (k, v) :: L') :
    ∃ f' rest', next_kv (f :: rest) = some ((k, some v), f' :: rest') ∧
      GoodStack H R (f' :: rest') ∧ remainingKV (f' :: rest') = L' := by
  obtain ⟨n, lp, rp, idx⟩ := f
  obtain ⟨fd, restd, heqd, hgd, hsubd, hremd⟩ := descend_all_spec n lp rp idx rest hg
  have hgd' := hgd
  obtain ⟨⟨t, lo, hi, hc⟩, hidx, hrp, hgrest⟩ := hgd'
  have hAfter : afterAll (fd :: restd) = (k, v) :: L' := by
    have hsplit := frameRest_split fd (canon_lengths hc).1 (canon_lengths hc).2 hidx
    rw [hsubd, optContents_none, List.nil_append] at hsplit
    have heqa : remainingKV (fd :: restd) = afterAll (fd :: restd) := by
      rw [remainingKV, hsplit]
      rfl
    rw [← heqa, hremd, hrem]
  obtain ⟨f', rest', heq, hg', hrem', hlp, hlv⟩ :=
    (right_or_up_spec (fd :: restd) hgd).2 k v L' hAfter
  refine ⟨f', rest', ?_, hg', hrem'⟩
  rw [next_kv, heqd, heq]
  show some ((lpathS f', lvalS f'), f' :: rest') = some ((k, some v), f' :: rest')
  rw [hlp, hlv]

theorem final_of_remaining_nil (f : StackFrame) (rest : List StackFrame)
    (hg : GoodStack H R (f :: rest))
    (h : remainingKV (f :: rest) = []) : is_final (f :: rest) = true := by
  obtain ⟨⟨t, lo, hi, hc⟩, hidx, hrp, hgrest⟩ := hg
  have hsplit := frameRest_split f (canon_lengths hc).1 (canon_lengths hc).2 hidx
  rw [remainingKV] at h
  obtain ⟨hfr, hartail⟩ := List.append_eq_nil.mp h
  have hsubnone : subtreeS f = none := by
    cases hcs : subtreeS f with
    | none => rfl
    | some sub =>
      have hcc := canon_subtreeS hc hidx
      rw [hcs] at hcc
      cases hcc with
      | some _ _ _ _ hpos hcsub hnesub =>
        rw [hsplit, hcs, optContents_some] at hfr
        exact absurd (List.append_eq_nil.mp hfr).1 hnesub
  have hfa : frameAfter f = [] := by
    rw [hsplit, hsubnone, optContents_none, List.nil_append] at hfr
    exact hfr
  have hrps : rpathS f = R := by
    have hh := rpathS_headKey (R := R) f rest (canon_lengths hc).2 hidx hrp
    rw [show afterAll (f :: rest) = frameAfter f ++ afterAll rest from rfl,
      hfa, hartail] at hh
    exact hh
  rw [is_final, hsubnone, hrps,
    rootRpathD_eq (f :: rest) ⟨⟨t, lo, hi, hc⟩, hidx, hrp, hgrest⟩ (by simp)]
  simp

theorem not_final_of_remaining_cons (f : StackFrame) (rest : List StackFrame)
    (hg : GoodStack H R (f :: rest)) (k : Key) (v : Val) (L' : KVList)
    (hkR : keyLt k R)
    (h : remainingKV (f :: rest) = (k, v) :: L') : is_final (f :: rest) = false := by
  obtain ⟨⟨t, lo, hi, hc⟩, hidx, hrp, hgrest⟩ := hg
  rw [is_final]
  cases hcs : subtreeS f with
  | some sub => simp
  | none =>
    simp only [Option.isNone_none, Bool.true_and]
    have hsplit := frameRest_split f (canon_lengths hc).1 (canon_lengths hc).2 hidx
    rw [hcs, optContents_none, List.nil_append] at hsplit
    have hAfter : afterAll (f :: rest) = (k, v) :: L' := by
      rw [show afterAll (f :: rest) = frameAfter f ++ afterAll rest from rfl, ← hsplit]
      rw [remainingKV] at h
      exact h
    have hrps : rpathS f = k := by
      have hh := rpathS_headKey (R := R) f rest (canon_lengths hc).2 hidx hrp
      rw [hAfter] at hh
      exact hh
    rw [hrps, rootRpathD_eq (f :: rest) ⟨⟨t, lo, hi, hc⟩, hidx, hrp, hgrest⟩ (by simp)]
    have hne : k ≠ R := by
      intro he
      rw [he] at hkR
      simp [keyLt_irrefl] at hkR
    exact beq_eq_false_iff_ne.mpr hne

theorem iter_kv_correct : ∀ (n : Nat) (s : List StackFrame), GoodStack H R s →
    (∀ p ∈ remainingKV s, keyLt p.1 R) →
    (remainingKV s).length ≤ n →
    iter_kv (n + 1) s =
      some ((remainingKV s).map (fun p => (p.1, some p.2))) := by
  intro n
  induction n with
  | zero =>
    intro s hg hleg hlen
    have hnil : remainingKV s = [] := by
      cases hr : remainingKV s with
      | nil => rfl
      | cons a b =>
        rw [hr] at hlen
        simp at hlen
    rw [iter_kv]
    cases s with
    | nil =>
      rw [if_pos (show is_final [] = true from rfl), hnil]
      rfl
    | cons f rest =>
      rw [if_pos (final_of_remaining_nil f rest hg hnil), hnil]
      rfl
  | succ n ih =>
    intro s hg hleg hlen
    cases hr : remainingKV s with
    | nil =>
      rw [iter_kv]
      cases s with
      | nil =>
        rw [if_pos (show is_final [] = true from rfl)]
        rfl
      | cons f rest =>
        rw [if_pos (final_of_remaining_nil f rest hg hr)]
        rfl
    | cons kv L' =>
      cases s with
      | nil =>
        rw [remainingKV] at hr
        cases hr
      | cons f rest =>
        obtain ⟨k, v⟩ := kv
        have hkR : keyLt k R := by
          have hm := hleg (k, v) (by rw [hr]; exact List.mem_cons_self _ _)
          simpa using hm
        rw [iter_kv, if_neg (by
          rw [not_final_of_remaining_cons f rest hg k v L' hkR hr]
          simp)]
        obtain ⟨f', rest', heq, hg', hrem'⟩ := next_kv_spec f rest hg k v L' hr
        have hleg' : ∀ p ∈ remainingKV (f' :: rest'), keyLt p.1 R := by
          intro p hp
          rw [hrem'] at hp
          exact hleg p (by rw [hr]; exact List.mem_cons_of_mem _ hp)
        have hlen' : (remainingKV (f' :: rest')).length ≤ n := by
          rw [hrem']
          rw [hr] at hlen
          simpa using hlen
        rw [heq]
        show (match iter_kv (n + 1) (f' :: rest') with
          | none => none
          | some l => some ((k, some v) :: l)) =
          some (((k, v) :: L').map (fun p => (p.1, some p.2)))
        rw [ih (f' :: rest') hg' hleg' hlen']
        rw [hrem']
        rfl

end WalkerIter

/-- C6: Iteration order and completeness: on a canonical root whose keys are
legal paths (strictly below the `PATH_MAX` sentinel `"\xff"`), `iter_kv` on a
fresh walker yields exactly the logical contents of the tree — every stored
(key, value) pair once, in strictly ascending key order (the contents list is
`KVSorted`). -/
theorem claim_C6_iter_kv_order {root : MSTNode} (hr : rootCanon key_height root)
    (hleg : ∀ p ∈ nodeContents root, keyLt p.1 PATH_MAX) :
    iter_kv ((nodeContents root).length + 1)
        (walker_init (some root) PATH_MIN PATH_MAX) =
      some ((nodeContents root).map (fun p => (p.1, some p.2))) ∧
    KVSorted (nodeContents root) := by
  have hcan : ∃ t lo hi, Canon key_height t lo hi root := by
    rcases hr with rfl | ⟨t, hc, _⟩
    · exact ⟨0, none, none, canon_empty_root 0 none none trivial⟩
    · exact ⟨t, none, none, hc⟩
  have hginit : GoodStack key_height PATH_MAX
      (walker_init (some root) PATH_MIN PATH_MAX) := by
    rw [walker_init, get_node]
    exact ⟨hcan, Nat.zero_le _, rfl, trivial⟩
  have hreminit : remainingKV (walker_init (some root) PATH_MIN PATH_MAX) =
      nodeContents root := by
    rw [walker_init, get_node, remainingKV]
    rw [show afterAll [] = [] from rfl, List.append_nil]
    simp [frameRest, nodeContents_eq]
  constructor
  · have hh := iter_kv_correct (nodeContents root).length _ hginit
      (by rw [hreminit]; exact hleg) (le_of_eq (by rw [hreminit]))
    rwa [hreminit] at hh
  · rcases hr with rfl | ⟨t, hc, _⟩
    · rw [nodeContents_empty_root, KVSorted]
      exact List.Pairwise.nil
    · exact (canon_contents_facts root t none none hc).1

theorem claim_C6_iter_kv_order_witness :
    rootCanon key_height MSTNode.empty_root ∧
    (∀ p ∈ nodeContents MSTNode.empty_root, keyLt p.1 PATH_MAX) ∧
    (iter_kv ((nodeContents MSTNode.empty_root).length + 1)
        (walker_init (some MSTNode.empty_root) PATH_MIN PATH_MAX) =
      some ((nodeContents MSTNode.empty_root).map (fun p => (p.1, some p.2))) ∧
     KVSorted (nodeContents MSTNode.empty_root)) :=
  ⟨Or.inl rfl, by simp, claim_C6_iter_kv_order (Or.inl rfl) (by simp)⟩
/-! ### `find_rpath` correctness machinery (claim C7) -/

/-- Association lookup in a kv list (first match). -/
def lookupKV : KVList → Key → Option Val
  | [], _ => none
  | (k', v) :: rest, k => if k = k' then some v else lookupKV rest k

theorem lookupKV_absent (k : Key) : ∀ (L : KVList), (∀ p ∈ L, p.1 ≠ k) →
    lookupKV L k = none := by
  intro L
  induction L with
  | nil => intro _; rfl
  | cons p rest ih =>
    intro h
    rw [lookupKV, if_neg (fun he => h p (by simp) he.symm)]
    exact ih (fun x hx => h x (by simp [hx]))

theorem lookupKV_skip (k : Key) : ∀ (A B : KVList), (∀ a ∈ A, a.1 ≠ k) →
    lookupKV (A ++ B) k = lookupKV B k := by
  intro A
  induction A with
  | nil =>
    intro B _
    rw [List.nil_append]
  | cons a A' ih =>
    intro B h
    rw [List.cons_append, lookupKV, if_neg (fun he => h a (by simp) he.symm)]
    exact ih B (fun x hx => h x (by simp [hx]))

theorem lookupKV_append_miss (k : Key) : ∀ (B C : KVList), (∀ p ∈ C, p.1 ≠ k) →
    lookupKV (B ++ C) k = lookupKV B k := by
  intro B
  induction B with
  | nil =>
    intro C h
    rw [List.nil_append, lookupKV_absent k C h]
    rfl
  | cons b B' ih =>
    intro C h
    rw [List.cons_append, lookupKV, lookupKV]
    by_cases hkb : k = b.1
    · rw [if_pos hkb, if_pos hkb]
    · rw [if_neg hkb, if_neg hkb, ih C h]

section FindLemmas

variable {H : Key → Nat}

/-- A canonical tree with nonempty contents has height exactly its level
(keyless chain nodes included). -/
theorem canon_height_strong : ∀ (n : MSTNode) {t : Nat} {lo hi : Option Key},
    Canon H t lo hi n → nodeContents n ≠ [] → n.height H = t := by
  intro n
  induction n using MSTNode.strongInd with
  | step n ihn =>
    intro t lo hi hc hne
    cases hc with
    | mk _ _ _ keys vals subs hlen hks hsub =>
      cases keys with
      | cons k0 krest =>
        have hh : (MSTNode.mk (k0 :: krest) vals subs).height H = H k0 := rfl
        rw [hh]
        exact hks k0 (by simp)
      | nil =>
        cases hsub with
        | last _ _ _ c0 hlohi hc0 =>
          cases hc0 with
          | none => exact absurd (by simp [nodeContents_mk]) hne
          | some _ _ _ m hpos hcm hnem =>
            have hsz : sizeOf m < sizeOf (MSTNode.mk [] vals [some m]) :=
              sizeOf_some_mem_subs (by simp) [] vals
            have hh : m.height H = t - 1 := ihn m hsz hcm hnem
            have heq : (MSTNode.mk [] vals [some m]).height H = m.height H + 1 := rfl
            rw [heq, hh]
            omega

theorem find_right_terminal (node : MSTNode) (lp rp : Key) (k : Key)
    (hslen : node.subtrees.length = node.keys.length + 1)
    (idx : Nat) (hieq : idx = node.keys.length) :
    (find_right (StackFrame.mk node lp rp idx) k = none ∧ keyLt rp k) ∨
    (find_right (StackFrame.mk node lp rp idx) k =
        some (StackFrame.mk node lp rp idx) ∧
      keyLt (rpathS (StackFrame.mk node lp rp idx)) k = false) := by
  have hrps : rpathS (StackFrame.mk node lp rp idx) = rp := by
    simp [rpathS, hieq]
  rw [find_right]
  by_cases hlt : keyLt (rpathS (StackFrame.mk node lp rp idx)) k
  · rw [if_pos hlt]
    rw [dif_neg (show ¬(idx + 1 < node.subtrees.length) from by omega)]
    left
    exact ⟨rfl, by rwa [hrps] at hlt⟩
  · rw [if_neg hlt]
    right
    exact ⟨rfl, by simpa using hlt⟩

theorem find_right_spec (node : MSTNode) (lp rp : Key) (k : Key)
    (hslen : node.subtrees.length = node.keys.length + 1) :
    ∀ (d idx : Nat), node.keys.length - idx ≤ d → idx ≤ node.keys.length →
    (find_right (StackFrame.mk node lp rp idx) k = none ∧
      (∀ j, idx ≤ j → j < node.keys.length → keyLt (node.keys.getD j []) k) ∧
      keyLt rp k) ∨
    (∃ i, find_right (StackFrame.mk node lp rp idx) k =
        some (StackFrame.mk node lp rp i) ∧
      idx ≤ i ∧ i ≤ node.keys.length ∧
      (∀ j, idx ≤ j → j < i → keyLt (node.keys.getD j []) k) ∧
      keyLt (rpathS (StackFrame.mk node lp rp i)) k = false) := by
  intro d
  induction d with
  | zero =>
    intro idx hd hidx
    have hieq : idx = node.keys.length := by omega
    rcases find_right_terminal node lp rp k hslen idx hieq with ⟨h1, h2⟩ | ⟨h1, h2⟩
    · exact Or.inl ⟨h1, fun j hj1 hj2 => by omega, h2⟩
    · exact Or.inr ⟨idx, h1, Nat.le_refl _, hidx, fun j hj1 hj2 => by omega, h2⟩
  | succ d ih =>
    intro idx hd hidx
    by_cases hieq : idx = node.keys.length
    · rcases find_right_terminal node lp rp k hslen idx hieq with ⟨h1, h2⟩ | ⟨h1, h2⟩
      · exact Or.inl ⟨h1, fun j hj1 hj2 => by omega, h2⟩
      · exact Or.inr ⟨idx, h1, Nat.le_refl _, hidx, fun j hj1 hj2 => by omega, h2⟩
    · have hilt : idx < node.keys.length := by omega
      have hrps : rpathS (StackFrame.mk node lp rp idx) = node.keys.getD idx [] := by
        simp [rpathS, hieq]
      rw [find_right]
      by_cases hlt : keyLt (rpathS (StackFrame.mk node lp rp idx)) k
      · rw [if_pos hlt]
        rw [dif_pos (show idx + 1 < node.subtrees.length from by omega)]
        rcases ih (idx + 1) (by omega) (by omega) with ⟨h1, h2, h3⟩ |
          ⟨i, h1, h2, h3, h4, h5⟩
        · refine Or.inl ⟨h1, ?_, h3⟩
          intro j hj1 hj2
          rcases Nat.eq_or_lt_of_le hj1 with rfl | hj1'
          · rwa [← hrps]
          · exact h2 j (by omega) hj2
        · refine Or.inr ⟨i, h1, by omega, h3, ?_, h5⟩
          intro j hj1 hj2
          rcases Nat.eq_or_lt_of_le hj1 with rfl | hj1'
          · rwa [← hrps]
          · exact h4 j (by omega) hj2
      · rw [if_neg hlt]
        exact Or.inr ⟨idx, rfl, Nat.le_refl _, hidx, fun j hj1 hj2 => by omega,
          by simpa using hlt⟩

end FindLemmas
theorem ne_of_keyLt {a b : Key} (h : keyLt a b) : a ≠ b := by
  intro he
  rw [he] at h
  simp [keyLt_irrefl] at h

theorem postC_head (subs : List (Option MSTNode)) (keys : List Key) (vals : List Val)
    (i : Nat) (hvlen : vals.length = keys.length) (hi' : i < keys.length) :
    postC subs (keys.zip vals) i =
      (keys.getD i [], vals.getD i []) ::
        interleaveC (subs.drop (i + 1)) ((keys.zip vals).drop (i + 1)) := by
  rw [postC_eq_interleave]
  rw [drop_eq_getD_cons (keys.zip vals) i ([], []) (by rw [List.length_zip]; omega)]
  rw [interleaveC_cons_cons, optContents_none, List.nil_append]
  rw [zip_getD keys vals i ([], []) (by omega) hi']

theorem postC_nil (subs : List (Option MSTNode)) (kvs : KVList) (i : Nat)
    (h : kvs.length ≤ i) : postC subs kvs i = [] := by
  rw [postC, List.drop_eq_nil_of_le h]

section CanonNodeFacts

variable {H : Key → Nat}

theorem canon_keys_facts {t : Nat} {lo hi : Option Key} {n : MSTNode}
    (hc : Canon H t lo hi n) :
    n.keys.Pairwise (fun a b => keyLt a b) ∧
    ∀ x ∈ n.keys, OptLt lo (some x) ∧ OptLt (some x) hi := by
  cases hc with
  | mk _ _ _ keys vals subs hlen hks hsub =>
    simp only [MSTNode.keys_mk]
    exact subsCanon_keys_facts hsub

theorem canon_child {t : Nat} {lo hi : Option Key} {n : MSTNode}
    (hc : Canon H t lo hi n) (i : Nat) (hi' : i ≤ n.keys.length) :
    ChildCanon H t (boundAt lo n.keys i) (boundAt' n.keys hi i)
      (n.subtrees.getD i none) := by
  cases hc with
  | mk _ _ _ keys vals subs hlen hks hsub =>
    simp only [MSTNode.keys_mk, MSTNode.subtrees_mk] at hi' ⊢
    exact subsCanon_getD hsub i hi'

theorem canon_decomp {t : Nat} {lo hi : Option Key} {n : MSTNode}
    (hc : Canon H t lo hi n) (i : Nat) (hi' : i ≤ n.keys.length) :
    nodeContents n = preC n.subtrees (n.keys.zip n.vals) i ++
      optContents (n.subtrees.getD i none) ++
      postC n.subtrees (n.keys.zip n.vals) i := by
  have hl := canon_lengths hc
  rw [nodeContents_eq]
  exact interleave_decomp n.subtrees (n.keys.zip n.vals) i
    (by rw [List.length_zip]; omega) (by rw [List.length_zip]; omega)

theorem canon_seg_facts {t : Nat} {lo hi : Option Key} {n : MSTNode}
    (hc : Canon H t lo hi n) (i : Nat) (hi' : i ≤ n.keys.length) :
    ∀ p ∈ optContents (n.subtrees.getD i none),
      OptLt (boundAt lo n.keys i) (some p.1) ∧
      OptLt (some p.1) (boundAt' n.keys hi i) := by
  intro p hp
  have hcc := canon_child hc i hi'
  cases hcs : n.subtrees.getD i none with
  | none =>
    rw [hcs] at hp
    simp at hp
  | some m =>
    rw [hcs] at hp hcc
    cases hcc with
    | some _ _ _ _ hpos hcm hnem =>
      exact (canon_contents_facts m (t - 1) _ _ hcm).2.1 p (by simpa using hp)

theorem canon_preC_lt {t : Nat} {lo hi : Option Key} {n : MSTNode}
    (hc : Canon H t lo hi n) (i : Nat) (hi' : i ≤ n.keys.length) (x : Key)
    (hbef : ∀ j, j < i → keyLt (n.keys.getD j []) x) :
    ∀ p ∈ preC n.subtrees (n.keys.zip n.vals) i, keyLt p.1 x := by
  cases hc with
  | mk _ _ _ keys vals subs hlen hks hsub =>
    simp only [MSTNode.keys_mk, MSTNode.vals_mk, MSTNode.subtrees_mk] at hi' hbef ⊢
    cases i with
    | zero =>
      intro p hp
      rw [preC_zero] at hp
      cases hp
    | succ i' =>
      have hkf := subsCanon_keys_facts hsub
      have hlox : OptLt lo (some x) := by
        have h0 : OptLt lo (some (keys.getD 0 [])) :=
          (hkf.2 _ (getD_mem_of_lt keys 0 [] (by omega))).1
        exact OptLt_trans_mid h0 (hbef 0 (by omega))
      intro p hp
      rw [preC] at hp
      have hp' : p ∈ interleaveC (subs.take (i' + 1) ++ [none])
          ((keys.take (i' + 1)).zip (vals.take (i' + 1))) := by
        rw [zip_take]
        exact hp
      have hcf := (subsCanon_CF
        (subsCanon_take hsub (i' + 1) hi' none (ChildCanon.none _ _ _)
          (fun j hj => hbef j hj) hlox)
        (vals.take (i' + 1)) (by simp [List.length_take]; omega)
        (fun k' hk' => hks k' (List.take_subset _ _ hk'))).2.1 p hp'
      simpa using hcf.2

theorem canon_postC_gt {t : Nat} {lo hi : Option Key} {n : MSTNode}
    (hc : Canon H t lo hi n) (i : Nat) (hi' : i ≤ n.keys.length) (x : Key)
    (haft : ∀ j, i ≤ j → j < n.keys.length → keyLt x (n.keys.getD j []))
    (hxhi : OptLt (some x) hi) :
    ∀ p ∈ postC n.subtrees (n.keys.zip n.vals) i, keyLt x p.1 := by
  cases hc with
  | mk _ _ _ keys vals subs hlen hks hsub =>
    simp only [MSTNode.keys_mk, MSTNode.vals_mk, MSTNode.subtrees_mk] at hi' haft ⊢
    intro p hp
    have hp' : p ∈ interleaveC (none :: subs.drop (i + 1))
        ((keys.drop i).zip (vals.drop i)) := by
      rw [zip_drop, ← postC_eq_interleave]
      exact hp
    have hcf := (subsCanon_CF
      (subsCanon_drop hsub i hi' none (ChildCanon.none _ _ _) haft hxhi)
      (vals.drop i) (by simp [List.length_drop]; omega)
      (fun k' hk' => hks k' (List.drop_subset _ _ hk'))).2.1 p hp'
    simpa using hcf.1

end CanonNodeFacts
section FindSpec

variable {H : Key → Nat}

theorem find_rpath_cons (fuel : Nat) (f : StackFrame) (rest : List StackFrame)
    (key : Key) :
    find_rpath H (fuel + 1) (f :: rest) key =
      if H key > f.node.height H then some none
      else
        match find_right f key with
        | none => some none
        | some f' =>
          if rpathS f' == key then some (rvalS f')
          else
            match subtreeS f' with
            | none => some none
            | some sub =>
              find_rpath H fuel
                (StackFrame.mk sub (lpathS f') (rpathS f') 0 :: f' :: rest) key := by
  rw [find_rpath]

theorem find_rpath_spec :
    ∀ (t fl : Nat), t ≤ fl →
    ∀ (node : MSTNode) (lp rp : Key) (rest : List StackFrame) (lo hi : Option Key)
      (k : Key),
      Canon H t lo hi node → nodeContents node ≠ [] →
      (∀ p ∈ nodeContents node, keyLt p.1 rp) →
      find_rpath H (fl + 1) (StackFrame.mk node lp rp 0 :: rest) k =
        some (lookupKV (nodeContents node) k) := by
  intro t
  induction t using Nat.strong_induction_on with
  | _ t ih =>
    intro fl hfl node lp rp rest lo hi k hc hne hbound
    rw [find_rpath_cons]
    dsimp only
    rw [canon_height_strong node hc hne]
    by_cases hgt : H k > t
    · rw [if_pos hgt]
      have habs : ∀ p ∈ nodeContents node, p.1 ≠ k := by
        intro p hp hpk
        have hle := (canon_contents_facts node t lo hi hc).2.2 p hp
        rw [hpk] at hle
        omega
      rw [lookupKV_absent k _ habs]
    · rw [if_neg hgt]
      have hl := canon_lengths hc
      rcases find_right_spec node lp rp k hl.1 node.keys.length 0 (by omega)
          (by omega) with ⟨h1, h2, h3⟩ | ⟨i, h1, h2, h3, h4, h5⟩
      · rw [h1]
        have habs : ∀ p ∈ nodeContents node, p.1 ≠ k := by
          intro p hp hpk
          have hlt' := keyLt_trans (hbound p hp) h3
          rw [hpk] at hlt'
          simp [keyLt_irrefl] at hlt'
        rw [lookupKV_absent k _ habs]
      · rw [h1]
        dsimp only
        by_cases hEq : rpathS (StackFrame.mk node lp rp i) = k
        · rw [if_pos (by simp [hEq])]
          by_cases hil : i = node.keys.length
          · have hrps : rpathS (StackFrame.mk node lp rp i) = rp := by
              simp [rpathS, hil]
            have hrval : rvalS (StackFrame.mk node lp rp i) = none := by
              rw [rvalS, if_pos (show i = node.vals.length from by omega)]
            have habs : ∀ p ∈ nodeContents node, p.1 ≠ k := by
              intro p hp hpk
              have hb := hbound p hp
              have hkrp : k = rp := hEq.symm.trans hrps
              rw [hpk, hkrp] at hb
              simp [keyLt_irrefl] at hb
            rw [hrval, lookupKV_absent k _ habs]
          · have hilt : i < node.keys.length := by omega
            have hrps : rpathS (StackFrame.mk node lp rp i) =
                node.keys.getD i [] := by
              simp [rpathS, hil]
            have hkey : node.keys.getD i [] = k := by
              rw [← hrps]
              exact hEq
            have hrval : rvalS (StackFrame.mk node lp rp i) =
                some (node.vals.getD i []) := by
              rw [rvalS, if_neg (show ¬(i = node.vals.length) from by omega)]
            have hdecomp := canon_decomp hc i (by omega)
            have hpost := postC_head node.subtrees node.keys node.vals i hl.2 hilt
            have hpre := canon_preC_lt hc i (by omega) k
              (fun j hj => h4 j (by omega) hj)
            have hseg : ∀ p ∈ optContents (node.subtrees.getD i none),
                keyLt p.1 k := by
              intro p hp
              have hf := (canon_seg_facts hc i (by omega)) p hp
              have h2' := hf.2
              rw [show boundAt' node.keys hi i = some k from by
                rw [boundAt', if_pos hilt, hkey]] at h2'
              exact h2'
            rw [hrval, hdecomp, List.append_assoc]
            rw [lookupKV_skip k _ _ (fun a ha => ne_of_keyLt (hpre a ha))]
            rw [lookupKV_skip k _ _ (fun a ha => ne_of_keyLt (hseg a ha))]
            rw [hpost, lookupKV, if_pos hkey.symm]
        · rw [if_neg (by simp [hEq])]
          have hklt : keyLt k (rpathS (StackFrame.mk node lp rp i)) :=
            keyLt_of_ne_of_not_lt hEq (by simpa using h5)
          have hkfacts := canon_keys_facts hc
          cases hsb : subtreeS (StackFrame.mk node lp rp i) with
          | none =>
            have hsb' : node.subtrees.getD i none = none := hsb
            have hdecomp := canon_decomp hc i h3
            have hpre := canon_preC_lt hc i h3 k (fun j hj => h4 j (by omega) hj)
            have habs : ∀ p ∈ nodeContents node, p.1 ≠ k := by
              intro p hp
              rw [hdecomp] at hp
              rcases List.mem_append.mp hp with hp' | hp'
              · rcases List.mem_append.mp hp' with hp'' | hp''
                · exact ne_of_keyLt (hpre p hp'')
                · rw [hsb'] at hp''
                  simp at hp''
              · by_cases hil : i = node.keys.length
                · rw [postC_nil _ _ _ (by rw [List.length_zip]; omega)] at hp'
                  cases hp'
                · have hilt : i < node.keys.length := by omega
                  have hrps : rpathS (StackFrame.mk node lp rp i) =
                      node.keys.getD i [] := by
                    simp [rpathS, hil]
                  have hkik : keyLt k (node.keys.getD i []) := by
                    rwa [hrps] at hklt
                  have haft : ∀ j, i ≤ j → j < node.keys.length →
                      keyLt k (node.keys.getD j []) := by
                    intro j hj1 hj2
                    rcases Nat.eq_or_lt_of_le hj1 with rfl | hj1'
                    · exact hkik
                    · exact keyLt_trans hkik
                        (pairwise_getD_lt node.keys hkfacts.1 i j hj1' hj2)
                  have hxhi : OptLt (some k) hi :=
                    OptLt_trans_mid hkik
                      ((hkfacts.2 _ (getD_mem_of_lt node.keys i [] hilt)).2)
                  have hgt' := canon_postC_gt hc i h3 k haft hxhi p hp'
                  exact (ne_of_keyLt hgt').symm
            rw [lookupKV_absent k _ habs]
          | some sub =>
            dsimp only
            have hsb' : node.subtrees.getD i none = some sub := hsb
            have hcc := canon_child hc i h3
            rw [hsb'] at hcc
            cases hcc with
            | some _ _ _ _ hpos hcsub hnesub =>
              have hsubbound : ∀ p ∈ nodeContents sub,
                  keyLt p.1 (rpathS (StackFrame.mk node lp rp i)) := by
                intro p hp
                by_cases hil : i = node.keys.length
                · have hrps : rpathS (StackFrame.mk node lp rp i) = rp := by
                    simp [rpathS, hil]
                  rw [hrps]
                  apply hbound
                  rw [canon_decomp hc i h3]
                  exact List.mem_append.mpr (Or.inl (List.mem_append.mpr
                    (Or.inr (by rw [hsb']; simpa using hp))))
                · have hilt : i < node.keys.length := by omega
                  have hrps : rpathS (StackFrame.mk node lp rp i) =
                      node.keys.getD i [] := by
                    simp [rpathS, hil]
                  rw [hrps]
                  have hf := (canon_seg_facts hc i h3) p
                    (by rw [hsb']; simpa using hp)
                  have h2' := hf.2
                  rw [boundAt', if_pos hilt] at h2'
                  exact h2'
              obtain ⟨fl', rfl⟩ : ∃ fl', fl = fl' + 1 := ⟨fl - 1, by omega⟩
              rw [ih (t - 1) (by omega) fl' (by omega) sub
                (lpathS (StackFrame.mk node lp rp i))
                (rpathS (StackFrame.mk node lp rp i))
                (StackFrame.mk node lp rp i :: rest) _ _ k hcsub hnesub hsubbound]
              have hdecomp := canon_decomp hc i h3
              have hpre := canon_preC_lt hc i h3 k (fun j hj => h4 j (by omega) hj)
              rw [hdecomp, List.append_assoc]
              rw [lookupKV_skip k _ _ (fun a ha => ne_of_keyLt (hpre a ha))]
              rw [hsb', optContents_some]
              by_cases hil : i = node.keys.length
              · rw [postC_nil _ _ _ (by rw [List.length_zip]; omega), List.append_nil]
              · have hilt : i < node.keys.length := by omega
                have hrps : rpathS (StackFrame.mk node lp rp i) =
                    node.keys.getD i [] := by
                  simp [rpathS, hil]
                have hkik : keyLt k (node.keys.getD i []) := by
                  rwa [hrps] at hklt
                have haft : ∀ j, i ≤ j → j < node.keys.length →
                    keyLt k (node.keys.getD j []) := by
                  intro j hj1 hj2
                  rcases Nat.eq_or_lt_of_le hj1 with rfl | hj1'
                  · exact hkik
                  · exact keyLt_trans hkik
                      (pairwise_getD_lt node.keys hkfacts.1 i j hj1' hj2)
                have hxhi : OptLt (some k) hi :=
                  OptLt_trans_mid hkik
                    ((hkfacts.2 _ (getD_mem_of_lt node.keys i [] hilt)).2)
                have hpost := canon_postC_gt hc i h3 k haft hxhi
                rw [lookupKV_append_miss k _ _
                  (fun p hp => (ne_of_keyLt (hpost p hp)).symm)]

end FindSpec
theorem find_rpath_empty_root (k : Key) :
    find_rpath key_height 1
      [StackFrame.mk MSTNode.empty_root PATH_MIN PATH_MAX 0] k = some none := by
  rw [show (1 : Nat) = 0 + 1 from rfl, find_rpath_cons]
  by_cases hgt : key_height k >
      (StackFrame.mk MSTNode.empty_root PATH_MIN PATH_MAX 0).node.height key_height
  · rw [if_pos hgt]
  · rw [if_neg hgt]
    rcases find_right_terminal MSTNode.empty_root PATH_MIN PATH_MAX k rfl 0 rfl with
      ⟨h1, h2⟩ | ⟨h1, h2⟩
    · rw [h1]
    · rw [h1]
      dsimp only
      by_cases hEq : rpathS (StackFrame.mk MSTNode.empty_root PATH_MIN PATH_MAX 0) = k
      · rw [if_pos (by simp [hEq])]
        rfl
      · rw [if_neg (by simp [hEq])]
        rfl

theorem lookupKV_some_iff : ∀ (L : KVList), KVSorted L → ∀ (k : Key) (v : Val),
    (lookupKV L k = some v ↔ (k, v) ∈ L) := by
  intro L
  induction L with
  | nil =>
    intro _ k v
    simp [lookupKV]
  | cons p rest ih =>
    intro hs k v
    obtain ⟨k', v'⟩ := p
    have hs' : KVSorted rest := (List.pairwise_cons.mp hs).2
    have hhead := (List.pairwise_cons.mp hs).1
    rw [lookupKV]
    by_cases hk : k = k'
    · rw [if_pos hk]
      subst hk
      constructor
      · intro h
        injection h with h
        subst h
        exact List.mem_cons_self _ _
      · intro h
        rcases List.mem_cons.mp h with he | hm
        · injection he with h1 h2
          rw [h2]
        · have hlt := hhead (k, v) hm
          simp [keyLt_irrefl] at hlt
    · rw [if_neg hk]
      rw [ih hs' k v]
      constructor
      · exact fun h => List.mem_cons_of_mem _ h
      · intro h
        rcases List.mem_cons.mp h with he | hm
        · injection he with h1 h2
          exact absurd h1 hk
        · exact hm

theorem lookupKV_none_iff : ∀ (L : KVList) (k : Key),
    (lookupKV L k = none ↔ ∀ v, (k, v) ∉ L) := by
  intro L
  induction L with
  | nil =>
    intro k
    simp [lookupKV]
  | cons p rest ih =>
    intro k
    obtain ⟨k', v'⟩ := p
    rw [lookupKV]
    by_cases hk : k = k'
    · rw [if_pos hk]
      subst hk
      constructor
      · intro h
        cases h
      · intro h
        exact absurd (List.mem_cons_self _ _) (h v')
    · rw [if_neg hk]
      rw [ih k]
      constructor
      · intro h v hv
        rcases List.mem_cons.mp hv with he | hm
        · injection he with h1 h2
          exact hk h1
        · exact h v hm
      · intro h v hv
        exact h v (List.mem_cons_of_mem _ hv)

theorem mem_map_some_iff (L : KVList) (k : Key) (v : Val) :
    ((k, some v) ∈ L.map (fun p => (p.1, some p.2)) ↔ (k, v) ∈ L) := by
  constructor
  · intro h
    rcases List.mem_map.mp h with ⟨⟨p1, p2⟩, hp, he⟩
    injection he with h1 h2
    injection h2 with h2
    subst h1
    subst h2
    exact hp
  · intro h
    exact List.mem_map.mpr ⟨(k, v), h, rfl⟩

/-- C7: Point lookup via `find_rpath` agrees with iteration: on a canonical
root whose keys are legal paths (strictly below the `PATH_MAX` sentinel),
a fresh walker's full iteration yields a list `ys`, and for every key `k`,
`find_rpath` returns `some v` exactly when `(k, some v)` appears in `ys`,
and returns `None` (modelled `some none`) exactly when no pair for `k`
appears in `ys`. -/
theorem claim_C7_find_rpath_correct {root : MSTNode}
    (hr : rootCanon key_height root)
    (hleg : ∀ p ∈ nodeContents root, keyLt p.1 PATH_MAX) (k : Key) :
    ∃ ys, iter_kv ((nodeContents root).length + 1)
        (walker_init (some root) PATH_MIN PATH_MAX) = some ys ∧
      (∀ v, find_rpath key_height (root.height key_height + 1)
          (walker_init (some root) PATH_MIN PATH_MAX) k = some (some v) ↔
        (k, some v) ∈ ys) ∧
      (find_rpath key_height (root.height key_height + 1)
          (walker_init (some root) PATH_MIN PATH_MAX) k = some none ↔
        ∀ v, (k, some v) ∉ ys) := by
  refine ⟨(nodeContents root).map (fun p => (p.1, some p.2)), ?_, ?_⟩
  · have hcan : ∃ t lo hi, Canon key_height t lo hi root := by
      rcases hr with rfl | ⟨t, hc, _⟩
      · exact ⟨0, none, none, canon_empty_root 0 none none trivial⟩
      · exact ⟨t, none, none, hc⟩
    have hginit : GoodStack key_height PATH_MAX
        (walker_init (some root) PATH_MIN PATH_MAX) := by
      rw [walker_init, get_node]
      exact ⟨hcan, Nat.zero_le _, rfl, trivial⟩
    have hreminit : remainingKV (walker_init (some root) PATH_MIN PATH_MAX) =
        nodeContents root := by
      rw [walker_init, get_node, remainingKV]
      rw [show afterAll [] = [] from rfl, List.append_nil]
      simp [frameRest, nodeContents_eq]
    have hh := iter_kv_correct (nodeContents root).length _ hginit
      (by rw [hreminit]; exact hleg) (le_of_eq (by rw [hreminit]))
    rwa [hreminit] at hh
  · rcases hr with rfl | ⟨t, hc, hkeys⟩
    · rw [show walker_init (some MSTNode.empty_root) PATH_MIN PATH_MAX =
        [StackFrame.mk MSTNode.empty_root PATH_MIN PATH_MAX 0] from rfl]
      rw [show MSTNode.empty_root.height key_height + 1 = 1 from rfl]
      rw [find_rpath_empty_root k, nodeContents_empty_root]
      constructor
      · intro v
        constructor
        · intro h
          injection h with h
          cases h
        · intro h
          simp at h
      · constructor
        · intro _ v h
          simp at h
        · intro _
          rfl
    · have hne : nodeContents root ≠ [] := canon_contents_ne_nil hc hkeys
      have hfind : find_rpath key_height (root.height key_height + 1)
          (walker_init (some root) PATH_MIN PATH_MAX) k =
          some (lookupKV (nodeContents root) k) := by
        rw [canon_height_strong root hc hne]
        rw [show walker_init (some root) PATH_MIN PATH_MAX =
          [StackFrame.mk root PATH_MIN PATH_MAX 0] from rfl]
        exact find_rpath_spec t t (Nat.le_refl t) root PATH_MIN PATH_MAX []
          none none k hc hne hleg
      rw [hfind]
      have hsort : KVSorted (nodeContents root) :=
        (canon_contents_facts root t none none hc).1
      constructor
      · intro v
        constructor
        · intro h
          injection h with h
          exact (mem_map_some_iff _ k v).mpr
            ((lookupKV_some_iff _ hsort k v).mp h)
        · intro h
          rw [(lookupKV_some_iff _ hsort k v).mpr ((mem_map_some_iff _ k v).mp h)]
      · constructor
        · intro h v hv
          injection h with h
          rw [(lookupKV_some_iff _ hsort k v).mpr
            ((mem_map_some_iff _ k v).mp hv)] at h
          cases h
        · intro h
          have hnone : lookupKV (nodeContents root) k = none := by
            rw [lookupKV_none_iff]
            intro v hv
            exact h v ((mem_map_some_iff _ k v).mpr hv)
          rw [hnone]

theorem claim_C7_find_rpath_correct_witness :
    rootCanon key_height MSTNode.empty_root ∧
    (∀ p ∈ nodeContents MSTNode.empty_root, keyLt p.1 PATH_MAX) ∧
    ∃ ys, iter_kv ((nodeContents MSTNode.empty_root).length + 1)
        (walker_init (some MSTNode.empty_root) PATH_MIN PATH_MAX) = some ys ∧
      (∀ v, find_rpath key_height (MSTNode.empty_root.height key_height + 1)
          (walker_init (some MSTNode.empty_root) PATH_MIN PATH_MAX) [0] =
            some (some v) ↔ ([0], some v) ∈ ys) ∧
      (find_rpath key_height (MSTNode.empty_root.height key_height + 1)
          (walker_init (some MSTNode.empty_root) PATH_MIN PATH_MAX) [0] =
            some none ↔ ∀ v, ([0], some v) ∉ ys) :=
  ⟨Or.inl rfl, by simp, claim_C7_find_rpath_correct (Or.inl rfl) (by simp) [0]⟩
/-! ### Node serialisation (`src/mst.py` `MSTNode.serialised` / `MSTNode.deserialise`,
claim C3).  Keys are modelled at the byte level (`Key = List Nat`), collapsing
Python's `str.encode`/`bytes.decode`; CIDs are modelled by the nodes they
address, and the CBOR layer (an injective, canonical external encoder whose
`"e"`/`"l"` and `"k"/"p"/"t"/"v"` map shapes are enforced structurally here) is
represented by the structured values themselves. -/

/-- `ilen(takewhile(bool, map(operator.eq, prev_key, key_bytes)))`: the length
of the longest common prefix of two byte strings. -/
def sharedPrefixLen : Key → Key → Nat
  | a :: as, b :: bs => if a = b then sharedPrefixLen as bs + 1 else 0
  | _, _ => 0

/-- One entry of the `"e"` list of a serialised node: fields `k` (key suffix),
`p` (shared prefix length), `t` (right subtree) and `v` (value). -/
structure SerEntry where
  k : Key
  p : Nat
  t : Option MSTNode
  v : Val

/-- The serialised node structure `{"e": e, "l": subtrees[0]}`. -/
structure SerNode where
  l : Option MSTNode
  e : List SerEntry

/-- The entry-building loop of `MSTNode.serialised`
(`zip(self.subtrees[1:], self.keys, self.vals)` with running `prev_key`). -/
def serialiseEntries : Key → List (Option MSTNode) → List Key → List Val →
    List SerEntry
  | prev, t :: ts, key :: ks, v :: vs =>
    SerEntry.mk (key.drop (sharedPrefixLen prev key)) (sharedPrefixLen prev key)
        t v :: serialiseEntries key ts ks vs
  | _, _, _, _ => []

/-- `MSTNode.serialised`; `none` models the `IndexError` on `subtrees[0]`
(unreachable for dataclass-valid nodes, whose subtree tuple is nonempty). -/
def MSTNode.serialised : MSTNode → Option SerNode
  | .mk _ _ [] => none
  | .mk keys vals (s0 :: rest) =>
    some (SerNode.mk s0 (serialiseEntries [] rest keys vals))

/-- The entry-reading loop of `MSTNode.deserialise`; `none` models the raised
`ValueError`s ("invalid MST key prefix len", "non-optimal MST key prefix len",
"invalid MST key sort order"). -/
def deserialiseEntries : Key → List SerEntry →
    Option (List Key × List Val × List (Option MSTNode))
  | _, [] => some ([], [], [])
  | prev, SerEntry.mk suffix p t v :: rest =>
    if p > prev.length then none
    else if (prev.drop p).take 1 = suffix.take 1 then none
    else if keyLe (prev.take p ++ suffix) prev then none
    else
      match deserialiseEntries (prev.take p ++ suffix) rest with
      | none => none
      | some (ks, vs, ts) =>
        some ((prev.take p ++ suffix) :: ks, v :: vs, t :: ts)

/-- `MSTNode.deserialise` (starting from `subtrees = [cbor["l"]]` and
`prev_key = b""`). -/
def MSTNode.deserialise (s : SerNode) : Option MSTNode :=
  match deserialiseEntries [] s.e with
  | none => none
  | some (ks, vs, ts) => some (MSTNode.mk ks vs (s.l :: ts))

theorem sharedPrefixLen_le_left : ∀ (a b : Key), sharedPrefixLen a b ≤ a.length := by
  intro a
  induction a with
  | nil =>
    intro b
    cases b <;> simp [sharedPrefixLen]
  | cons x as ih =>
    intro b
    cases b with
    | nil => simp [sharedPrefixLen]
    | cons y bs =>
      rw [sharedPrefixLen]
      by_cases h : x = y
      · rw [if_pos h]
        have := ih bs
        simp only [List.length_cons]
        omega
      · rw [if_neg h]
        simp

theorem sharedPrefixLen_le_right : ∀ (a b : Key), sharedPrefixLen a b ≤ b.length := by
  intro a
  induction a with
  | nil =>
    intro b
    cases b <;> simp [sharedPrefixLen]
  | cons x as ih =>
    intro b
    cases b with
    | nil => simp [sharedPrefixLen]
    | cons y bs =>
      rw [sharedPrefixLen]
      by_cases h : x = y
      · rw [if_pos h]
        have := ih bs
        simp only [List.length_cons]
        omega
      · rw [if_neg h]
        simp

theorem sharedPrefixLen_take_eq : ∀ (a b : Key),
    a.take (sharedPrefixLen a b) = b.take (sharedPrefixLen a b) := by
  intro a
  induction a with
  | nil =>
    intro b
    cases b <;> simp [sharedPrefixLen]
  | cons x as ih =>
    intro b
    cases b with
    | nil => simp [sharedPrefixLen]
    | cons y bs =>
      rw [sharedPrefixLen]
      by_cases h : x = y
      · rw [if_pos h, List.take_succ_cons, List.take_succ_cons, h, ih bs]
      · rw [if_neg h]
        simp

theorem sharedPrefixLen_reconstruct (a b : Key) :
    a.take (sharedPrefixLen a b) ++ b.drop (sharedPrefixLen a b) = b := by
  rw [sharedPrefixLen_take_eq a b, List.take_append_drop]

theorem sharedPrefixLen_next_ne : ∀ (a b : Key), keyLt a b →
    (a.drop (sharedPrefixLen a b)).take 1 ≠ (b.drop (sharedPrefixLen a b)).take 1 := by
  intro a
  induction a with
  | nil =>
    intro b hb
    cases b with
    | nil => simp [keyLt] at hb
    | cons y bs =>
      intro h
      rw [show sharedPrefixLen [] (y :: bs) = 0 from rfl] at h
      simp at h
  | cons x as ih =>
    intro b hb
    cases b with
    | nil => simp [keyLt] at hb
    | cons y bs =>
      by_cases hxy : x = y
      · subst hxy
        rw [show sharedPrefixLen (x :: as) (x :: bs) = sharedPrefixLen as bs + 1 from by
          rw [sharedPrefixLen, if_pos (show x = x from rfl)]]
        rw [List.drop_succ_cons, List.drop_succ_cons]
        apply ih bs
        rw [keyLt] at hb
        simp only [lt_irrefl, if_false, gt_iff_lt] at hb
        exact hb
      · rw [show sharedPrefixLen (x :: as) (y :: bs) = 0 from by
          rw [sharedPrefixLen, if_neg hxy]]
        rw [List.drop_zero, List.drop_zero]
        intro h
        simp at h
        exact hxy h

theorem sharedPrefixLen_take_append : ∀ (p : Nat) (a suffix : Key),
    p ≤ a.length → (a.drop p).take 1 ≠ suffix.take 1 →
    sharedPrefixLen a (a.take p ++ suffix) = p := by
  intro p
  induction p with
  | zero =>
    intro a suffix hp hne
    rw [List.drop_zero] at hne
    rw [List.take_zero, List.nil_append]
    cases a with
    | nil =>
      cases suffix <;> rfl
    | cons x as =>
      cases suffix with
      | nil => rfl
      | cons y bs =>
        rw [sharedPrefixLen, if_neg (fun hxy => hne (by simp [hxy]))]
  | succ p ih =>
    intro a suffix hp hne
    cases a with
    | nil => simp at hp
    | cons x as =>
      rw [List.take_succ_cons, List.cons_append]
      rw [sharedPrefixLen, if_pos (show x = x from rfl)]
      rw [ih as suffix (by simpa using hp) (by simpa using hne)]

theorem drop_take_append (a suffix : Key) (p : Nat) (hp : p ≤ a.length) :
    (a.take p ++ suffix).drop p = suffix := by
  have hl : (a.take p).length = p := by
    rw [List.length_take]
    omega
  calc (a.take p ++ suffix).drop p
      = (a.take p ++ suffix).drop (a.take p).length := by rw [hl]
    _ = suffix := List.drop_left _ _

theorem deserialise_serialise_entries :
    ∀ (ks : List Key) (ts : List (Option MSTNode)) (vs : List Val) (prev : Key),
      ts.length = ks.length → vs.length = ks.length →
      List.Chain (fun a b : Key => keyLt a b) prev ks →
      deserialiseEntries prev (serialiseEntries prev ts ks vs) =
        some (ks, vs, ts) := by
  intro ks
  induction ks with
  | nil =>
    intro ts vs prev hts hvs _
    rw [List.length_eq_zero.mp hts, List.length_eq_zero.mp hvs]
    rfl
  | cons k ks' ih =>
    intro ts vs prev hts hvs hchain
    cases ts with
    | nil => simp at hts
    | cons t ts' =>
      cases vs with
      | nil => simp at hvs
      | cons v vs' =>
        obtain ⟨hpk, hchain'⟩ := List.chain_cons.mp hchain
        rw [serialiseEntries, deserialiseEntries]
        rw [if_neg (show ¬(sharedPrefixLen prev k > prev.length) from by
          have := sharedPrefixLen_le_left prev k
          omega)]
        rw [if_neg (sharedPrefixLen_next_ne prev k hpk)]
        rw [sharedPrefixLen_reconstruct prev k]
        rw [if_neg (show ¬(keyLe k prev = true) from by simp [keyLe, hpk])]
        rw [ih ts' vs' k (by simpa using hts) (by simpa using hvs) hchain']

theorem serialise_deserialise_entries :
    ∀ (e : List SerEntry) (prev : Key) (ks : List Key) (vs : List Val)
      (ts : List (Option MSTNode)),
      deserialiseEntries prev e = some (ks, vs, ts) →
      serialiseEntries prev ts ks vs = e := by
  intro e
  induction e with
  | nil =>
    intro prev ks vs ts h
    rw [deserialiseEntries] at h
    injection h with h
    injection h with hks h
    injection h with hvs hts
    rw [← hks, ← hvs, ← hts]
    rfl
  | cons entry rest ih =>
    intro prev ks vs ts h
    obtain ⟨suffix, p, t, v⟩ := entry
    rw [deserialiseEntries] at h
    by_cases h1 : p > prev.length
    · rw [if_pos h1] at h
      cases h
    · rw [if_neg h1] at h
      by_cases h2 : (prev.drop p).take 1 = suffix.take 1
      · rw [if_pos h2] at h
        cases h
      · rw [if_neg h2] at h
        by_cases h3 : keyLe (prev.take p ++ suffix) prev = true
        · rw [if_pos h3] at h
          cases h
        · rw [if_neg h3] at h
          cases hrec : deserialiseEntries (prev.take p ++ suffix) rest with
          | none =>
            rw [hrec] at h
            cases h
          | some res =>
            rw [hrec] at h
            obtain ⟨ks', vs', ts'⟩ := res
            injection h with h
            injection h with hks h
            injection h with hvs hts
            rw [← hks, ← hvs, ← hts]
            rw [serialiseEntries]
            rw [sharedPrefixLen_take_append p prev suffix (by omega) h2]
            rw [drop_take_append prev suffix p (by omega)]
            rw [ih (prev.take p ++ suffix) ks' vs' ts' hrec]

theorem deserialise_serialised (n : MSTNode)
    (hlen : n.subtrees.length = n.keys.length + 1)
    (hvlen : n.vals.length = n.keys.length)
    (hasc : List.Chain' (fun a b : Key => keyLt a b) n.keys)
    (hne : ∀ k ∈ n.keys, k ≠ ([] : Key)) :
    (MSTNode.serialised n).bind MSTNode.deserialise = some n := by
  cases n with
  | mk keys vals subs =>
    simp only [MSTNode.keys_mk, MSTNode.vals_mk, MSTNode.subtrees_mk] at hlen hvlen hasc hne
    cases subs with
    | nil => simp at hlen
    | cons s0 rest =>
      have hchain : List.Chain (fun a b : Key => keyLt a b) [] keys := by
        cases keys with
        | nil => exact List.Chain.nil
        | cons k0 ks =>
          have hk0 : k0 ≠ ([] : Key) := hne k0 (by simp)
          cases k0 with
          | nil => exact absurd rfl hk0
          | cons x xs => exact List.Chain.cons rfl hasc
      rw [MSTNode.serialised, Option.some_bind, MSTNode.deserialise]
      dsimp only
      rw [deserialise_serialise_entries keys rest vals []
        (by simp at hlen ⊢; omega) hvlen hchain]

theorem serialised_deserialise (s : SerNode) (m : MSTNode)
    (h : MSTNode.deserialise s = some m) : MSTNode.serialised m = some s := by
  obtain ⟨l, e⟩ := s
  rw [MSTNode.deserialise] at h
  dsimp only at h
  cases hrec : deserialiseEntries [] e with
  | none =>
    rw [hrec] at h
    cases h
  | some res =>
    rw [hrec] at h
    obtain ⟨ks, vs, ts⟩ := res
    injection h with h
    rw [← h]
    rw [MSTNode.serialised]
    rw [serialise_deserialise_entries e [] ks vs ts hrec]

/-- C3 (amended): the serialisation round-trip holds for valid nodes all of
whose keys are nonempty: `deserialise (serialised N) = N` whenever N has
consistent lengths, strictly ascending keys and no empty key, and for every
structured byte form accepted by `deserialise`, re-serialising the result
reproduces it exactly (the parser rejects non-maximal prefix lengths, so the
accepted form is canonical).  The original claim, quantified over all valid
nodes, fails at a node whose (first) key is the empty string — see the
counterexample theorem. -/
theorem claim_C3_serialisation_roundtrip (n : MSTNode) (s : SerNode)
    (hlen : n.subtrees.length = n.keys.length + 1)
    (hvlen : n.vals.length = n.keys.length)
    (hasc : List.Chain' (fun a b : Key => keyLt a b) n.keys)
    (hne : ∀ k ∈ n.keys, k ≠ ([] : Key)) :
    (MSTNode.serialised n).bind MSTNode.deserialise = some n ∧
    (∀ m, MSTNode.deserialise s = some m → MSTNode.serialised m = some s) :=
  ⟨deserialise_serialised n hlen hvlen hasc hne,
   fun m h => serialised_deserialise s m h⟩

/-- The original C3 statement is refuted by the valid node with the single
(empty) key `""`: its serialised form has first entry `{"k": b"", "p": 0}`,
which `deserialise` rejects with "non-optimal MST key prefix len"
(`prev_key[0:1] == b"" == suffix[:1]`), so the round-trip returns an error
instead of the node. -/
theorem claim_C3_serialisation_roundtrip_counterexample :
    (MSTNode.mk [[]] [[0]] [none, none]).subtrees.length =
      (MSTNode.mk [[]] [[0]] [none, none]).keys.length + 1 ∧
    (MSTNode.mk [[]] [[0]] [none, none]).vals.length =
      (MSTNode.mk [[]] [[0]] [none, none]).keys.length ∧
    List.Chain' (fun a b : Key => keyLt a b)
      (MSTNode.mk [[]] [[0]] [none, none]).keys ∧
    (MSTNode.serialised (MSTNode.mk [[]] [[0]] [none, none])).bind
      MSTNode.deserialise = none :=
  ⟨rfl, rfl, by simp, rfl⟩

theorem claim_C3_serialisation_roundtrip_witness :
    (MSTNode.mk [[0]] [[7]] [none, none]).subtrees.length =
      (MSTNode.mk [[0]] [[7]] [none, none]).keys.length + 1 ∧
    (MSTNode.mk [[0]] [[7]] [none, none]).vals.length =
      (MSTNode.mk [[0]] [[7]] [none, none]).keys.length ∧
    List.Chain' (fun a b : Key => keyLt a b)
      (MSTNode.mk [[0]] [[7]] [none, none]).keys ∧
    (∀ k ∈ (MSTNode.mk [[0]] [[7]] [none, none]).keys, k ≠ ([] : Key)) ∧
    ((MSTNode.serialised (MSTNode.mk [[0]] [[7]] [none, none])).bind
        MSTNode.deserialise = some (MSTNode.mk [[0]] [[7]] [none, none]) ∧
      (∀ m, MSTNode.deserialise (SerNode.mk none [SerEntry.mk [0] 0 none [7]]) =
          some m →
        MSTNode.serialised m = some (SerNode.mk none [SerEntry.mk [0] 0 none [7]]))) :=
  ⟨rfl, rfl, by simp, by simp,
   claim_C3_serialisation_roundtrip (MSTNode.mk [[0]] [[7]] [none, none])
     (SerNode.mk none [SerEntry.mk [0] 0 none [7]]) rfl rfl (by simp) (by simp)⟩
/-! ### Tree diffing (`diff.py`, claim C2).  CIDs are modelled by the nodes
they address, so Python's CID equality (and the dataclass equality of
`MSTNode`, whose fields hold CIDs) is structural node equality; `set`s of CIDs
are modelled as lists compared up to membership.  The walker-mutating calls
`right`/`down` return `none` for the `Exception`s they raise. -/

mutual

/-- Structural equality of nodes (Python `MSTNode.__eq__` via the frozen
dataclass, with subtree CIDs compared by content). -/
def MSTNode.beq : MSTNode → MSTNode → Bool
  | .mk k1 v1 s1, .mk k2 v2 s2 => k1 == k2 && v1 == v2 && subsBeq s1 s2

def subsBeq : List (Option MSTNode) → List (Option MSTNode) → Bool
  | [], [] => true
  | none :: xs, none :: ys => subsBeq xs ys
  | some a :: xs, some b :: ys => MSTNode.beq a b && subsBeq xs ys
  | _, _ => false

end

instance : BEq MSTNode := ⟨MSTNode.beq⟩

/-- The walker's current frame `self.stack[-1]` (the default is unreachable:
every walker the diff code builds has a nonempty stack). -/
def frameD (s : List StackFrame) : StackFrame :=
  s.headD (StackFrame.mk MSTNode.empty_root PATH_MIN PATH_MAX 0)

/-- property `NodeWalker.rpath` of the walker state. -/
def rpathW (s : List StackFrame) : Key := rpathS (frameD s)

/-- property `NodeWalker.lpath` of the walker state. -/
def lpathW (s : List StackFrame) : Key := lpathS (frameD s)

/-- property `NodeWalker.subtree` of the walker state. -/
def subtreeW (s : List StackFrame) : Option MSTNode := subtreeS (frameD s)

/-- `self.frame.node` of the walker state. -/
def nodeW (s : List StackFrame) : MSTNode := (frameD s).node

/-- `NodeWalker.right`: `none` models the raised
`Exception("cursor is already at rightmost position in node")`. -/
def wRight (s : List StackFrame) : Option (List StackFrame) :=
  match s with
  | [] => none
  | f :: rest =>
    if can_go_right f then
      some (StackFrame.mk f.node f.lpath f.rpath (f.idx + 1) :: rest)
    else none

/-- `NodeWalker.down`: `none` models the raised `Exception` when the subtree
at the cursor is `None` (or the stack is empty). -/
def wDown (s : List StackFrame) : Option (List StackFrame) :=
  match s with
  | [] => none
  | f :: rest =>
    match subtreeS f with
    | none => none
    | some sub => some (StackFrame.mk sub (lpathS f) (rpathS f) 0 :: f :: rest)

/-- The loop of `NodeWalker.iter_nodes` after the initial yield (`while not
is_final: while subtree: down(), yield node; right_or_up()`), fuelled; the
yielded nodes are returned in order.  `none` is fuel exhaustion or the
(unreachable when not final) `StopIteration` of `right_or_up`. -/
def iter_nodes_go : Nat → List StackFrame → Option (List MSTNode)
  | 0, _ => none
  | fuel + 1, s =>
    if is_final s then some []
    else
      match s with
      | [] => some []
      | f :: rest =>
        match subtreeS f with
        | some sub =>
          match iter_nodes_go fuel
              (StackFrame.mk sub (lpathS f) (rpathS f) 0 :: f :: rest) with
          | none => none
          | some l => some (sub :: l)
        | none =>
          match right_or_up (f :: rest) with
          | none => none
          | some s' => iter_nodes_go fuel s'

/-- `NodeWalker.iter_node_cids` (which first yields `self.frame.node`). -/
def iter_node_cids_f (fuel : Nat) (s : List StackFrame) : Option (List MSTNode) :=
  match s with
  | [] => none
  | f :: _ =>
    match iter_nodes_go fuel s with
    | none => none
    | some l => some (f.node :: l)

/-- Outcomes of the raising operations in `_mst_diff_recursive`: `crash` is a
raised `Exception` from `NodeWalker.right`/`down`, `fuelOut` is exhaustion of
the step bound (not a behaviour of the Python code). -/
inductive DiffE
  | crash
  | fuelOut

/-- One catch-up loop of `_mst_diff_recursive`
(`while x.rpath < target and not x.is_final: down-collecting or right`);
returns the nodes added by the `down()` branches and the final walker state. -/
def catchup : Nat → Key → List MSTNode → List StackFrame →
    Except DiffE (List MSTNode × List StackFrame)
  | 0, _, _, _ => .error .fuelOut
  | fuel + 1, target, acc, s =>
    if keyLt (rpathW s) target && !(is_final s) then
      match subtreeW s with
      | some sub =>
        match wDown s with
        | none => .error .crash
        | some s' => catchup fuel target (acc ++ [sub]) s'
      | none =>
        match wRight s with
        | none => .error .crash
        | some s' => catchup fuel target acc s'
    else .ok (acc, s)

/-- The `while a.rpath != b.rpath` loop of `_mst_diff_recursive`: alternately
catch up cursor `a` (collecting into `deleted`) and cursor `b` (collecting
into `created`). -/
def matchUp : Nat → List MSTNode → List MSTNode → List StackFrame →
    List StackFrame →
    Except DiffE (List MSTNode × List MSTNode × List StackFrame × List StackFrame)
  | 0, _, _, _, _ => .error .fuelOut
  | fuel + 1, created, deleted, sa, sb =>
    if rpathW sa == rpathW sb then .ok (created, deleted, sa, sb)
    else
      match catchup fuel (rpathW sb) [] sa with
      | .error e => .error e
      | .ok (dl, sa') =>
        match catchup fuel (rpathW sa') [] sb with
        | .error e => .error e
        | .ok (cr, sb') => matchUp fuel (created ++ cr) (deleted ++ dl) sa' sb'

mutual

/-- `_mst_diff_recursive` (fuelled).  The accumulating `created`/`deleted`
sets are lists (their set character is restored by `mst_diff`'s final
membership filters). -/
def mstDiffRec : Nat → List MSTNode → List MSTNode → List StackFrame →
    List StackFrame → Except DiffE (List MSTNode × List MSTNode)
  | 0, _, _, _, _ => .error .fuelOut
  | fuel + 1, created, deleted, sa, sb =>
    if nodeW sa == nodeW sb then .ok (created, deleted)
    else if (nodeW sa).is_empty then
      match iter_node_cids_f fuel sb with
      | none => .error .fuelOut
      | some l => .ok (created ++ l, deleted)
    else if (nodeW sb).is_empty then
      match iter_node_cids_f fuel sa with
      | none => .error .fuelOut
      | some l => .ok (created, deleted ++ l)
    else
      diffLoop fuel (created ++ [nodeW sb]) (deleted ++ [nodeW sa]) sa sb

/-- The `while True` loop of `_mst_diff_recursive`: match the cursors up,
recurse into the subtree walkers, stop when both cursors sit at their root
rpath, otherwise step both right (which raises — `crash` — at the rightmost
position of a node). -/
def diffLoop : Nat → List MSTNode → List MSTNode → List StackFrame →
    List StackFrame → Except DiffE (List MSTNode × List MSTNode)
  | 0, _, _, _, _ => .error .fuelOut
  | fuel + 1, created, deleted, sa, sb =>
    match matchUp fuel created deleted sa sb with
    | .error e => .error e
    | .ok (cr1, dl1, sa1, sb1) =>
      match mstDiffRec fuel cr1 dl1
          (walker_init (subtreeW sa1) (lpathW sa1) (rpathW sa1))
          (walker_init (subtreeW sb1) (lpathW sb1) (rpathW sb1)) with
      | .error e => .error e
      | .ok (cr2, dl2) =>
        if rpathW sa1 == rootRpathD sa1 && rpathW sb1 == rootRpathD sb1 then
          .ok (cr2, dl2)
        else
          match wRight sa1 with
          | none => .error .crash
          | some sa2 =>
            match wRight sb1 with
            | none => .error .crash
            | some sb2 => diffLoop fuel cr2 dl2 sa2 sb2

end

/-- `mst_diff`: run the recursive diff from fresh walkers, remove the
`middle` false-positives, and apply the empty-root special cases. -/
def mst_diff (fuel : Nat) (root_a root_b : MSTNode) :
    Except DiffE (List MSTNode × List MSTNode) :=
  match mstDiffRec fuel [] [] (walker_init (some root_a) PATH_MIN PATH_MAX)
      (walker_init (some root_b) PATH_MIN PATH_MAX) with
  | .error e => .error e
  | .ok (created, deleted) =>
    let middle := created.filter (fun x => deleted.contains x)
    let created' := created.filter (fun x => !(middle.contains x))
    let deleted' := deleted.filter (fun x => !(middle.contains x))
    let deleted'' := if root_a == MSTNode.empty_root && !(root_b == MSTNode.empty_root)
      then deleted' ++ [MSTNode.empty_root] else deleted'
    let created'' := if root_b == MSTNode.empty_root && !(root_a == MSTNode.empty_root)
      then created' ++ [MSTNode.empty_root] else created'
    .ok (created'', deleted'')

/-- `very_slow_mst_diff`: enumerate all nodes of both trees and return the
two set differences `(b_nodes - a_nodes, a_nodes - b_nodes)`. -/
def very_slow_mst_diff (fuel : Nat) (root_a root_b : MSTNode) :
    Option (List MSTNode × List MSTNode) :=
  match iter_node_cids_f fuel (walker_init (some root_a) PATH_MIN PATH_MAX),
        iter_node_cids_f fuel (walker_init (some root_b) PATH_MIN PATH_MAX) with
  | some an, some bn =>
    some (bn.filter (fun x => !(an.contains x)), an.filter (fun x => !(bn.contains x)))
  | _, _ => none
/-- Recover `key_height` from bounds on the digest value (`Nat.size` is
bit length). -/
theorem key_height_of_size (key : Key) (s : Nat) (hs : 0 < s)
    (h1 : bytesToNatBE (sha256 key) < 2 ^ s)
    (h2 : 2 ^ (s - 1) ≤ bytesToNatBE (sha256 key)) :
    key_height key = (256 - s) / 2 := by
  have ha : Nat.size (bytesToNatBE (sha256 key)) ≤ s := Nat.size_le.mpr h1
  have hb : s - 1 < Nat.size (bytesToNatBE (sha256 key)) := Nat.lt_size.mpr h2
  have hsz : Nat.size (bytesToNatBE (sha256 key)) = s := by omega
  rw [key_height, hsz]

set_option maxRecDepth 100000 in
theorem key_height_key0 : key_height [0] = 0 :=
  key_height_of_size [0] 255 (by omega) (by decide) (by decide)

set_option maxRecDepth 100000 in
theorem key_height_key3 : key_height [3] = 2 :=
  key_height_of_size [3] 252 (by omega) (by decide) (by decide)

set_option maxRecDepth 100000 in
theorem key_height_key5 : key_height [5] = 0 :=
  key_height_of_size [5] 256 (by omega) (by decide) (by decide)

/-- The leaf `{[0] ↦ [10]}` of the first diffed tree. -/
def diffLeaf : MSTNode := .mk [[0]] [[10]] [none, none]

/-- The keyless chain node above [ diffLeaf] (present because
`key_height [3] = 2` while `key_height [0] = 0`). -/
def diffChain : MSTNode := .mk [] [] [some diffLeaf]

/-- The root of the first diffed tree, `{[0] ↦ [10], [3] ↦ [11]}`. -/
def diffNodeA : MSTNode := .mk [[3]] [[11]] [some diffChain, none]

/-- The root of the second diffed tree, `{[5] ↦ [12]}` (a single leaf). -/
def diffNodeB : MSTNode := .mk [[5]] [[12]] [none, none]

theorem diffLeaf_contents : nodeContents diffLeaf = [([0], [10])] := by
  rw [diffLeaf]
  simp

theorem diffChain_contents : nodeContents diffChain = [([0], [10])] := by
  rw [diffChain]
  simp [diffLeaf_contents]

theorem diffNodeA_contents :
    nodeContents diffNodeA = [([0], [10]), ([3], [11])] := by
  rw [diffNodeA]
  simp [diffChain_contents]

theorem diffNodeB_contents : nodeContents diffNodeB = [([5], [12])] := by
  rw [diffNodeB]
  simp

theorem diffNodeA_rootCanon : rootCanon key_height diffNodeA := by
  refine Or.inr ⟨2, ?_, by rw [diffNodeA]; simp⟩
  rw [diffNodeA]
  refine Canon.mk 2 none none [[3]] [[11]] [some diffChain, none] rfl ?_ ?_
  · intro k hk
    simp at hk
    rw [hk]
    exact key_height_key3
  · refine SubsCanon.cons 2 none none [3] [] (some diffChain) [none] trivial ?_
      (SubsCanon.last 2 (some [3]) none none trivial
        (ChildCanon.none 2 (some [3]) none))
    refine ChildCanon.some 2 none (some [3]) diffChain (by omega) ?_
      (by rw [diffChain_contents]; simp)
    rw [diffChain]
    refine Canon.mk 1 none (some [3]) [] [] [some diffLeaf] rfl
      (by intro k hk; cases hk) ?_
    refine SubsCanon.last 1 none (some [3]) (some diffLeaf) trivial ?_
    refine ChildCanon.some 1 none (some [3]) diffLeaf (by omega) ?_
      (by rw [diffLeaf_contents]; simp)
    rw [diffLeaf]
    refine Canon.mk 0 none (some [3]) [[0]] [[10]] [none, none] rfl ?_ ?_
    · intro k hk
      simp at hk
      rw [hk]
      exact key_height_key0
    · exact SubsCanon.cons 0 none (some [3]) [0] [] none [none]
        trivial (ChildCanon.none 0 none (some [0]))
        (SubsCanon.last 0 (some [0]) (some [3]) none
          (by decide : keyLt [0] [3] = true)
          (ChildCanon.none 0 (some [0]) (some [3])))

theorem diffNodeB_rootCanon : rootCanon key_height diffNodeB := by
  refine Or.inr ⟨0, ?_, by rw [diffNodeB]; simp⟩
  rw [diffNodeB]
  refine Canon.mk 0 none none [[5]] [[12]] [none, none] rfl ?_ ?_
  · intro k hk
    simp at hk
    rw [hk]
    exact key_height_key5
  · exact SubsCanon.cons 0 none none [5] [] none [none]
      trivial (ChildCanon.none 0 none (some [5]))
      (SubsCanon.last 0 (some [5]) none none trivial
        (ChildCanon.none 0 (some [5]) none))

theorem buildMST_eq_diffNodeA :
    buildMST key_height [([0], [10]), ([3], [11])] = diffNodeA := by
  have hb := buildMST_canon (H := key_height) [([0], [10]), ([3], [11])]
  refine rootCanon_unique hb.1 diffNodeA_rootCanon ?_
  rw [hb.2, diffNodeA_contents]
  rfl

theorem buildMST_eq_diffNodeB :
    buildMST key_height [([5], [12])] = diffNodeB := by
  have hb := buildMST_canon (H := key_height) [([5], [12])]
  refine rootCanon_unique hb.1 diffNodeB_rootCanon ?_
  rw [hb.2, diffNodeB_contents]
  rfl

/-- C2: Diff soundness fails with a crash.  On the valid (canonical) trees
built by `put_record` from `{[0] ↦ [10], [3] ↦ [11]}` (two levels, since
`key_height [3] = 2`) and `{[5] ↦ [12]}` (a single leaf), `mst_diff` raises
an uncaught `Exception("cursor is already at rightmost position in node")`:
catching cursor `a` up towards rpath `[5]`, it descends through the chain
node into the leaf `[[0]]`, exhausts it (cursor at `idx = len(keys)`,
inherited rpath `[3] < [5]`, subtree `None`, not final), and then calls the
raising `right()` instead of `right_or_up()`.  `very_slow_mst_diff`
meanwhile returns the correct node-set difference on the same pair, so the
claimed equality `mst_diff = very_slow_mst_diff` fails on valid input. -/
theorem claim_C2_mst_diff_crash :
    buildMST key_height [([0], [10]), ([3], [11])] = diffNodeA ∧
    buildMST key_height [([5], [12])] = diffNodeB ∧
    rootCanon key_height diffNodeA ∧
    rootCanon key_height diffNodeB ∧
    mst_diff 100 diffNodeA diffNodeB = .error .crash ∧
    very_slow_mst_diff 100 diffNodeA diffNodeB =
      some ([diffNodeB], [diffNodeA, diffChain, diffLeaf]) :=
  ⟨buildMST_eq_diffNodeA, buildMST_eq_diffNodeB, diffNodeA_rootCanon,
   diffNodeB_rootCanon, by rfl, by rfl⟩
